import Mathlib

/-!
# logfs: block allocation, compaction, the write protocol, paths and set-up

A shallow embedding of `logfs.cpp` / `logfs.h`.  The process-wide globals of the program
are the fields of `State`; every function of the program that reads or writes them
becomes a function on `State`.

Conventions of the embedding

* `unsigned long long` sizes are natural numbers; the products computed by `convertSize`,
  the committed size and the start address are reduced modulo `2 ^ 64` as in the program.
* `memory` is the array of `blocksCount` slots of type `long long`; it is a `List Int`,
  `-1` is the FREE marker.  Array indices (`long long i`, `int j`, `unsigned long long i`)
  are natural numbers: this is exact for a device of fewer than `2 ^ 31` blocks, the range
  in which the `int` index of the shifting loop of `defragment` does not truncate.
* `currentFileId` starts at `3` and grows by one for each created file; the counter and
  the identifiers stored in `memory` are natural numbers (the 64-bit counter cannot wrap
  in fewer than `2 ^ 64 - 3` creations).  The comparison `memory[i] == fileId` of a
  `long long` with an `unsigned long long` is the comparison of the slot value with the
  identifier, which is what the program computes for identifiers below `2 ^ 63`.
* `blocksCount - currentPos` is the subtraction of natural numbers, which is what the
  program computes whenever `currentPos ≤ blocksCount`.
* `std::map` is an association list kept in ascending key order, which is the order
  in which the program iterates over it.
* `long double` is the x87 extended format with a 64-bit significand: every 64-bit
  integer is represented exactly, the quotient `d / f` is below `1` exactly when `d < f`
  (for `f = 0` it is infinite or NaN, and not below `1`), and `ceil (f / b)` is the
  integer ceiling of the exact quotient for `b ≠ 0`.  Both facts are proved below for
  the rounding of the format (`quotientBelowOneExt_eq`, `ceilDivExt_eq_ceilDiv`), so
  `commitFile` is written with the integer test and the integer ceiling.
* `std::string` is `String`, a list of characters; positions are natural numbers and
  `npos` is `2 ^ 64 - 1`.  A string of the program is shorter than `npos`; the theorems
  that need it say so.  The `int` counters `levels` and `n` of `moveUpDir` and
  `getAbsolutePath` are natural numbers.
* A call of `terminate` and an exception that nothing catches end the program: the set-up
  command `setBlockSize` returns the state it leaves or the way the program ends.
* Console output is not modelled; each command returns a value that records which
  message was printed and the numbers in it (`createDirectory` returns the state only).
-/

namespace LogFS

/-! ## Data model (logfs.h) -/

/-- The file record `struct file`. -/
structure file where
  path : String
  allocatedBlocks : Nat
  allocatedFileSize : Nat
deriving DecidableEq

/-- The global variables of the program. -/
structure State where
  currentDir : String
  files : List (Nat × file)
  memory : List Int
  diskSize : Nat
  blockSize : Nat
  diskUnit : String
  blockUnit : String
  blocksCount : Nat
  currentFileId : Nat
  currentPos : Nat
  directoryMap : List (String × String)
deriving DecidableEq

/-- Reduction of an `unsigned long long` result modulo `2 ^ 64`. -/
def wrap64 (n : Nat) : Nat := n % 2 ^ 64

/-- The value `std::string::npos` of type `size_t`. -/
def npos : Nat := 2 ^ 64 - 1

/-! ## std::map operations used by the program -/

/-- The assignment `m[k] = v` on a map kept in ascending key order. -/
def mapAssign (k : Nat) (v : file) : List (Nat × file) → List (Nat × file)
  | [] => [(k, v)]
  | (k1, v1) :: rest =>
    if k < k1 then (k, v) :: (k1, v1) :: rest
    else if k = k1 then (k, v) :: rest
    else (k1, v1) :: mapAssign k v rest

/-- The call `m.erase(k)`. -/
def mapErase (k : Nat) (m : List (Nat × file)) : List (Nat × file) :=
  m.filter (fun p => p.1 ≠ k)

/-- The read `m[k]` for a key that is present (the empty record otherwise). -/
def mapAt (m : List (Nat × file)) (k : Nat) : file :=
  match m.find? (fun p => p.1 = k) with
  | some p => p.2
  | none => { path := "", allocatedBlocks := 0, allocatedFileSize := 0 }

/-! ## std::string operations used by the program -/

/-- Position of the first occurrence of `pat` in `cs`, counted from `idx`. -/
def findAux (pat : List Char) : List Char → Nat → Nat
  | [], _ => npos
  | c :: cs, idx => if pat <+: (c :: cs) then idx else findAux pat cs (idx + 1)

/-- The call `s.find(pat, pos)` for a non-empty pattern. -/
def strFind (s : String) (pat : String) (pos : Nat) : Nat :=
  if s.data.length < pos then npos else findAux pat.data (s.data.drop pos) pos

/-- The scan behind `s.find_last_of(c)` for a one-character set: the index of the last
occurrence seen so far (`npos` before the first). -/
def findLastOfAux (c : Char) : List Char → Nat → Nat → Nat
  | [], _, last => last
  | x :: xs, idx, last => findLastOfAux c xs (idx + 1) (if x = c then idx else last)

/-- The call `s.find_last_of(c)`. -/
def strFindLastOf (s : String) (c : Char) : Nat := findLastOfAux c s.data 0 npos

/-- The test `s.find_first_of(c) == 0`: the string starts with `c`. -/
def startsWithChar (s : String) (c : Char) : Bool := s.data.head? = some c

/-- The call `s.substr(pos, len)` for `pos` within the string. -/
def strSubstr (s : String) (pos len : Nat) : String := ⟨(s.data.drop pos).take len⟩

/-- The call `s.substr(pos)` for `pos` within the string. -/
def strSubstrFrom (s : String) (pos : Nat) : String := ⟨s.data.drop pos⟩

/-- The value `s.length() - 1` of type `size_t`. -/
def lengthMinusOne (s : String) : Nat := wrap64 (s.data.length + 2 ^ 64 - 1)

/-! ## Helpers -/

/-- The function `ltrim`: erase the leading blanks and tabs. -/
def ltrim (line : String) : String :=
  ⟨line.data.dropWhile (fun c => c = ' ' ∨ c = '\t')⟩

/-- The counting loop of `moveUpDir`: the number of `/` in the path. -/
def moveUpDir.count (path : String) : Nat → Nat → Nat → Nat
  | 0, _, n => n
  | fuel + 1, pos, n =>
    if pos ≠ npos then moveUpDir.count path fuel (strFind path "/" (pos + 1)) (n + 1) else n

/-- The stripping loop of `moveUpDir`: cut at the last `/`, `k` times. -/
def moveUpDir.strip : Nat → String → String
  | 0, path => path
  | k + 1, path => moveUpDir.strip k (strSubstr path 0 (strFindLastOf path '/'))

/-- The function `moveUpDir`. -/
def moveUpDir (path : String) (levels : Nat) : String :=
  if path = "/" ∨ levels = 0 then path
  else
    let path := if strFindLastOf path '/' ≠ lengthMinusOne path then path ++ "/" else path
    let n := moveUpDir.count path (path.data.length + 1) (strFind path "/" 0) 0
    if (n : Int) - 1 ≤ (levels : Int) then "/"
    else moveUpDir.strip (levels + 1) path ++ "/"

/-- The loop of `getAbsolutePath` over the occurrences of `../`:
the pair `(levels, lastpos)` it leaves. -/
def getAbsolutePath.scan (path : String) : Nat → Nat → Nat → Nat → Nat × Nat
  | 0, _, levels, lastpos => (levels, lastpos)
  | fuel + 1, pos, levels, lastpos =>
    if pos ≠ npos then
      getAbsolutePath.scan path fuel (strFind path "../" (pos + 3)) (levels + 1) pos
    else (levels, lastpos)

/-- The function `getAbsolutePath`, with the global `currentDir` read from the state. -/
def getAbsolutePath (s : State) (path : String) : String :=
  let path := ltrim path
  if startsWithChar path '/' then path
  else if startsWithChar path '.' then
    if path = "." then s.currentDir
    else if path = ".." then moveUpDir s.currentDir 1
    else if strSubstr path 0 3 = "../" then
      let r := getAbsolutePath.scan path (path.data.length + 1) (strFind path "../" 0) 0 0
      moveUpDir s.currentDir r.1 ++ "" ++ strSubstrFrom path (r.2 + 3)
    else s.currentDir ++ "" ++ path
  else s.currentDir ++ "" ++ path

/-- The function `convertSize`. -/
def convertSize (size : Nat) (fromUnit toUnit : String) : Nat :=
  if toUnit = "B" then
    if fromUnit = "B" then size
    else if fromUnit = "KB" then wrap64 (size * 1024)
    else if fromUnit = "MB" then wrap64 (size * 1024 * 1024)
    else if fromUnit = "GB" then wrap64 (size * 1024 * 1024 * 1024)
    else if fromUnit = "TB" then wrap64 (size * 1024 * 1024 * 1024 * 1024)
    else 0
  else if toUnit = "KB" then
    if fromUnit = "KB" then size
    else if fromUnit = "MB" then wrap64 (size * 1024)
    else if fromUnit = "GB" then wrap64 (size * 1024 * 1024)
    else if fromUnit = "TB" then wrap64 (size * 1024 * 1024 * 1024)
    else 0
  else if toUnit = "MB" then
    if fromUnit = "MB" then size
    else if fromUnit = "GB" then wrap64 (size * 1024)
    else if fromUnit = "TB" then wrap64 (size * 1024 * 1024)
    else 0
  else if toUnit = "GB" then
    if fromUnit = "GB" then size
    else if fromUnit = "TB" then wrap64 (size * 1024)
    else 0
  else if toUnit = "TB" then
    if fromUnit = "TB" then size
    else 0
  else 0

/-- The scan of `isMemoryFull`, for `i + 1` the argument, downwards: the value of
`firstHit` after the loop. -/
def isMemoryFull.scan (memory : List Int) (blocksCount : Nat) : Nat → Nat
  | 0 => blocksCount
  | i + 1 => if memory.getD i 0 = -1 then i else isMemoryFull.scan memory blocksCount i

/-- The function `isMemoryFull`: the returned flag and the state it leaves. -/
def isMemoryFull (s : State) : Bool × State :=
  let firstHit := isMemoryFull.scan s.memory s.blocksCount s.blocksCount
  if firstHit = s.blocksCount then (true, { s with currentPos := s.blocksCount })
  else (false, s)

/-- The scan of `isMemoryEmpty`, for `i + 1` the argument, downwards: the value of
`firstHit` after the loop. -/
def isMemoryEmpty.scan (memory : List Int) (blocksCount : Nat) : Nat → Nat
  | 0 => blocksCount
  | i + 1 => if memory.getD i 0 ≠ -1 then i else isMemoryEmpty.scan memory blocksCount i

/-- The function `isMemoryEmpty`: the returned flag and the state it leaves. -/
def isMemoryEmpty (s : State) : Bool × State :=
  let firstHit := isMemoryEmpty.scan s.memory s.blocksCount s.blocksCount
  if firstHit = s.blocksCount then (true, { s with currentPos := 0 })
  else (false, s)

/-- The function `findFile`: the key of the first record, in key order, with the path. -/
def findFile (s : State) (filepath : String) : Nat :=
  match s.files.find? (fun p => p.2.path = filepath) with
  | some p => p.1
  | none => 0

/-- The counting loop of `getTotalAvailableBlocks`: `n` iterations from index `i`. -/
def getTotalAvailableBlocks.loop (memory : List Int) : Nat → Nat → Nat → Nat
  | 0, _, count => count
  | n + 1, i, count =>
    getTotalAvailableBlocks.loop memory n (i + 1)
      (if memory.getD i 0 = -1 then count + 1 else count)

/-- The function `getTotalAvailableBlocks`: the count and the state it leaves. -/
def getTotalAvailableBlocks (s : State) : Nat × State :=
  let r := isMemoryFull s
  if r.1 then (0, r.2)
  else (getTotalAvailableBlocks.loop r.2.memory r.2.blocksCount 0 0, r.2)

/-- The search loop of `getStartingAddress`: `n` iterations from index `i`; the value of
`blockPosition` after the loop. -/
def getStartingAddress.loop (memory : List Int) (fileId : Nat) : Nat → Nat → Nat
  | 0, _ => 0
  | n + 1, i =>
    if memory.getD i 0 = (fileId : Int) then i
    else getStartingAddress.loop memory fileId n (i + 1)

/-- The function `getStartingAddress`: the value stored in `address`. -/
def getStartingAddress (s : State) (fileId : Nat) : Nat :=
  let blockPosition := getStartingAddress.loop s.memory fileId s.blocksCount 0
  let blockSizeInBytes := convertSize s.blockSize s.blockUnit "B"
  wrap64 (blockPosition * blockSizeInBytes)

/-! ## Main operations -/

/-- The loop of `resetMemory`: `n` iterations from index `i`. -/
def resetMemory.loop (fileId : Nat) : Nat → Nat → List Int → List Int
  | 0, _, memory => memory
  | n + 1, i, memory =>
    resetMemory.loop fileId n (i + 1)
      (if memory.getD i 0 = (fileId : Int) then memory.set i (-1) else memory)

/-- The function `resetMemory`. -/
def resetMemory (s : State) (fileId : Nat) : State :=
  { s with memory := resetMemory.loop fileId s.blocksCount 0 s.memory }

/-- The inner (shifting) loop of `defragment`, on the pair `(memory, currentPos)`, from
index `j`.  The first argument bounds the number of iterations; the loop runs while
`j < currentPos` and `j` grows, so `currentPos - j` iterations suffice. -/
def defragment.shift : Nat → Nat → List Int × Nat → List Int × Nat
  | 0, _, st => st
  | fuel + 1, j, (memory, currentPos) =>
    if j < currentPos then
      if currentPos = j + 1 then
        defragment.shift fuel (j + 1) (memory.set j (-1), currentPos - 1)
      else
        defragment.shift fuel (j + 1) (memory.set j (memory.getD (j + 1) 0), currentPos)
    else (memory, currentPos)

/-- The outer loop of `defragment`, on the pair `(memory, currentPos)`, for `i + 1` the
argument, downwards to `0`. -/
def defragment.sweep : Nat → List Int × Nat → List Int × Nat
  | 0, st => st
  | i + 1, (memory, currentPos) =>
    if memory.getD i 0 = -1 ∧ currentPos = i + 1 then
      defragment.sweep i (memory, i)
    else if memory.getD i 0 = -1 then
      defragment.sweep i (defragment.shift (currentPos - i) i (memory, currentPos))
    else
      defragment.sweep i (memory, currentPos)

/-- The function `defragment`. -/
def defragment (s : State) : State :=
  let r := isMemoryFull s
  if r.1 then r.2
  else
    let e := isMemoryEmpty r.2
    if e.1 then e.2
    else
      let st := defragment.sweep e.2.currentPos (e.2.memory, e.2.currentPos)
      { e.2 with memory := st.1, currentPos := st.2 }

/-- The single-pass stable partition that the specification offers as the equivalent
formulation of compaction: the occupied slots move to the front in their original order,
the remaining slots are FREE, and the cursor is the number of occupied slots. -/
def stablePartition (s : State) : State :=
  { s with
    memory := s.memory.filter (fun v => v ≠ -1) ++ List.replicate (s.memory.count (-1)) (-1),
    currentPos := (s.memory.filter (fun v => v ≠ -1)).length }

/-- In `memory`, every slot holding `a` lies at a lower index than every slot holding
`b`. -/
def allBefore (a b : Int) (memory : List Int) : Prop :=
  ∀ i, i < memory.length → ∀ j, j < memory.length →
    memory.getD i 0 = a → memory.getD j 0 = b → i < j

instance (a b : Int) (memory : List Int) : Decidable (allBefore a b memory) := by
  unfold allBefore; infer_instance

/-- In `memory`, the slots holding `a` form one contiguous run. -/
def contiguousRun (a : Int) (memory : List Int) : Prop :=
  ∀ i, i < memory.length → ∀ j, j < memory.length → ∀ k, k < memory.length →
    (i < j ∧ j < k ∧ memory.getD i 0 = a ∧ memory.getD k 0 = a) → memory.getD j 0 = a

instance (a : Int) (memory : List Int) : Decidable (contiguousRun a memory) := by
  unfold contiguousRun; infer_instance

/-- A 6-block store with two holes below the cursor and a FREE tail. -/
def fragmentedStore : State :=
  { currentDir := "/", files := [], memory := [-1, 3, -1, 4, 4, -1],
    diskSize := 6, blockSize := 1, diskUnit := "MB", blockUnit := "MB", blocksCount := 6,
    currentFileId := 5, currentPos := 5, directoryMap := [("/", "/")] }

/-- What `commitFile` printed. -/
inductive CommitResult where
  | noSuchFile
  | deleted (fileId : Nat)
  | exceedsCapacity
  | notEnoughMemory
  | written (fileId startAddress allocatedFileSize : Nat)
deriving DecidableEq

/-- What `readFile` printed. -/
inductive ReadResult where
  | notFound (file : String)
  | found (path : String) (fileId startAddress allocatedFileSize : Nat)
deriving DecidableEq

/-- The value `ceil (f / b)` converted to `unsigned long long` (for `b = 0` the
conversion is undefined in the program; the model gives `0`). -/
def ceilDiv (f b : Nat) : Nat := (f + b - 1) / b

/-- Rounding of a rational to the nearest integer, ties to the even one. -/
def roundHalfEven (m : ℚ) : ℤ :=
  if m - ⌊m⌋ < 1 / 2 then ⌊m⌋
  else if 1 / 2 < m - ⌊m⌋ then ⌊m⌋ + 1
  else if ⌊m⌋ % 2 = 0 then ⌊m⌋
  else ⌊m⌋ + 1

/-- The `long double` value of an operation whose exact result is the non-negative
rational `q`, in the x87 extended format: `q` rounded to 64 significant bits, to the
nearest, ties to even.  (The exponent range is not modelled: the quotients of 64-bit
integers are far inside it.) -/
def roundExt (q : ℚ) : ℚ :=
  if q ≤ 0 then 0
  else roundHalfEven (q / 2 ^ (Int.log 2 q - 63)) * 2 ^ (Int.log 2 q - 63)

/-- The expression `ceil (f / b)` of `commitFile` as the program evaluates it: the two
64-bit integers are converted to `long double` (exactly), the quotient is rounded to the
format, `ceil` is exact, and the result is converted to `unsigned long long`. -/
def ceilDivExt (f b : Nat) : Nat := ⌈roundExt ((f : ℚ) / (b : ℚ))⌉.toNat

/-- The test `(d / f) < 1` of `commitFile` as the program evaluates it in `long double`,
for a non-zero `f`. -/
def quotientBelowOneExt (d f : Nat) : Bool := decide (roundExt ((d : ℚ) / (f : ℚ)) < 1)

/-- The block-writing loop of `commitFile`: `n` iterations from `i`, each storing the
identifier at `currentPos + i`. -/
def commitFile.fill (fileId currentPos : Nat) : Nat → Nat → List Int → List Int
  | 0, _, memory => memory
  | n + 1, i, memory =>
    commitFile.fill fileId currentPos n (i + 1) (memory.set (currentPos + i) (fileId : Int))

/-- The last part of `commitFile`, reached when there is enough memory to write: release
the previous blocks of an existing file, write the blocks at the cursor, update the file
map and the cursor, and report. -/
def commitFile.store (s : State) (filepath : String) (searchFileId requiredBlocks
    allocatedFileSize : Nat) : State × CommitResult :=
  let f1 : file :=
    { path := filepath, allocatedBlocks := requiredBlocks,
      allocatedFileSize := allocatedFileSize }
  if searchFileId ≠ 0 then
    let s1 := resetMemory s searchFileId
    let s2 := { s1 with
      memory := commitFile.fill searchFileId s1.currentPos requiredBlocks 0 s1.memory,
      files := mapAssign searchFileId f1 s1.files }
    let s3 := { s2 with currentPos := s2.currentPos + requiredBlocks }
    (s3, .written searchFileId (getStartingAddress s3 searchFileId) allocatedFileSize)
  else
    let s2 := { s with
      memory := commitFile.fill s.currentFileId s.currentPos requiredBlocks 0 s.memory,
      files := mapAssign s.currentFileId f1 s.files,
      currentFileId := s.currentFileId + 1 }
    let s3 := { s2 with currentPos := s2.currentPos + requiredBlocks }
    (s3, .written s.currentFileId (getStartingAddress s3 s.currentFileId) allocatedFileSize)

/-- The number of blocks `commitFile` computes for a request. -/
def requiredBlocksFor (s : State) (fileSize : Nat) (unit : String) : Nat :=
  ceilDiv (convertSize fileSize unit "B") (convertSize s.blockSize s.blockUnit "B")

/-- The function `commitFile`: the state it leaves and what it printed. -/
def commitFile (s : State) (filepath : String) (fileSize : Nat) (unit : String) :
    State × CommitResult :=
  let searchFileId := findFile s filepath
  if fileSize = 0 then
    if searchFileId = 0 then (s, .noSuchFile)
    else
      let s1 := resetMemory s searchFileId
      ({ s1 with files := mapErase searchFileId s1.files }, .deleted searchFileId)
  else
    let normalizedFileSize := convertSize fileSize unit "B"
    let normalizedDiskSize := convertSize s.diskSize s.diskUnit "B"
    if normalizedDiskSize < normalizedFileSize then (s, .exceedsCapacity)
    else
      let requiredBlocks := requiredBlocksFor s fileSize unit
      let allocatedFileSize := wrap64 (requiredBlocks * s.blockSize)
      let s1 := if s.currentPos = s.blocksCount then defragment s else s
      if s1.blocksCount - s1.currentPos < requiredBlocks then
        let t := getTotalAvailableBlocks s1
        if requiredBlocks ≤ t.1 then
          let s3 := defragment t.2
          if s3.blocksCount - s3.currentPos < requiredBlocks then (s3, .notEnoughMemory)
          else commitFile.store s3 filepath searchFileId requiredBlocks allocatedFileSize
        else (t.2, .notEnoughMemory)
      else commitFile.store s1 filepath searchFileId requiredBlocks allocatedFileSize

/-- The function `readFile`: the state it leaves and what it printed. -/
def readFile (s : State) (file : String) : State × ReadResult :=
  let file := getAbsolutePath s file
  let searchFileId := findFile s file
  if searchFileId = 0 then (s, .notFound file)
  else
    (s, .found (mapAt s.files searchFileId).path searchFileId
      (getStartingAddress s searchFileId) (mapAt s.files searchFileId).allocatedFileSize)

/-- The state `init` leaves, given the values the two set-up commands stored in the
geometry globals: the root is the current and only directory, every slot is FREE. -/
def initState (diskSize : Nat) (diskUnit : String) (blockSize : Nat) (blockUnit : String)
    (blocksCount : Nat) : State :=
  { currentDir := "/", files := [], memory := List.replicate blocksCount (-1),
    diskSize := diskSize, blockSize := blockSize, diskUnit := diskUnit,
    blockUnit := blockUnit, blocksCount := blocksCount, currentFileId := 3,
    currentPos := 0, directoryMap := [("/", "/")] }

/-- The states the program reaches from `s0` by `write` and `read` commands. -/
inductive Reachable (s0 : State) : State → Prop
  | start : Reachable s0 s0
  | commit {s : State} (filepath : String) (fileSize : Nat) (unit : String) :
      Reachable s0 s → Reachable s0 (commitFile s filepath fileSize unit).1
  | read {s : State} (file : String) :
      Reachable s0 s → Reachable s0 (readFile s file).1

/-- The state after the commands `write(/a, 1MB)`, `write(/b, 1MB)`, `write(/a, 0)` on a
device of 4 MB with blocks of 1 MB. -/
def sampleRun : State :=
  (commitFile (commitFile (commitFile (initState 4 "MB" 1 "MB" 4)
    "/a" 1 "MB").1 "/b" 1 "MB").1 "/a" 0 "").1

/-- The state after `write(/a, 2MB)`, `write(/b, 2MB)`, `write(/a, 0)` on a device of 4 MB
with blocks of 1 MB: two FREE slots below the cursor, the cursor at the end. -/
def holesBelowCursorRun : State :=
  (commitFile (commitFile (commitFile (initState 4 "MB" 1 "MB" 4)
    "/a" 2 "MB").1 "/b" 2 "MB").1 "/a" 0 "").1

/-- The state after `write(/a, 4MB)` on a device of 4 MB with blocks of 1 MB: one file
holds every block. -/
def oneFileFullRun : State :=
  (commitFile (initState 4 "MB" 1 "MB" 4) "/a" 4 "MB").1

/-- The state after `write(/a, 2MB)`, `write(/b, 2MB)` on a device of 4 MB with blocks of
1 MB: two files hold every block. -/
def twoFilesFullRun : State :=
  (commitFile (commitFile (initState 4 "MB" 1 "MB" 4) "/a" 2 "MB").1 "/b" 2 "MB").1

/-- The characters of `k` consecutive `../` segments. -/
def upSegments : Nat → List Char
  | 0 => []
  | k + 1 => '.' :: '.' :: '/' :: upSegments k

/-- The state after `mkdir(/a)`, `mkdir(/a/b)`, `chdir(/a/b)` on a device of 4 MB with blocks
of 1 MB: the current directory is `/a/b/`. -/
def inDirRun : State :=
  { initState 4 "MB" 1 "MB" 4 with
    currentDir := "/a/b/",
    directoryMap := [("/", "/"), ("/a/", "/a/"), ("/a/b/", "/a/b/")] }

/-- The state after `write(/a, 1MB)`, `write(/b, 3MB)` on a device of 4 MB with blocks of
1 MB: the store `[3, 4, 4, 4]` is full. -/
def mixedFullRun : State :=
  (commitFile (commitFile (initState 4 "MB" 1 "MB" 4) "/a" 1 "MB").1 "/b" 3 "MB").1

/-- The state in which `commitFile` looks for room at the tail: the compacted store when
the cursor is at the end of the device, the store as it is otherwise. -/
def preCompact (s : State) : State :=
  if s.currentPos = s.blocksCount then defragment s else s

/-- The state in which `commitFile` writes a request of `req` blocks that fits in the FREE
slots: `preCompact s` when its tail has room, and that state compacted once otherwise. -/
def writeState (s : State) (req : Nat) : State :=
  if req ≤ (preCompact s).blocksCount - (preCompact s).currentPos then preCompact s
  else defragment (preCompact s)

/-- The invariant of the reachable states: the store has `blocksCount` slots, the cursor
is in range, the slots from the cursor on are FREE, every occupied slot and every key of
the file map is an identifier from `3` up to (not including) `currentFileId`, and the file
map is in ascending key order. -/
structure Inv (s : State) : Prop where
  length_eq : s.memory.length = s.blocksCount
  pos_le : s.currentPos ≤ s.blocksCount
  tail_free : ∀ v ∈ s.memory.drop s.currentPos, v = (-1 : Int)
  slot_range : ∀ v ∈ s.memory, v = (-1 : Int) ∨ ((3 : Int) ≤ v ∧ v < (s.currentFileId : Int))
  key_range : ∀ p ∈ s.files, 3 ≤ p.1 ∧ p.1 < s.currentFileId
  keys_sorted : s.files.Pairwise (fun p q => p.1 < q.1)
  id_ge : 3 ≤ s.currentFileId

/-- The consistency of the file records with the block store: the slots that hold the key
of a record are as many as its `allocatedBlocks` and form one contiguous run, every
occupied slot holds a key of the file map, and two records with the same path are the
same record. -/
structure Consistent (s : State) : Prop where
  blocks : ∀ p ∈ s.files,
    s.memory.count (p.1 : Int) = p.2.allocatedBlocks ∧ contiguousRun (p.1 : Int) s.memory
  owned : ∀ v ∈ s.memory, v ≠ (-1 : Int) → ∃ p ∈ s.files, (p.1 : Int) = v
  paths : ∀ p ∈ s.files, ∀ q ∈ s.files, p.2.path = q.2.path → p = q

/-! ## Set-up of the geometry and the directory commands -/

/-- How a set-up command ends the program: one of the calls of `terminate`, or an
exception of the string library that nothing catches. -/
inductive SetupError where
  | invalidSyntax
  | sizeNotNumber
  | invalidUnit
  | zeroBlockSize
  | blockGreaterThanDisk
  | notIntegralBlocks
  | exception
deriving DecidableEq

/-- The function `isNumber`: no character other than a decimal digit. -/
def isNumber (number : String) : Bool := number.data.all (fun c => '0' ≤ c ∧ c ≤ '9')

/-- The value of a string of decimal digits. -/
def digitsValue (cs : List Char) : Nat := cs.foldl (fun acc c => acc * 10 + (c.toNat - 48)) 0

/-- The call `std::stoull(size)` on a string of decimal digits, which is what `isNumber`
lets through: the value, or no value when the call throws (the empty string, a value
that does not fit 64 bits). -/
def stoull (size : String) : Option Nat :=
  if size.data = [] then none
  else if digitsValue size.data < 2 ^ 64 then some (digitsValue size.data)
  else none

/-- The function `setBlockSize`: the state it leaves, or how the program ends. -/
def setBlockSize (s : State) (args : String) : Except SetupError State :=
  let len := args.data.length
  if len = 1 ∨ len = 2 then .error .invalidSyntax
  else if len = 0 then .error .exception
  else
    let unit := strSubstr args (len - 2) 2
    let size := strSubstr args 0 (len - 2)
    if ¬ isNumber size then .error .sizeNotNumber
    else if strFind unit "KB" 0 = npos ∧ strFind unit "MB" 0 = npos then .error .invalidUnit
    else
      match stoull size with
      | none => .error .exception
      | some blockSize =>
        let temp := convertSize s.diskSize s.diskUnit unit
        if blockSize = 0 then .error .zeroBlockSize
        else if temp < blockSize then .error .blockGreaterThanDisk
        else if temp % blockSize ≠ 0 then .error .notIntegralBlocks
        else .ok { s with blockUnit := unit, blockSize := blockSize,
                          blocksCount := temp / blockSize }

/-- The call `directoryMap.count(key)`. -/
def dirCount (m : List (String × String)) (key : String) : Nat :=
  if m.any (fun p => p.1 = key) then 1 else 0

/-- The order of `std::string`: the comparison of the characters from the left, a proper
prefix first. -/
def strLess : List Char → List Char → Bool
  | _, [] => false
  | [], _ :: _ => true
  | a :: as, b :: bs =>
    if a.toNat < b.toNat then true
    else if b.toNat < a.toNat then false
    else strLess as bs

/-- The assignment `directoryMap[key] = value` on a map kept in ascending key order. -/
def dirAssign (key value : String) : List (String × String) → List (String × String)
  | [] => [(key, value)]
  | (k1, v1) :: rest =>
    if strLess key.data k1.data then (key, value) :: (k1, v1) :: rest
    else if key = k1 then (key, value) :: rest
    else (k1, v1) :: dirAssign key value rest

/-- The step `if (temp.find_last_of("/") != temp.length() - 1) temp = temp + "/"` of the
directory commands. -/
def terminateWithSlash (temp : String) : String :=
  if strFindLastOf temp '/' ≠ lengthMinusOne temp then temp ++ "/" else temp

/-- The registration of one path by `createDirectory`, after the path was resolved. -/
def createDirectory.register (s : State) (temp : String) : State :=
  let temp := terminateWithSlash temp
  if dirCount s.directoryMap temp = 0 then
    { s with directoryMap := dirAssign temp temp s.directoryMap }
  else s

/-- The scan of `strtok` with the delimiter `,`: `cur` holds, in reverse, the characters
of the token being read; an empty run between two commas gives no token. -/
def strtokTokens.go : List Char → List Char → List String
  | [], cur => if cur = [] then [] else [String.mk cur.reverse]
  | c :: cs, cur =>
    if c = ',' then
      if cur = [] then strtokTokens.go cs []
      else String.mk cur.reverse :: strtokTokens.go cs []
    else strtokTokens.go cs (c :: cur)

/-- The tokens `strtok` cuts out of the C string of `args` at the commas: the non-empty
runs without a comma, up to the first NUL character. -/
def strtokTokens (args : String) : List String :=
  strtokTokens.go (args.data.takeWhile (fun c => c ≠ Char.ofNat 0)) []

/-- The function `createDirectory`. -/
def createDirectory (s : State) (args : String) : State :=
  if args.data.any (fun c => c = ',') then
    (strtokTokens args).foldl
      (fun st token => createDirectory.register st (getAbsolutePath st (ltrim token))) s
  else createDirectory.register s (getAbsolutePath s args)

/-- The function `changeDirectory`: the state it leaves and whether the directory was
found. -/
def changeDirectory (s : State) (args : String) : State × Bool :=
  let temp := terminateWithSlash (getAbsolutePath s args)
  if dirCount s.directoryMap temp = 0 then (s, false)
  else ({ s with currentDir := temp }, true)

/-- The states the program reaches from `s0` by `mkdir` and `chdir` commands.  Every
string the program builds is a `std::string`, so the path a command resolves, made
slash-terminated, is shorter than `npos`. -/
inductive DirReachable (s0 : State) : State → Prop
  | start : DirReachable s0 s0
  | mkdir {s : State} (args : String) :
      s.currentDir.data.length + args.data.length + 1 < npos →
        DirReachable s0 s → DirReachable s0 (createDirectory s args)
  | chdir {s : State} (args : String) :
      s.currentDir.data.length + args.data.length + 1 < npos →
        DirReachable s0 s → DirReachable s0 (changeDirectory s args).1

/-- The invariant of the directory registry: every key starts and ends with `/`, and
the current directory is a key. -/
structure DirInv (s : State) : Prop where
  keys : ∀ p ∈ s.directoryMap, p.1.data.head? = some '/' ∧ p.1.data.getLast? = some '/'
  current : ∃ p ∈ s.directoryMap, p.1 = s.currentDir

/-! ## Reference definitions -/

/-- The rank of a unit on the scale `B < KB < MB < GB < TB`. -/
def unitRank (u : String) : Option Nat :=
  if u = "B" then some 0
  else if u = "KB" then some 1
  else if u = "MB" then some 2
  else if u = "GB" then some 3
  else if u = "TB" then some 4
  else none

/-- The reference definition of the unit conversion: the quantity times `1024` to the
difference of the ranks, modulo `2 ^ 64`, when the source unit is not the smaller one;
`0` otherwise and for a string that is not a unit. -/
def convertSizeRef (q : Nat) (fromUnit toUnit : String) : Nat :=
  match unitRank fromUnit, unitRank toUnit with
  | some f, some t => if t ≤ f then (q * 1024 ^ (f - t)) % 2 ^ 64 else 0
  | _, _ => 0

/-- The prefix of a path that ends at, and includes, its `k`-th `/` (the whole path when
it has fewer). -/
def prefixThroughSlash : Nat → List Char → List Char
  | 0, _ => []
  | _ + 1, [] => []
  | k + 1, c :: cs =>
    if c = '/' then c :: prefixThroughSlash k cs else c :: prefixThroughSlash (k + 1) cs

/-- A path made slash-terminated. -/
def slashTerminated (l : List Char) : List Char :=
  if l.getLast? = some '/' then l else l ++ ['/']

/-! ## The fullness and emptiness scans -/

theorem getD_free_iff_mem (memory : List Int) (v : Int) :
    (∃ i, i < memory.length ∧ memory.getD i 0 = v) ↔ v ∈ memory := by
  constructor
  · rintro ⟨i, hi, h⟩
    rw [List.getD_eq_getElem _ _ hi] at h
    exact h ▸ List.getElem_mem hi
  · intro h
    obtain ⟨i, hi, h⟩ := List.getElem_of_mem h
    exact ⟨i, hi, by rw [List.getD_eq_getElem _ _ hi]; exact h⟩

theorem isMemoryFull_scan_lt (memory : List Int) (N : Nat) :
    ∀ n, n ≤ N → (isMemoryFull.scan memory N n = N ↔ ∀ i, i < n → memory.getD i 0 ≠ -1)
  | 0, _ => by simp [isMemoryFull.scan]
  | n + 1, h => by
    have ih := isMemoryFull_scan_lt memory N n (by omega)
    by_cases hm : memory.getD n 0 = -1
    · simp only [isMemoryFull.scan, hm, if_true]
      constructor
      · intro h1; omega
      · intro h1; exact absurd hm (h1 n (by omega))
    · simp only [isMemoryFull.scan, hm, if_false, ih]
      constructor
      · intro h1 i hi
        rcases Nat.lt_succ_iff_lt_or_eq.mp hi with h2 | h2
        · exact h1 i h2
        · exact h2 ▸ hm
      · intro h1 i hi; exact h1 i (by omega)

theorem isMemoryEmpty_scan_lt (memory : List Int) (N : Nat) :
    ∀ n, n ≤ N → (isMemoryEmpty.scan memory N n = N ↔ ∀ i, i < n → memory.getD i 0 = -1)
  | 0, _ => by simp [isMemoryEmpty.scan]
  | n + 1, h => by
    have ih := isMemoryEmpty_scan_lt memory N n (by omega)
    by_cases hm : memory.getD n 0 = -1
    · simp only [isMemoryEmpty.scan, hm, ne_eq, not_true_eq_false, if_false, ih]
      constructor
      · intro h1 i hi
        rcases Nat.lt_succ_iff_lt_or_eq.mp hi with h2 | h2
        · exact h1 i h2
        · exact h2 ▸ hm
      · intro h1 i hi; exact h1 i (by omega)
    · simp only [isMemoryEmpty.scan, hm, ne_eq, not_false_eq_true, if_true]
      constructor
      · intro h1; omega
      · intro h1; exact absurd (h1 n (by omega)) hm

/-- `isMemoryFull` on a well-sized store: full exactly when no slot is FREE. -/
theorem isMemoryFull_eq (s : State) (hlen : s.memory.length = s.blocksCount) :
    isMemoryFull s =
      if (-1 : Int) ∈ s.memory then (false, s)
      else (true, { s with currentPos := s.blocksCount }) := by
  unfold isMemoryFull
  have h := isMemoryFull_scan_lt s.memory s.blocksCount s.blocksCount (le_refl _)
  have h2 := getD_free_iff_mem s.memory (-1)
  by_cases hm : (-1 : Int) ∈ s.memory
  · have : ¬ isMemoryFull.scan s.memory s.blocksCount s.blocksCount = s.blocksCount := by
      rw [h]; intro h3
      obtain ⟨i, hi, h4⟩ := h2.mpr hm
      exact h3 i (hlen ▸ hi) h4
    simp [this, hm]
  · have : isMemoryFull.scan s.memory s.blocksCount s.blocksCount = s.blocksCount := by
      rw [h]; intro i hi h4
      exact hm (h2.mp ⟨i, hlen ▸ hi, h4⟩)
    simp [this, hm]

/-- `isMemoryEmpty` on a well-sized store: empty exactly when every slot is FREE. -/
theorem isMemoryEmpty_eq (s : State) (hlen : s.memory.length = s.blocksCount) :
    isMemoryEmpty s =
      if ∀ v ∈ s.memory, v = (-1 : Int) then (true, { s with currentPos := 0 })
      else (false, s) := by
  unfold isMemoryEmpty
  have h := isMemoryEmpty_scan_lt s.memory s.blocksCount s.blocksCount (le_refl _)
  by_cases hm : ∀ v ∈ s.memory, v = (-1 : Int)
  · have : isMemoryEmpty.scan s.memory s.blocksCount s.blocksCount = s.blocksCount := by
      rw [h]; intro i hi
      have hi2 : i < s.memory.length := hlen ▸ hi
      rw [List.getD_eq_getElem _ _ hi2]
      exact hm _ (List.getElem_mem hi2)
    rw [if_pos this, if_pos hm]
  · have : ¬ isMemoryEmpty.scan s.memory s.blocksCount s.blocksCount = s.blocksCount := by
      rw [h]; intro h3
      apply hm
      intro v hv
      obtain ⟨i, hi, h4⟩ := List.getElem_of_mem hv
      have := h3 i (hlen ▸ hi)
      rw [List.getD_eq_getElem _ _ hi] at this
      exact h4 ▸ this
    rw [if_neg this, if_neg hm]

/-! ## The loops of `defragment` -/

theorem set_at_length (P : List Int) (x v : Int) (T : List Int) :
    (P ++ x :: T).set P.length v = P ++ v :: T := by
  induction P with
  | nil => rfl
  | cons p P ih => simp [List.set, ih]

theorem getD_at_length (P : List Int) (x : Int) (T : List Int) :
    (P ++ x :: T).getD P.length 0 = x := by
  induction P with
  | nil => rfl
  | cons p P ih => simpa using ih

theorem getD_at_length_succ (P : List Int) (x y : Int) (T : List Int) :
    (P ++ x :: y :: T).getD (P.length + 1) 0 = y := by
  have := getD_at_length (P ++ [x]) y T
  simpa using this

/-- The shifting loop removes the slot at index `j` from the used prefix: the slots after
it move one step down, the last used slot becomes FREE and the cursor retracts by one. -/
theorem shift_eq (Q : List Int) :
    ∀ (fuel : Nat) (P : List Int) (x : Int) (R : List Int), Q.length + 1 ≤ fuel →
      defragment.shift fuel P.length (P ++ x :: (Q ++ R), P.length + 1 + Q.length) =
        (P ++ (Q ++ (-1) :: R), P.length + Q.length) := by
  induction Q with
  | nil =>
    intro fuel P x R hf
    obtain ⟨f, rfl⟩ : ∃ f, fuel = f + 1 := ⟨fuel - 1, by simp at hf; omega⟩
    simp only [defragment.shift, List.length_nil, Nat.add_zero, List.nil_append,
      Nat.lt_succ_self, if_true, set_at_length, Nat.add_sub_cancel]
    cases f with
    | zero => rfl
    | succ f => simp [defragment.shift]
  | cons y Q ih =>
    intro fuel P x R hf
    obtain ⟨f, rfl⟩ : ∃ f, fuel = f + 1 := ⟨fuel - 1, by simp at hf; omega⟩
    have h1 : P.length < P.length + 1 + (y :: Q).length := by simp; omega
    have h2 : ¬ P.length + 1 + (y :: Q).length = P.length + 1 := by simp
    simp only [defragment.shift, h1, h2, if_true, if_false, List.cons_append,
      getD_at_length_succ, set_at_length]
    have := ih f (P ++ [y]) y R (by simp at hf ⊢; omega)
    simp only [List.length_append, List.length_singleton, List.append_assoc,
      List.singleton_append] at this
    rw [show P.length + 1 + (y :: Q).length = P.length + 1 + 1 + Q.length by simp; omega]
    rw [this]
    simp; omega

/-- The outer loop of `defragment` over a region `A` that is followed by occupied slots
`B` up to the cursor: the occupied slots of `A` are kept in order in front of `B`, and one
FREE slot per hole of `A` is left between the new cursor and the old one. -/
theorem sweep_eq (A : List Int) :
    ∀ (B F : List Int), (∀ b ∈ B, b ≠ (-1 : Int)) →
      defragment.sweep A.length (A ++ (B ++ F), A.length + B.length) =
        (A.filter (fun v => v ≠ -1) ++ (B ++ (List.replicate (A.count (-1)) (-1) ++ F)),
          (A.filter (fun v => v ≠ -1)).length + B.length) := by
  induction A using List.reverseRecOn with
  | nil => intro B F _; simp [defragment.sweep]
  | append_singleton A a ih =>
    intro B F hB
    have hget : (A ++ [a] ++ (B ++ F)).getD A.length 0 = a := by
      have := getD_at_length A a (B ++ F)
      simpa using this
    rw [show (A ++ [a]).length = A.length + 1 by simp]
    by_cases ha : a = -1
    · subst ha
      cases B with
      | nil =>
        have := ih [] ((-1) :: F) (by simp)
        simp only [defragment.sweep, hget, List.length_nil, Nat.add_zero, and_self, if_true]
        simp only [List.nil_append, List.length_nil, Nat.add_zero, List.append_assoc,
          List.singleton_append] at this ⊢
        rw [this]
        simp [List.filter_append, List.count_append, List.replicate_succ']
      | cons b B =>
        have hne : ¬ (A.length + 1 + (b :: B).length = A.length + 1) := by simp
        simp only [defragment.sweep, hget, hne, and_false, if_true, if_false]
        have hs := shift_eq (b :: B) (A.length + 1 + (b :: B).length - A.length) A (-1) F
          (by simp; omega)
        simp only [List.append_assoc, List.singleton_append]
        rw [hs]
        have := ih (b :: B) ((-1) :: F) hB
        rw [this]
        simp [List.filter_append, List.count_append, List.replicate_succ']
    · have h1 : ¬ (a = -1 ∧ A.length + 1 + B.length = A.length + 1) := fun h => ha h.1
      simp only [defragment.sweep, hget, ha, false_and, if_false]
      have := ih (a :: B) F (by
        intro b hb
        rcases List.mem_cons.mp hb with h | h
        · exact h ▸ ha
        · exact hB b h)
      simp only [List.cons_append] at this
      simp only [List.append_assoc, List.singleton_append, List.cons_append, List.nil_append]
      rw [show A.length + 1 + B.length = A.length + (a :: B).length by simp; omega, this]
      have hc : List.count (-1) [a] = 0 :=
        List.count_eq_zero.mpr (by simp; exact fun h => ha h.symm)
      simp [List.filter_append, List.count_append, ha, hc]
      omega

/-! ## Closed form of `defragment` -/

/-- The tail of the store from the cursor on is FREE: list form of the index form. -/
theorem tailFree_iff (memory : List Int) (cp : Nat) :
    (∀ i, cp ≤ i → i < memory.length → memory.getD i 0 = -1) ↔
      ∀ v ∈ memory.drop cp, v = (-1 : Int) := by
  constructor
  · intro h v hv
    obtain ⟨i, hi, h4⟩ := List.getElem_of_mem hv
    simp only [List.getElem_drop, List.length_drop] at h4 hi
    have := h (cp + i) (by omega) (by omega)
    rw [List.getD_eq_getElem _ _ (by omega)] at this
    exact h4 ▸ this
  · intro h i h1 h2
    rw [List.getD_eq_getElem _ _ h2]
    apply h
    rw [List.mem_drop_iff_getElem]
    exact ⟨i - cp, by omega, by congr 1; omega⟩

theorem all_free_eq_replicate (l : List Int) (h : ∀ v ∈ l, v = (-1 : Int)) :
    l = List.replicate l.length (-1) :=
  List.eq_replicate_iff.mpr ⟨rfl, h⟩

theorem filter_occupied_of_all_free (l : List Int) (h : ∀ v ∈ l, v = (-1 : Int)) :
    l.filter (fun v => v ≠ -1) = [] := by
  rw [List.filter_eq_nil_iff]
  intro v hv
  simp [h v hv]

theorem count_free_of_all_free (l : List Int) (h : ∀ v ∈ l, v = (-1 : Int)) :
    l.count (-1) = l.length := by
  rw [List.count_eq_length]
  intro v hv
  exact (h v hv).symm

theorem filter_occupied_of_full (l : List Int) (h : (-1 : Int) ∉ l) :
    l.filter (fun v => v ≠ -1) = l := by
  rw [List.filter_eq_self]
  intro v hv
  simp only [ne_eq, decide_eq_true_eq]
  intro h2
  exact h (h2 ▸ hv)

theorem length_filter_add_count (l : List Int) :
    (l.filter (fun v => v ≠ -1)).length + l.count (-1) = l.length := by
  induction l with
  | nil => rfl
  | cons a l ih =>
    by_cases ha : a = -1
    · subst ha
      rw [List.filter_cons_of_neg (by simp), List.count_cons_self, List.length_cons]
      omega
    · rw [List.filter_cons_of_pos (by simpa using ha),
        List.count_cons_of_ne (fun h => ha h.symm), List.length_cons, List.length_cons]
      omega

/-- Closed form of `defragment` on a store of `blocksCount` slots with the cursor in
range. -/
theorem defragment_eq (s : State) (hlen : s.memory.length = s.blocksCount)
    (hcp : s.currentPos ≤ s.blocksCount) :
    defragment s =
      if (-1 : Int) ∉ s.memory then { s with currentPos := s.blocksCount }
      else if ∀ v ∈ s.memory, v = (-1 : Int) then { s with currentPos := 0 }
      else { s with
        memory := (s.memory.take s.currentPos).filter (fun v => v ≠ -1) ++
          (List.replicate ((s.memory.take s.currentPos).count (-1)) (-1) ++
            s.memory.drop s.currentPos),
        currentPos := ((s.memory.take s.currentPos).filter (fun v => v ≠ -1)).length } := by
  unfold defragment
  rw [isMemoryFull_eq s hlen]
  by_cases hf : (-1 : Int) ∈ s.memory
  · rw [if_pos hf, if_neg (not_not.mpr hf)]
    simp only [Bool.false_eq_true, if_false]
    rw [isMemoryEmpty_eq s hlen]
    by_cases he : ∀ v ∈ s.memory, v = (-1 : Int)
    · rw [if_pos he, if_pos he]; rfl
    · rw [if_neg he, if_neg he]
      simp only [Bool.false_eq_true, if_false]
      have hs := sweep_eq (s.memory.take s.currentPos) [] (s.memory.drop s.currentPos)
        (by simp)
      simp only [List.nil_append, List.length_nil, Nat.add_zero, List.take_append_drop,
        List.length_take, hlen, Nat.min_eq_left hcp] at hs
      rw [hs]
  · rw [if_neg hf, if_pos hf]; rfl

/-- On a store whose slots from the cursor on are FREE, `defragment` is the stable
partition. -/
theorem defragment_eq_stablePartition (s : State) (hlen : s.memory.length = s.blocksCount)
    (hcp : s.currentPos ≤ s.blocksCount)
    (htail : ∀ v ∈ s.memory.drop s.currentPos, v = (-1 : Int)) :
    defragment s = stablePartition s := by
  rw [defragment_eq s hlen hcp]
  unfold stablePartition
  by_cases hf : (-1 : Int) ∈ s.memory
  · by_cases he : ∀ v ∈ s.memory, v = (-1 : Int)
    · rw [if_neg (not_not.mpr hf), if_pos he, filter_occupied_of_all_free _ he,
        count_free_of_all_free _ he, ← all_free_eq_replicate _ he]
      rfl
    · rw [if_neg (not_not.mpr hf), if_neg he]
      have h1 : s.memory.filter (fun v => v ≠ -1) =
          (s.memory.take s.currentPos).filter (fun v => v ≠ -1) := by
        conv_lhs => rw [← List.take_append_drop s.currentPos s.memory]
        rw [List.filter_append, filter_occupied_of_all_free _ htail, List.append_nil]
      have h2 : List.replicate (s.memory.count (-1)) (-1) =
          List.replicate ((s.memory.take s.currentPos).count (-1)) (-1) ++
            s.memory.drop s.currentPos := by
        conv_lhs => rw [← List.take_append_drop s.currentPos s.memory]
        rw [List.count_append, count_free_of_all_free _ htail, List.replicate_add,
          ← all_free_eq_replicate _ htail]
      rw [h1, h2]
  · rw [if_pos hf, filter_occupied_of_full _ hf, List.count_eq_zero.mpr hf, hlen]
    simp

/-! ## Compaction: post-condition and idempotence -/

theorem stablePartition_getD_free (s : State) (i : Nat)
    (h1 : (stablePartition s).currentPos ≤ i) (h2 : i < s.memory.length) :
    (stablePartition s).memory.getD i 0 = -1 := by
  unfold stablePartition at *
  simp only at h1 ⊢
  rw [List.getD_append_right _ _ _ _ h1, List.getD_eq_getElem _ _ (by
    have := length_filter_add_count s.memory
    simp only [List.length_replicate]; omega)]
  simp

theorem stablePartition_getD_occupied (s : State) (i : Nat)
    (h1 : i < (stablePartition s).currentPos) :
    (stablePartition s).memory.getD i 0 ≠ -1 := by
  unfold stablePartition at *
  simp only at h1 ⊢
  rw [List.getD_append _ _ _ _ h1, List.getD_eq_getElem _ _ h1]
  have := List.getElem_mem h1
  rw [List.mem_filter] at this
  simpa using this.2

theorem stablePartition_length (s : State) :
    (stablePartition s).memory.length = s.memory.length := by
  unfold stablePartition
  have := length_filter_add_count s.memory
  simp only [List.length_append, List.length_replicate]; omega

theorem stablePartition_currentPos_le (s : State) :
    (stablePartition s).currentPos ≤ s.memory.length := by
  unfold stablePartition
  have := length_filter_add_count s.memory
  simp only; omega

/-- C3. Compaction is idempotent: on a store of `blocksCount` slots with the cursor in
range, a second `defragment` leaves the whole state (memory array and cursor included) as
the first one left it. -/
theorem defragment_idempotent (s : State) (hlen : s.memory.length = s.blocksCount)
    (hcp : s.currentPos ≤ s.blocksCount) :
    defragment (defragment s) = defragment s := by
  rw [defragment_eq s hlen hcp]
  by_cases hf : (-1 : Int) ∈ s.memory
  · by_cases he : ∀ v ∈ s.memory, v = (-1 : Int)
    · rw [if_neg (not_not.mpr hf), if_pos he]
      rw [defragment_eq { s with currentPos := 0 } hlen (Nat.zero_le _)]
      rw [if_neg (not_not.mpr hf), if_pos he]
    · rw [if_neg (not_not.mpr hf), if_neg he]
      have hsplit := List.take_append_drop s.currentPos s.memory
      have hlt : (s.memory.take s.currentPos).length = s.currentPos := by
        rw [List.length_take, hlen]; exact Nat.min_eq_left hcp
      have hcnt := length_filter_add_count (s.memory.take s.currentPos)
      have hdl : (s.memory.drop s.currentPos).length = s.blocksCount - s.currentPos := by
        rw [List.length_drop, hlen]
      rw [defragment_eq _ (by
        simp only [List.length_append, List.length_replicate]; omega) (by
        simp only; omega)]
      have hf2 : (-1 : Int) ∈
          (s.memory.take s.currentPos).filter (fun v => v ≠ -1) ++
            (List.replicate ((s.memory.take s.currentPos).count (-1)) (-1) ++
              s.memory.drop s.currentPos) := by
        rw [← hsplit] at hf
        rcases List.mem_append.mp hf with h | h
        · refine List.mem_append_right _ (List.mem_append_left _ ?_)
          rw [List.mem_replicate]
          exact ⟨Nat.ne_of_gt (List.count_pos_iff.mpr h), rfl⟩
        · exact List.mem_append_right _ (List.mem_append_right _ h)
      have he2 : ¬ ∀ v ∈ (s.memory.take s.currentPos).filter (fun v => v ≠ -1) ++
            (List.replicate ((s.memory.take s.currentPos).count (-1)) (-1) ++
              s.memory.drop s.currentPos), v = (-1 : Int) := by
        intro h
        apply he
        intro v hv
        rw [← hsplit] at hv
        by_contra hne
        rcases List.mem_append.mp hv with h1 | h1
        · exact hne (h v (List.mem_append_left _
            (List.mem_filter.mpr ⟨h1, by simpa using hne⟩)))
        · exact hne (h v (List.mem_append_right _ (List.mem_append_right _ h1)))
      simp only
      rw [if_neg (not_not.mpr hf2), if_neg he2]
      have h3 : ((s.memory.take s.currentPos).filter (fun v => v ≠ -1)).filter
          (fun v => v ≠ -1) = (s.memory.take s.currentPos).filter (fun v => v ≠ -1) := by
        rw [List.filter_filter]; simp
      have h4 : ((s.memory.take s.currentPos).filter (fun v => v ≠ -1)).count (-1) = 0 := by
        rw [List.count_eq_zero]; intro h; simpa using (List.mem_filter.mp h).2
      rw [List.take_left, List.drop_left, h3, h4]
      simp
  · rw [if_pos hf]
    rw [defragment_eq { s with currentPos := s.blocksCount } hlen (le_refl _)]
    rw [if_pos hf]

/-- C3, at a store with two holes below the cursor. -/
theorem defragment_idempotent_witness :
    defragment (defragment fragmentedStore) = defragment fragmentedStore :=
  defragment_idempotent fragmentedStore (by decide) (by decide)

/-! ## Compaction is the stable partition -/

theorem pair_sublist_of_index (l : List Int) (i j : Nat) (hij : i < j) (hj : j < l.length) :
    List.Sublist [l.getD i 0, l.getD j 0] l := by
  have h := @List.map_getElem_sublist _ l [⟨i, by omega⟩, ⟨j, hj⟩] (by simpa using hij)
  rw [List.getD_eq_getElem _ _ (by omega), List.getD_eq_getElem _ _ hj]
  simpa using h

theorem triple_sublist_of_index (l : List Int) (i j k : Nat) (hij : i < j) (hjk : j < k)
    (hk : k < l.length) : List.Sublist [l.getD i 0, l.getD j 0, l.getD k 0] l := by
  have h := @List.map_getElem_sublist _ l [⟨i, by omega⟩, ⟨j, by omega⟩, ⟨k, hk⟩]
    (by simp; omega)
  rw [List.getD_eq_getElem _ _ (by omega), List.getD_eq_getElem _ _ (by omega),
    List.getD_eq_getElem _ _ hk]
  simpa using h

theorem index_of_pair_sublist (l : List Int) (x y : Int) (h : List.Sublist [x, y] l) :
    ∃ i j, i < j ∧ j < l.length ∧ l.getD i 0 = x ∧ l.getD j 0 = y := by
  obtain ⟨is, h1, h2⟩ := List.sublist_eq_map_getElem h
  match is, h1, h2 with
  | [a, b], h1, h2 =>
    simp only [List.map_cons, List.map_nil, List.cons.injEq, and_true] at h1
    simp only [List.pairwise_cons, List.mem_singleton, forall_eq, List.not_mem_nil,
      false_implies, implies_true, List.Pairwise.nil, and_true] at h2
    refine ⟨a, b, h2, b.2, ?_, ?_⟩
    · rw [List.getD_eq_getElem _ _ a.2]; exact h1.1.symm
    · rw [List.getD_eq_getElem _ _ b.2]; exact h1.2.symm

theorem index_of_triple_sublist (l : List Int) (x y z : Int) (h : List.Sublist [x, y, z] l) :
    ∃ i j k, i < j ∧ j < k ∧ k < l.length ∧ l.getD i 0 = x ∧ l.getD j 0 = y ∧
      l.getD k 0 = z := by
  obtain ⟨is, h1, h2⟩ := List.sublist_eq_map_getElem h
  match is, h1, h2 with
  | [a, b, c], h1, h2 =>
    simp only [List.map_cons, List.map_nil, List.cons.injEq, and_true] at h1
    simp only [List.pairwise_cons, List.mem_cons, List.mem_singleton, forall_eq_or_imp,
      forall_eq, List.not_mem_nil, false_implies, implies_true, List.Pairwise.nil,
      and_true] at h2
    refine ⟨a, b, c, h2.1.1, h2.2, c.2, ?_, ?_, ?_⟩
    · rw [List.getD_eq_getElem _ _ a.2]; exact h1.1.symm
    · rw [List.getD_eq_getElem _ _ b.2]; exact h1.2.1.symm
    · rw [List.getD_eq_getElem _ _ c.2]; exact h1.2.2.symm

/-- A list of occupied values that is a sublist of the compacted store is a sublist of the
store before compaction. -/
theorem occupied_sublist_of_stablePartition (s : State) (p : List Int)
    (hp : ∀ v ∈ p, v ≠ (-1 : Int)) (h : List.Sublist p (stablePartition s).memory) :
    List.Sublist p s.memory := by
  have h1 := h.filter (fun v => v ≠ -1)
  have hpf : p.filter (fun v => v ≠ -1) = p := by
    rw [List.filter_eq_self]; intro v hv; simpa using hp v hv
  have hrf : (stablePartition s).memory.filter (fun v => v ≠ -1) =
      s.memory.filter (fun v => v ≠ -1) := by
    unfold stablePartition
    simp only [List.filter_append, List.filter_filter, Bool.and_self]
    rw [filter_occupied_of_all_free (List.replicate _ _)
      (fun v hv => (List.mem_replicate.mp hv).2), List.append_nil]
  rw [hpf, hrf] at h1
  exact h1.trans (List.filter_sublist _)

theorem allBefore_stablePartition (s : State) (a b : Int) (ha : a ≠ -1) (hb : b ≠ -1)
    (h : allBefore a b s.memory) : allBefore a b (stablePartition s).memory := by
  intro i hi j hj h1 h2
  by_contra hij
  rcases Nat.lt_or_eq_of_le (Nat.le_of_not_lt hij) with hlt | heq
  · have hsub := pair_sublist_of_index _ j i hlt hi
    rw [h1, h2] at hsub
    have := occupied_sublist_of_stablePartition s [b, a] (by
      intro v hv; simp only [List.mem_cons, List.mem_singleton, List.not_mem_nil,
        or_false] at hv
      rcases hv with rfl | rfl <;> assumption) hsub
    obtain ⟨p, q, hpq, hq, hp1, hq1⟩ := index_of_pair_sublist _ _ _ this
    have := h q hq p (by omega) hq1 hp1
    omega
  · subst heq
    have hab : a = b := h1.symm.trans h2
    subst hab
    have hmem : List.Sublist [a] (stablePartition s).memory := by
      rw [List.singleton_sublist, ← h1, List.getD_eq_getElem _ _ hj]
      exact List.getElem_mem _
    have := occupied_sublist_of_stablePartition s [a] (by
      intro v hv; rw [List.mem_singleton] at hv; exact hv ▸ ha) hmem
    rw [List.singleton_sublist] at this
    obtain ⟨p, hp, hp1⟩ := List.getElem_of_mem this
    have := h p hp p hp (by rw [List.getD_eq_getElem _ _ hp]; exact hp1)
      (by rw [List.getD_eq_getElem _ _ hp]; exact hp1)
    omega

theorem contiguousRun_stablePartition (s : State) (a : Int) (ha : a ≠ -1)
    (h : contiguousRun a s.memory) : contiguousRun a (stablePartition s).memory := by
  intro i hi j hj k hk ⟨hij, hjk, h1, h2⟩
  have hne : (stablePartition s).memory.getD j 0 ≠ -1 := by
    apply stablePartition_getD_occupied
    by_contra hcp
    have := stablePartition_getD_free s k (by omega) (by
      rw [← stablePartition_length]; exact hk)
    rw [h2] at this
    exact ha this
  have hsub := triple_sublist_of_index _ i j k hij hjk hk
  rw [h1, h2] at hsub
  have := occupied_sublist_of_stablePartition s _ (by
    intro v hv
    simp only [List.mem_cons, List.mem_singleton, List.not_mem_nil, or_false] at hv
    rcases hv with rfl | rfl | rfl <;> assumption) hsub
  obtain ⟨p, q, r, hpq, hqr, hr, hp1, hq1, hr1⟩ := index_of_triple_sublist _ _ _ _ this
  have := h p (by omega) q (by omega) r hr ⟨hpq, hqr, hp1, hr1⟩
  rw [hq1] at this
  exact this

/-- The loop of `resetMemory`, started behind a prefix `P`, maps the next `n` slots. -/
theorem resetMemory_loop_eq (fileId : Nat) :
    ∀ (n : Nat) (P Q : List Int), n ≤ Q.length →
      resetMemory.loop fileId n P.length (P ++ Q) =
        P ++ ((Q.take n).map (fun v => if v = (fileId : Int) then -1 else v) ++ Q.drop n)
  | 0, P, Q, _ => by simp [resetMemory.loop]
  | n + 1, P, [], h => by simp at h
  | n + 1, P, x :: Q, h => by
    have ih := resetMemory_loop_eq fileId n (P ++ [if x = (fileId : Int) then -1 else x]) Q
      (by simpa using h)
    simp only [resetMemory.loop, getD_at_length, set_at_length]
    simp only [List.length_append, List.length_singleton, List.append_assoc,
      List.singleton_append] at ih
    by_cases hx : x = (fileId : Int)
    · rw [if_pos hx]
      rw [if_pos hx] at ih
      rw [ih]; simp [hx]
    · rw [if_neg hx]
      rw [if_neg hx] at ih
      rw [ih]; simp [hx]

/-- `resetMemory` on a store of `blocksCount` slots frees the slots of the file and keeps
the others. -/
theorem resetMemory_eq (s : State) (fileId : Nat) (hlen : s.memory.length = s.blocksCount) :
    resetMemory s fileId =
      { s with memory := s.memory.map (fun v => if v = (fileId : Int) then -1 else v) } := by
  unfold resetMemory
  have := resetMemory_loop_eq fileId s.blocksCount [] s.memory (by omega)
  simp only [List.length_nil, List.nil_append] at this
  rw [this, ← hlen, List.take_length, List.drop_length, List.append_nil]

/-- The counting loop of `getTotalAvailableBlocks`, started behind a prefix `P`, adds the
number of FREE slots among the next `n`. -/
theorem getTotalAvailableBlocks_loop_eq :
    ∀ (n : Nat) (P Q : List Int) (count : Nat), n ≤ Q.length →
      getTotalAvailableBlocks.loop (P ++ Q) n P.length count =
        count + (Q.take n).count (-1)
  | 0, P, Q, count, _ => by simp [getTotalAvailableBlocks.loop]
  | n + 1, P, [], count, h => by simp at h
  | n + 1, P, x :: Q, count, h => by
    have ih := getTotalAvailableBlocks_loop_eq n (P ++ [x]) Q
      (if x = -1 then count + 1 else count) (by simpa using h)
    simp only [getTotalAvailableBlocks.loop, getD_at_length]
    simp only [List.length_append, List.length_singleton, List.append_assoc,
      List.singleton_append] at ih
    rw [ih]
    by_cases hx : x = -1
    · subst hx; simp [List.count_cons]; omega
    · rw [if_neg hx, List.take_succ_cons, List.count_cons_of_ne (fun h => hx h.symm)]

/-- The block-writing loop of `commitFile`, started behind a prefix `P` that ends at
`currentPos + i`, overwrites the next `n` slots with the identifier. -/
theorem commitFile_fill_eq (fileId currentPos : Nat) :
    ∀ (n i : Nat) (P Q : List Int), n ≤ Q.length → currentPos + i = P.length →
      commitFile.fill fileId currentPos n i (P ++ Q) =
        P ++ (List.replicate n (fileId : Int) ++ Q.drop n)
  | 0, i, P, Q, _, _ => by simp [commitFile.fill]
  | n + 1, i, P, [], h, _ => by simp at h
  | n + 1, i, P, x :: Q, h, hp => by
    have ih := commitFile_fill_eq fileId currentPos n (i + 1) (P ++ [(fileId : Int)]) Q
      (by simpa using h) (by simp; omega)
    simp only [commitFile.fill, hp, set_at_length]
    simp only [List.append_assoc, List.singleton_append] at ih
    rw [ih]
    simp [List.replicate_succ]

/-- The search loop of `getStartingAddress`, started behind a prefix `P`: when the next `m`
slots do not hold the identifier and the one after them does, the loop stops there. -/
theorem getStartingAddress_loop_eq (fileId : Nat) :
    ∀ (m n : Nat) (P Q R : List Int), Q.length = m → m < n →
      (∀ v ∈ Q, v ≠ (fileId : Int)) →
      getStartingAddress.loop (P ++ (Q ++ (fileId : Int) :: R)) fileId n P.length =
        P.length + m
  | 0, n + 1, P, Q, R, hq, _, _ => by
    have : Q = [] := List.length_eq_zero.mp hq
    subst this
    simp only [getStartingAddress.loop, List.nil_append, getD_at_length, if_true,
      Nat.add_zero]
  | m + 1, n + 1, P, [], R, hq, _, _ => by simp at hq
  | m + 1, n + 1, P, x :: Q, R, hq, hmn, hne => by
    have ih := getStartingAddress_loop_eq fileId m n (P ++ [x]) Q R (by simpa using hq)
      (by omega) (fun v hv => hne v (List.mem_cons_of_mem _ hv))
    have hx : x ≠ (fileId : Int) := hne x (List.mem_cons_self _ _)
    simp only [getStartingAddress.loop, List.cons_append, getD_at_length, hx, if_false]
    simp only [List.length_append, List.length_singleton, List.append_assoc,
      List.singleton_append] at ih
    rw [ih]; omega

/-! ## The invariant: queries, compaction, release -/

theorem inv_initState (diskSize : Nat) (diskUnit : String) (blockSize : Nat)
    (blockUnit : String) (blocksCount : Nat) :
    Inv (initState diskSize diskUnit blockSize blockUnit blocksCount) where
  length_eq := by simp [initState]
  pos_le := Nat.zero_le _
  tail_free := by
    intro v hv
    simp only [initState, List.drop_zero] at hv
    exact (List.mem_replicate.mp hv).2
  slot_range := by
    intro v hv
    exact Or.inl (List.mem_replicate.mp hv).2
  key_range := by intro p hp; simp [initState] at hp
  keys_sorted := List.Pairwise.nil
  id_ge := le_refl _

/-- In a state that satisfies the invariant, a full store has its cursor at the end, so
`isMemoryFull` leaves the state as it is. -/
theorem isMemoryFull_snd (s : State) (h : Inv s) : (isMemoryFull s).2 = s := by
  rw [isMemoryFull_eq s h.length_eq]
  by_cases hf : (-1 : Int) ∈ s.memory
  · rw [if_pos hf]
  · rw [if_neg hf]
    have hd : s.memory.drop s.currentPos = [] := by
      rw [List.eq_nil_iff_forall_not_mem]
      intro v hv
      have := h.tail_free v hv
      exact hf (this ▸ List.mem_of_mem_drop hv)
    have hle := List.drop_eq_nil_iff.mp hd
    have hcp : s.blocksCount = s.currentPos := by
      have := h.pos_le; have := h.length_eq; omega
    cases s
    simp only at hcp
    subst hcp
    rfl

theorem isMemoryFull_fst (s : State) (h : Inv s) :
    (isMemoryFull s).1 = decide ((-1 : Int) ∉ s.memory) := by
  rw [isMemoryFull_eq s h.length_eq]
  by_cases hf : (-1 : Int) ∈ s.memory
  · rw [if_pos hf]; simp [hf]
  · rw [if_neg hf]; simp [hf]

/-- In a state that satisfies the invariant, `getTotalAvailableBlocks` returns the number
of FREE slots and leaves the state as it is. -/
theorem getTotalAvailableBlocks_eq (s : State) (h : Inv s) :
    getTotalAvailableBlocks s = (s.memory.count (-1), s) := by
  unfold getTotalAvailableBlocks
  simp only [isMemoryFull_snd s h, isMemoryFull_fst s h]
  by_cases hf : (-1 : Int) ∈ s.memory
  · have hl := getTotalAvailableBlocks_loop_eq s.blocksCount [] s.memory 0
      (by rw [h.length_eq])
    simp only [List.length_nil, List.nil_append, Nat.zero_add] at hl
    simp only [hf, not_true_eq_false, decide_False, Bool.false_eq_true, if_false]
    rw [hl, ← h.length_eq, List.take_length]
  · simp only [hf, not_false_eq_true, decide_True, if_true]
    rw [List.count_eq_zero.mpr hf]

theorem stablePartition_count (s : State) (v : Int) :
    (stablePartition s).memory.count v = s.memory.count v := by
  unfold stablePartition
  simp only [List.count_append]
  by_cases hv : v = -1
  · subst hv
    rw [List.count_replicate_self, List.count_eq_zero.mpr (by
      intro h; simpa using (List.mem_filter.mp h).2)]
    omega
  · have hz : List.count v (List.replicate (s.memory.count (-1)) (-1)) = 0 :=
      List.count_eq_zero.mpr (fun h => hv (List.mem_replicate.mp h).2)
    rw [hz, List.count_filter (by simpa using hv)]
    rfl

theorem defragment_of_inv (s : State) (h : Inv s) : defragment s = stablePartition s :=
  defragment_eq_stablePartition s h.length_eq h.pos_le h.tail_free

theorem inv_stablePartition (s : State) (h : Inv s) : Inv (stablePartition s) where
  length_eq := by rw [stablePartition_length]; exact h.length_eq
  pos_le := by
    have := stablePartition_currentPos_le s
    rw [h.length_eq] at this; exact this
  tail_free := by
    intro v hv
    simp only [stablePartition, List.drop_left] at hv
    exact (List.mem_replicate.mp hv).2
  slot_range := by
    intro v hv
    simp only [stablePartition, List.mem_append] at hv
    rcases hv with hv | hv
    · exact h.slot_range v (List.mem_filter.mp hv).1
    · exact Or.inl (List.mem_replicate.mp hv).2
  key_range := h.key_range
  keys_sorted := h.keys_sorted
  id_ge := h.id_ge

theorem inv_defragment (s : State) (h : Inv s) : Inv (defragment s) := by
  rw [defragment_of_inv s h]; exact inv_stablePartition s h

/-- After compaction the room at the tail is the number of FREE slots. -/
theorem stablePartition_tail (s : State) (h : Inv s) :
    (stablePartition s).blocksCount - (stablePartition s).currentPos =
      s.memory.count (-1) := by
  have := length_filter_add_count s.memory
  have := h.length_eq
  simp only [stablePartition]
  omega

/-- The room at the tail never exceeds the number of FREE slots. -/
theorem tail_le_count (s : State) (h : Inv s) :
    s.blocksCount - s.currentPos ≤ s.memory.count (-1) := by
  have h1 : (s.memory.drop s.currentPos).count (-1) = s.blocksCount - s.currentPos := by
    rw [count_free_of_all_free _ h.tail_free, List.length_drop, h.length_eq]
  have h2 : (s.memory.drop s.currentPos).count (-1) ≤ s.memory.count (-1) :=
    (List.drop_sublist _ _).count_le _
  omega

theorem inv_resetMemory (s : State) (fileId : Nat) (h : Inv s) :
    Inv (resetMemory s fileId) := by
  rw [resetMemory_eq s fileId h.length_eq]
  exact {
    length_eq := by simp only [List.length_map]; exact h.length_eq
    pos_le := h.pos_le
    tail_free := by
      intro v hv
      simp only [← List.map_drop, List.mem_map] at hv
      obtain ⟨w, hw, rfl⟩ := hv
      have := h.tail_free w hw
      split <;> simp_all
    slot_range := by
      intro v hv
      simp only [List.mem_map] at hv
      obtain ⟨w, hw, rfl⟩ := hv
      split
      · exact Or.inl rfl
      · exact h.slot_range w hw
    key_range := h.key_range
    keys_sorted := h.keys_sorted
    id_ge := h.id_ge }

/-! ## The invariant: file map and block writing -/

theorem mem_mapAssign (k : Nat) (v : file) (m : List (Nat × file)) (p : Nat × file)
    (h : p ∈ mapAssign k v m) : p = (k, v) ∨ p ∈ m := by
  induction m with
  | nil => simpa [mapAssign] using h
  | cons q m ih =>
    obtain ⟨k1, v1⟩ := q
    simp only [mapAssign] at h
    split at h
    · rcases List.mem_cons.mp h with h | h
      · exact Or.inl h
      · exact Or.inr h
    · split at h
      · rcases List.mem_cons.mp h with h | h
        · exact Or.inl h
        · exact Or.inr (List.mem_cons_of_mem _ h)
      · rcases List.mem_cons.mp h with h | h
        · exact Or.inr (h ▸ List.mem_cons_self _ _)
        · rcases ih h with h | h
          · exact Or.inl h
          · exact Or.inr (List.mem_cons_of_mem _ h)

theorem mapAssign_mem_self (k : Nat) (v : file) (m : List (Nat × file)) :
    (k, v) ∈ mapAssign k v m := by
  induction m with
  | nil => simp [mapAssign]
  | cons q m ih =>
    obtain ⟨k1, v1⟩ := q
    simp only [mapAssign]
    split
    · exact List.mem_cons_self _ _
    · split
      · exact List.mem_cons_self _ _
      · exact List.mem_cons_of_mem _ ih

theorem mapAssign_sorted (k : Nat) (v : file) (m : List (Nat × file))
    (h : m.Pairwise (fun p q => p.1 < q.1)) :
    (mapAssign k v m).Pairwise (fun p q => p.1 < q.1) := by
  induction m with
  | nil => simp [mapAssign]
  | cons q m ih =>
    obtain ⟨k1, v1⟩ := q
    rw [List.pairwise_cons] at h
    simp only [mapAssign]
    split
    · rename_i hlt
      rw [List.pairwise_cons]
      refine ⟨?_, List.pairwise_cons.mpr h⟩
      intro p hp
      rcases List.mem_cons.mp hp with hp | hp
      · rw [hp]; exact hlt
      · exact Nat.lt_trans hlt (h.1 p hp)
    · split
      · rename_i heq
        rw [List.pairwise_cons]
        exact ⟨fun p hp => by rw [heq]; exact h.1 p hp, h.2⟩
      · rename_i hnlt hne
        rw [List.pairwise_cons]
        refine ⟨?_, ih h.2⟩
        intro p hp
        rcases mem_mapAssign k v m p hp with hp | hp
        · rw [hp]; show k1 < k; omega
        · exact h.1 p hp

/-- The key `findFile` returns, when it is not `0`, is a key of the file map and its
record has the path. -/
theorem findFile_mem (s : State) (filepath : String) (h : findFile s filepath ≠ 0) :
    ∃ f, (findFile s filepath, f) ∈ s.files ∧ f.path = filepath := by
  unfold findFile at h ⊢
  cases hf : s.files.find? (fun p => p.2.path = filepath) with
  | none => rw [hf] at h; exact absurd rfl h
  | some p =>
    refine ⟨p.2, List.mem_of_find?_eq_some hf, ?_⟩
    simpa using List.find?_some hf

/-- With the invariant, `findFile` returns `0` exactly when no record has the path. -/
theorem findFile_eq_zero_iff (s : State) (h : Inv s) (filepath : String) :
    findFile s filepath = 0 ↔ ∀ p ∈ s.files, p.2.path ≠ filepath := by
  unfold findFile
  cases hf : s.files.find? (fun p => p.2.path = filepath) with
  | none =>
    simp only [true_iff]
    intro p hp
    simpa using List.find?_eq_none.mp hf p hp
  | some p =>
    have hp := List.mem_of_find?_eq_some hf
    have := (h.key_range p hp).1
    constructor
    · intro h0; simp only at h0; omega
    · intro hall
      exact absurd (by simpa using List.find?_some hf) (hall p hp)

/-- The block-writing loop at the cursor. -/
theorem fill_at_cursor (memory : List Int) (fileId cp req : Nat)
    (h : cp + req ≤ memory.length) :
    commitFile.fill fileId cp req 0 memory =
      memory.take cp ++ (List.replicate req (fileId : Int) ++ memory.drop (cp + req)) := by
  have := commitFile_fill_eq fileId cp req 0 (memory.take cp) (memory.drop cp)
    (by rw [List.length_drop]; omega) (by rw [List.length_take]; omega)
  rw [List.take_append_drop, List.drop_drop] at this
  rw [this]

/-- Writing `req` slots at the cursor and moving the cursor behind them keeps the
invariant, for an identifier in range and a file map in range. -/
theorem inv_write (s : State) (h : Inv s) (fileId req newId : Nat)
    (newFiles : List (Nat × file)) (hreq : req ≤ s.blocksCount - s.currentPos)
    (h3 : 3 ≤ fileId) (hlt : fileId < newId) (hle : s.currentFileId ≤ newId)
    (hk : ∀ p ∈ newFiles, 3 ≤ p.1 ∧ p.1 < newId)
    (hs : newFiles.Pairwise (fun p q => p.1 < q.1)) :
    Inv { s with
      memory := s.memory.take s.currentPos ++
        (List.replicate req (fileId : Int) ++ s.memory.drop (s.currentPos + req)),
      files := newFiles, currentFileId := newId, currentPos := s.currentPos + req } where
  length_eq := by
    have := h.length_eq; have := h.pos_le
    simp only [List.length_append, List.length_take, List.length_replicate,
      List.length_drop]
    omega
  pos_le := by have := h.pos_le; simp only; omega
  tail_free := by
    intro v hv
    have hl : (s.memory.take s.currentPos ++ List.replicate req (fileId : Int)).length =
        s.currentPos + req := by
      have := h.length_eq; have := h.pos_le
      simp only [List.length_append, List.length_take, List.length_replicate]; omega
    simp only at hv
    rw [← List.append_assoc, ← hl, List.drop_left] at hv
    rw [hl, ← List.drop_drop] at hv
    exact h.tail_free v (List.mem_of_mem_drop hv)
  slot_range := by
    intro v hv
    simp only [List.mem_append] at hv
    have hmono : ∀ w, w = (-1 : Int) ∨ ((3 : Int) ≤ w ∧ w < (s.currentFileId : Int)) →
        w = (-1 : Int) ∨ ((3 : Int) ≤ w ∧ w < (newId : Int)) := by
      intro w hw
      rcases hw with hw | hw
      · exact Or.inl hw
      · exact Or.inr ⟨hw.1, by have : (s.currentFileId : Int) ≤ newId := by exact_mod_cast hle
                               omega⟩
    rcases hv with hv | hv | hv
    · exact hmono v (h.slot_range v (List.mem_of_mem_take hv))
    · rw [(List.mem_replicate.mp hv).2]
      exact Or.inr ⟨by exact_mod_cast h3, by exact_mod_cast hlt⟩
    · exact hmono v (h.slot_range v (List.mem_of_mem_drop hv))
  key_range := hk
  keys_sorted := hs
  id_ge := by have := h.id_ge; simp only; omega

/-! ## The write protocol of `commitFile` -/

/-- The final part of `commitFile` for a new file, with room at the cursor. -/
theorem store_fresh_eq (s : State) (h : Inv s) (filepath : String) (req sz : Nat)
    (hreq : req ≤ s.blocksCount - s.currentPos) :
    commitFile.store s filepath 0 req sz =
      ({ s with
          memory := s.memory.take s.currentPos ++
            (List.replicate req (s.currentFileId : Int) ++
              s.memory.drop (s.currentPos + req)),
          files := mapAssign s.currentFileId
            { path := filepath, allocatedBlocks := req, allocatedFileSize := sz } s.files,
          currentFileId := s.currentFileId + 1,
          currentPos := s.currentPos + req },
        .written s.currentFileId
          (getStartingAddress { s with
            memory := s.memory.take s.currentPos ++
              (List.replicate req (s.currentFileId : Int) ++
                s.memory.drop (s.currentPos + req)),
            files := mapAssign s.currentFileId
              { path := filepath, allocatedBlocks := req, allocatedFileSize := sz } s.files,
            currentFileId := s.currentFileId + 1,
            currentPos := s.currentPos + req } s.currentFileId) sz) := by
  have hl := h.length_eq
  have hp := h.pos_le
  simp only [commitFile.store, ne_eq, not_true_eq_false, if_false]
  rw [fill_at_cursor _ _ _ _ (by omega)]

/-- The final part of `commitFile` for an existing file, with room at the cursor: the
blocks of the file are released first, then the new blocks are written at the cursor. -/
theorem store_existing_eq (s : State) (h : Inv s) (filepath : String) (k req sz : Nat)
    (hk : k ≠ 0) (hreq : req ≤ s.blocksCount - s.currentPos) :
    commitFile.store s filepath k req sz =
      ({ s with
          memory := (s.memory.map (fun v => if v = (k : Int) then -1 else v)).take
              s.currentPos ++
            (List.replicate req (k : Int) ++
              (s.memory.map (fun v => if v = (k : Int) then -1 else v)).drop
                (s.currentPos + req)),
          files := mapAssign k
            { path := filepath, allocatedBlocks := req, allocatedFileSize := sz } s.files,
          currentPos := s.currentPos + req },
        .written k
          (getStartingAddress { s with
            memory := (s.memory.map (fun v => if v = (k : Int) then -1 else v)).take
                s.currentPos ++
              (List.replicate req (k : Int) ++
                (s.memory.map (fun v => if v = (k : Int) then -1 else v)).drop
                  (s.currentPos + req)),
            files := mapAssign k
              { path := filepath, allocatedBlocks := req, allocatedFileSize := sz } s.files,
            currentPos := s.currentPos + req } k) sz) := by
  have hl := h.length_eq
  have hp := h.pos_le
  simp only [commitFile.store, ne_eq, hk, not_false_eq_true, if_true]
  rw [resetMemory_eq s k hl]
  simp only
  rw [fill_at_cursor _ _ _ _ (by rw [List.length_map]; omega)]

theorem mapAssign_key_range (k : Nat) (v : file) (m : List (Nat × file)) (newId : Nat)
    (hm : ∀ p ∈ m, 3 ≤ p.1 ∧ p.1 < newId) (hk : 3 ≤ k ∧ k < newId) :
    ∀ p ∈ mapAssign k v m, 3 ≤ p.1 ∧ p.1 < newId := by
  intro p hp
  rcases mem_mapAssign k v m p hp with h | h
  · rw [h]; exact hk
  · exact hm p h

/-- The final part of `commitFile` keeps the invariant when there is room at the cursor
and the identifier of an existing file is the one `findFile` returned. -/
theorem inv_store (s : State) (h : Inv s) (filepath searched : String) (req sz : Nat)
    (hreq : req ≤ s.blocksCount - s.currentPos) :
    Inv (commitFile.store s filepath (findFile s searched) req sz).1 := by
  by_cases hk : findFile s searched = 0
  · rw [hk, store_fresh_eq s h filepath req sz hreq]
    have hid := h.id_ge
    exact inv_write s h s.currentFileId req (s.currentFileId + 1) _ hreq hid
      (Nat.lt_succ_self _) (Nat.le_succ _)
      (mapAssign_key_range _ _ _ _
        (fun p hp => ⟨(h.key_range p hp).1, Nat.lt_succ_of_lt (h.key_range p hp).2⟩)
        ⟨hid, Nat.lt_succ_self _⟩)
      (mapAssign_sorted _ _ _ h.keys_sorted)
  · rw [store_existing_eq s h filepath _ req sz hk hreq]
    obtain ⟨f, hf, _⟩ := findFile_mem s searched hk
    have hr := h.key_range _ hf
    have hi := inv_resetMemory s (findFile s searched) h
    rw [resetMemory_eq s _ h.length_eq] at hi
    have := inv_write _ hi (findFile s searched) req s.currentFileId
      (mapAssign (findFile s searched)
        { path := filepath, allocatedBlocks := req, allocatedFileSize := sz } s.files)
      hreq hr.1 hr.2 (le_refl _)
      (mapAssign_key_range _ _ _ _ h.key_range hr)
      (mapAssign_sorted _ _ _ h.keys_sorted)
    exact this

theorem inv_preCompact (s : State) (h : Inv s) : Inv (preCompact s) := by
  unfold preCompact
  split
  · exact inv_defragment s h
  · exact h

theorem preCompact_count (s : State) (h : Inv s) (v : Int) :
    (preCompact s).memory.count v = s.memory.count v := by
  unfold preCompact
  split
  · rw [defragment_of_inv s h, stablePartition_count]
  · rfl

theorem preCompact_fields (s : State) (h : Inv s) :
    (preCompact s).blocksCount = s.blocksCount ∧ (preCompact s).files = s.files ∧
      (preCompact s).currentFileId = s.currentFileId := by
  unfold preCompact
  split
  · rw [defragment_of_inv s h]; exact ⟨rfl, rfl, rfl⟩
  · exact ⟨rfl, rfl, rfl⟩

/-- The write protocol of `commitFile` for a non-zero size that passed the capacity check,
in a state that satisfies the invariant: the request is served exactly when the number of
blocks it needs does not exceed the number of FREE slots; it is served at the cursor when
the tail has room and after one compaction otherwise. -/
theorem commitFile_write_eq (s : State) (h : Inv s) (filepath : String) (fileSize : Nat)
    (unit : String) (h0 : fileSize ≠ 0)
    (hcap : ¬ convertSize s.diskSize s.diskUnit "B" < convertSize fileSize unit "B") :
    commitFile s filepath fileSize unit =
      if requiredBlocksFor s fileSize unit ≤ s.memory.count (-1) then
        commitFile.store (writeState s (requiredBlocksFor s fileSize unit))
          filepath (findFile s filepath) (requiredBlocksFor s fileSize unit)
          (wrap64 (requiredBlocksFor s fileSize unit * s.blockSize))
      else (preCompact s, .notEnoughMemory) := by
  have hs1 := inv_preCompact s h
  have hc1 := preCompact_count s h (-1)
  have ht1 := tail_le_count _ hs1
  simp only [commitFile, h0, if_false, hcap]
  unfold writeState
  rw [show (if s.currentPos = s.blocksCount then defragment s else s) = preCompact s from rfl]
  generalize preCompact s = s1 at *
  generalize requiredBlocksFor s fileSize unit = req at *
  rw [getTotalAvailableBlocks_eq s1 hs1]
  simp only [hc1]
  by_cases hroom : s1.blocksCount - s1.currentPos < req
  · rw [if_pos hroom]
    by_cases hfree : req ≤ s.memory.count (-1)
    · have htail := stablePartition_tail s1 hs1
      rw [if_pos hfree, if_pos hfree, defragment_of_inv s1 hs1]
      rw [if_neg (show ¬ (stablePartition s1).blocksCount -
        (stablePartition s1).currentPos < req by omega)]
      rw [if_neg (show ¬ req ≤ s1.blocksCount - s1.currentPos by omega)]
    · rw [if_neg hfree, if_neg hfree]
  · rw [if_neg hroom, if_pos (show req ≤ s.memory.count (-1) by omega),
      if_pos (show req ≤ s1.blocksCount - s1.currentPos by omega)]

/-! ## Reachable states satisfy the invariant -/

theorem findFile_congr (s t : State) (filepath : String) (h : t.files = s.files) :
    findFile t filepath = findFile s filepath := by
  unfold findFile; rw [h]

/-- The state in which `commitFile` writes, when the request fits in the FREE slots: it
satisfies the invariant, has room at the cursor, and differs from the state before the
call at most by compaction. -/
theorem writeState_spec (s : State) (h : Inv s) (req : Nat)
    (hfree : req ≤ s.memory.count (-1)) :
    Inv (writeState s req) ∧
      req ≤ (writeState s req).blocksCount - (writeState s req).currentPos ∧
      (writeState s req).files = s.files ∧
      (writeState s req).currentFileId = s.currentFileId ∧
      (writeState s req).blocksCount = s.blocksCount ∧
      ∀ v, (writeState s req).memory.count v = s.memory.count v := by
  have hs1 := inv_preCompact s h
  have hc1 := preCompact_count s h
  obtain ⟨hb1, hf1, hi1⟩ := preCompact_fields s h
  unfold writeState
  generalize preCompact s = s1 at *
  by_cases hroom : req ≤ s1.blocksCount - s1.currentPos
  · rw [if_pos hroom]
    exact ⟨hs1, hroom, hf1, hi1, hb1, hc1⟩
  · rw [if_neg hroom, defragment_of_inv s1 hs1]
    have := stablePartition_tail s1 hs1
    have := hc1 (-1)
    exact ⟨inv_stablePartition s1 hs1, by omega, hf1, hi1, hb1,
      fun v => by rw [stablePartition_count, hc1]⟩

theorem inv_delete (s : State) (h : Inv s) (k : Nat) :
    Inv { resetMemory s k with files := mapErase k (resetMemory s k).files } := by
  have hr := inv_resetMemory s k h
  exact {
    length_eq := hr.length_eq
    pos_le := hr.pos_le
    tail_free := hr.tail_free
    slot_range := hr.slot_range
    key_range := fun p hp => hr.key_range p (List.mem_filter.mp hp).1
    keys_sorted := hr.keys_sorted.filter _
    id_ge := hr.id_ge }

/-- `commitFile` keeps the invariant. -/
theorem inv_commitFile (s : State) (h : Inv s) (filepath : String) (fileSize : Nat)
    (unit : String) : Inv (commitFile s filepath fileSize unit).1 := by
  by_cases h0 : fileSize = 0
  · simp only [commitFile, h0, if_true]
    split
    · exact h
    · exact inv_delete s h _
  · by_cases hcap : convertSize s.diskSize s.diskUnit "B" < convertSize fileSize unit "B"
    · simp only [commitFile, h0, if_false, hcap, if_true]
      exact h
    · rw [commitFile_write_eq s h filepath fileSize unit h0 hcap]
      split
      · rename_i hfree
        obtain ⟨hi, hroom, hfiles, _, _, _⟩ :=
          writeState_spec s h (requiredBlocksFor s fileSize unit) hfree
        rw [← findFile_congr s _ filepath hfiles]
        exact inv_store _ hi filepath filepath _ _ hroom
      · exact inv_preCompact s h

theorem readFile_state (s : State) (file : String) : (readFile s file).1 = s := by
  unfold readFile
  simp only
  split <;> rfl

/-- Every state reached from a state that satisfies the invariant satisfies it. -/
theorem inv_of_reachable (s0 s : State) (h0 : Inv s0) (h : Reachable s0 s) : Inv s := by
  induction h with
  | start => exact h0
  | commit filepath fileSize unit _ ih => exact inv_commitFile _ ih filepath fileSize unit
  | read file _ ih => rw [readFile_state]; exact ih

/-- `commitFile` does not change the number of blocks of the device. -/
theorem blocksCount_commitFile (s : State) (h : Inv s) (filepath : String) (fileSize : Nat)
    (unit : String) : (commitFile s filepath fileSize unit).1.blocksCount = s.blocksCount := by
  by_cases h0 : fileSize = 0
  · simp only [commitFile, h0, if_true]
    split <;> rfl
  · by_cases hcap : convertSize s.diskSize s.diskUnit "B" < convertSize fileSize unit "B"
    · simp only [commitFile, h0, if_false, hcap, if_true]
    · rw [commitFile_write_eq s h filepath fileSize unit h0 hcap]
      split
      · rename_i hfree
        obtain ⟨hi, hroom, _, _, hb, _⟩ :=
          writeState_spec s h (requiredBlocksFor s fileSize unit) hfree
        by_cases hk : findFile s filepath = 0
        · rw [hk, store_fresh_eq _ hi _ _ _ hroom]; exact hb
        · rw [store_existing_eq _ hi _ _ _ _ hk hroom]; exact hb
      · exact (preCompact_fields s h).1

theorem blocksCount_of_reachable (s0 s : State) (h0 : Inv s0) (h : Reachable s0 s) :
    s.blocksCount = s0.blocksCount := by
  induction h with
  | start => rfl
  | @commit t filepath fileSize unit ht ih =>
    rw [blocksCount_commitFile t (inv_of_reachable s0 t h0 ht), ih]
  | read file _ ih => rw [readFile_state]; exact ih

/-- C4. Cursor invariant: in every state reached from the initialized device (every slot
FREE, cursor `0`) by `commitFile` (write, overwrite, delete) and `readFile` calls, the store
still has the `blocksCount` slots of the device, the cursor is at most `blocksCount`, and
no slot at an index from the cursor on is occupied. -/
theorem cursor_invariant (diskSize : Nat) (diskUnit : String) (blockSize : Nat)
    (blockUnit : String) (blocksCount : Nat) (s : State)
    (h : Reachable (initState diskSize diskUnit blockSize blockUnit blocksCount) s) :
    s.blocksCount = blocksCount ∧ s.memory.length = blocksCount ∧
      s.currentPos ≤ s.blocksCount ∧
      ∀ i, s.currentPos ≤ i → i < s.blocksCount → s.memory.getD i 0 = -1 := by
  have h0 := inv_initState diskSize diskUnit blockSize blockUnit blocksCount
  have hi := inv_of_reachable _ s h0 h
  have hb : s.blocksCount = blocksCount := blocksCount_of_reachable _ s h0 h
  refine ⟨hb, by rw [hi.length_eq, hb], hi.pos_le, ?_⟩
  have := (tailFree_iff s.memory s.currentPos).mpr hi.tail_free
  intro i h1 h2
  exact this i h1 (by rw [hi.length_eq]; exact h2)

theorem sampleRun_reachable : Reachable (initState 4 "MB" 1 "MB" 4) sampleRun :=
  Reachable.commit _ _ _ (Reachable.commit _ _ _ (Reachable.commit _ _ _ Reachable.start))

/-- C4, at the state after two writes and a delete: the cursor is `2` of `4` and the slots
`2` and `3` are FREE. -/
theorem cursor_invariant_witness :
    sampleRun.currentPos ≤ sampleRun.blocksCount ∧ sampleRun.memory.getD 2 0 = -1 ∧
      sampleRun.memory.getD 3 0 = -1 :=
  have h := cursor_invariant 4 "MB" 1 "MB" 4 sampleRun sampleRun_reachable
  ⟨h.2.2.1, h.2.2.2 2 (by decide) (by decide), h.2.2.2 3 (by decide) (by decide)⟩

/-! ## Allocation at the tail -/

theorem convertSize_zero (fromUnit toUnit : String) : convertSize 0 fromUnit toUnit = 0 := by
  unfold convertSize wrap64
  repeat' split
  all_goals simp

/-- A request of size `0` needs no block. -/
theorem requiredBlocksFor_zero (s : State) (unit : String) :
    requiredBlocksFor s 0 unit = 0 := by
  unfold requiredBlocksFor ceilDiv
  rw [convertSize_zero]
  by_cases hb : convertSize s.blockSize s.blockUnit "B" = 0
  · rw [hb]
  · exact Nat.div_eq_of_lt (by omega)

/-- The start address of an identifier whose first slot is at index `cp`. -/
theorem getStartingAddress_first (s : State) (fileId cp : Nat) (T R : List Int)
    (hmem : s.memory = T ++ (fileId : Int) :: R) (hT : T.length = cp)
    (hne : ∀ v ∈ T, v ≠ (fileId : Int)) (hlt : cp < s.blocksCount) :
    getStartingAddress s fileId = wrap64 (cp * convertSize s.blockSize s.blockUnit "B") := by
  unfold getStartingAddress
  have := getStartingAddress_loop_eq fileId cp s.blocksCount [] T R hT hlt hne
  simp only [List.length_nil, List.nil_append, Nat.zero_add] at this
  rw [hmem, this]

/-- Slot-wise reading of a store in which `req` slots from `cp` on were overwritten. -/
theorem getD_written (memory : List Int) (v : Int) (cp req i : Nat)
    (h : cp + req ≤ memory.length) :
    (memory.take cp ++ (List.replicate req v ++ memory.drop (cp + req))).getD i 0 =
      if cp ≤ i ∧ i < cp + req then v else memory.getD i 0 := by
  have hT : (memory.take cp).length = cp := by rw [List.length_take]; omega
  by_cases h1 : i < cp
  · rw [if_neg (by omega), List.getD_append _ _ _ _ (by omega)]
    simp only [List.getD_eq_getElem?_getD, List.getElem?_take, h1, if_true]
  · rw [List.getD_append_right _ _ _ _ (by omega), hT]
    by_cases h2 : i < cp + req
    · rw [if_pos ⟨by omega, h2⟩, List.getD_append _ _ _ _ (by simp; omega)]
      simp only [List.getD_eq_getElem?_getD]
      rw [List.getElem?_replicate_of_lt (by omega)]
      rfl
    · rw [if_neg (by omega), List.getD_append_right _ _ _ _ (by simp; omega)]
      simp only [List.getD_eq_getElem?_getD, List.length_replicate, List.getElem?_drop]
      congr 2
      omega

theorem preCompact_of_ne (s : State) (h : s.currentPos ≠ s.blocksCount) :
    preCompact s = s := by
  unfold preCompact; rw [if_neg h]

theorem writeState_of_room (s : State) (req : Nat) (h1 : 1 ≤ req)
    (h2 : req ≤ s.blocksCount - s.currentPos) : writeState s req = s := by
  have hp := preCompact_of_ne s (by omega)
  unfold writeState
  rw [hp, if_pos h2]

/-- C5. Append-only tail allocation: in every reachable state, when `commitFile` is called
for a path with no record and with a size that passed the capacity check, and the number
of blocks it needs is at least `1` and at most the room `blocksCount - currentPos` at the
tail, then no compaction happens: the new identifier `currentFileId` is written into
exactly the slots `currentPos, …, currentPos + requiredBlocks - 1`, every other slot is
unchanged, the cursor advances by `requiredBlocks`, and the reported start address is the
old cursor times the block size in bytes (as the program computes it, modulo `2 ^ 64`;
exactly that product when the device size in bytes fits 64 bits). -/
theorem commitFile_appends_at_tail (diskSize : Nat) (diskUnit : String) (blockSize : Nat)
    (blockUnit : String) (blocksCount : Nat) (s : State)
    (h : Reachable (initState diskSize diskUnit blockSize blockUnit blocksCount) s)
    (filepath : String) (fileSize : Nat) (unit : String)
    (hfresh : findFile s filepath = 0)
    (hcap : ¬ convertSize s.diskSize s.diskUnit "B" < convertSize fileSize unit "B")
    (h1 : 1 ≤ requiredBlocksFor s fileSize unit)
    (h2 : requiredBlocksFor s fileSize unit ≤ s.blocksCount - s.currentPos) :
    commitFile s filepath fileSize unit =
      ({ s with
          memory := s.memory.take s.currentPos ++
            (List.replicate (requiredBlocksFor s fileSize unit) (s.currentFileId : Int) ++
              s.memory.drop (s.currentPos + requiredBlocksFor s fileSize unit)),
          files := mapAssign s.currentFileId
            { path := filepath, allocatedBlocks := requiredBlocksFor s fileSize unit,
              allocatedFileSize := wrap64 (requiredBlocksFor s fileSize unit * s.blockSize) }
            s.files,
          currentFileId := s.currentFileId + 1,
          currentPos := s.currentPos + requiredBlocksFor s fileSize unit },
        .written s.currentFileId
          (wrap64 (s.currentPos * convertSize s.blockSize s.blockUnit "B"))
          (wrap64 (requiredBlocksFor s fileSize unit * s.blockSize))) ∧
      (∀ i, (commitFile s filepath fileSize unit).1.memory.getD i 0 =
        if s.currentPos ≤ i ∧ i < s.currentPos + requiredBlocksFor s fileSize unit
        then (s.currentFileId : Int) else s.memory.getD i 0) ∧
      (s.blocksCount * convertSize s.blockSize s.blockUnit "B" < 2 ^ 64 →
        wrap64 (s.currentPos * convertSize s.blockSize s.blockUnit "B") =
          s.currentPos * convertSize s.blockSize s.blockUnit "B") := by
  have hi := inv_of_reachable _ s (inv_initState _ _ _ _ _) h
  have h0 : fileSize ≠ 0 := by
    intro hz; rw [hz, requiredBlocksFor_zero] at h1; omega
  have hlen := hi.length_eq
  have hpos := hi.pos_le
  have hfree : requiredBlocksFor s fileSize unit ≤ s.memory.count (-1) :=
    Nat.le_trans h2 (tail_le_count s hi)
  have heq : commitFile s filepath fileSize unit = _ :=
    commitFile_write_eq s hi filepath fileSize unit h0 hcap
  rw [if_pos hfree, writeState_of_room s _ h1 h2, hfresh,
    store_fresh_eq s hi filepath _ _ h2] at heq
  obtain ⟨r, hr⟩ : ∃ r, requiredBlocksFor s fileSize unit = r + 1 :=
    ⟨requiredBlocksFor s fileSize unit - 1, by omega⟩
  have haddr : getStartingAddress { s with
      memory := s.memory.take s.currentPos ++
        (List.replicate (requiredBlocksFor s fileSize unit) (s.currentFileId : Int) ++
          s.memory.drop (s.currentPos + requiredBlocksFor s fileSize unit)),
      files := mapAssign s.currentFileId
        { path := filepath, allocatedBlocks := requiredBlocksFor s fileSize unit,
          allocatedFileSize := wrap64 (requiredBlocksFor s fileSize unit * s.blockSize) }
        s.files,
      currentFileId := s.currentFileId + 1,
      currentPos := s.currentPos + requiredBlocksFor s fileSize unit } s.currentFileId =
      wrap64 (s.currentPos * convertSize s.blockSize s.blockUnit "B") := by
    apply getStartingAddress_first _ s.currentFileId s.currentPos
      (s.memory.take s.currentPos)
      (List.replicate r (s.currentFileId : Int) ++
        s.memory.drop (s.currentPos + requiredBlocksFor s fileSize unit))
    · simp only [hr, List.replicate_succ, List.cons_append]
    · rw [List.length_take]; omega
    · intro v hv
      rcases hi.slot_range v (List.mem_of_mem_take hv) with hv | hv
      · rw [hv]; omega
      · omega
    · show s.currentPos < s.blocksCount
      omega
  rw [haddr] at heq
  refine ⟨heq, ?_, ?_⟩
  · intro i
    rw [heq]
    exact getD_written s.memory _ _ _ i (by omega)
  · intro hfit
    unfold wrap64
    apply Nat.mod_eq_of_lt
    calc s.currentPos * convertSize s.blockSize s.blockUnit "B"
        ≤ s.blocksCount * convertSize s.blockSize s.blockUnit "B" :=
          Nat.mul_le_mul_right _ hpos
      _ < 2 ^ 64 := hfit

/-- C5, at the second write of `write(/a, 1MB)`, `write(/b, 2MB)` on a device of four
1 MB blocks: identifier `4` goes to the slots `1` and `2`, at address `1 * 2 ^ 20`. -/
theorem commitFile_appends_at_tail_witness :
    commitFile (commitFile (initState 4 "MB" 1 "MB" 4) "/a" 1 "MB").1 "/b" 2 "MB" =
      ({ initState 4 "MB" 1 "MB" 4 with
          memory := [3, 4, 4, -1],
          files := [(3, { path := "/a", allocatedBlocks := 1, allocatedFileSize := 1 }),
            (4, { path := "/b", allocatedBlocks := 2, allocatedFileSize := 2 })],
          currentFileId := 5, currentPos := 3 },
        .written 4 1048576 2) :=
  (commitFile_appends_at_tail 4 "MB" 1 "MB" 4
    (commitFile (initState 4 "MB" 1 "MB" 4) "/a" 1 "MB").1
    (Reachable.commit "/a" 1 "MB" Reachable.start) "/b" 2 "MB"
    (by decide) (by decide) (by decide) (by decide)).1.trans (by decide)

/-! ## Writes that fail for lack of space -/

theorem holesBelowCursorRun_reachable :
    Reachable (initState 4 "MB" 1 "MB" 4) holesBelowCursorRun :=
  Reachable.commit _ _ _ (Reachable.commit _ _ _ (Reachable.commit _ _ _ Reachable.start))

theorem oneFileFullRun_reachable : Reachable (initState 4 "MB" 1 "MB" 4) oneFileFullRun :=
  Reachable.commit _ _ _ Reachable.start

theorem twoFilesFullRun_reachable : Reachable (initState 4 "MB" 1 "MB" 4) twoFilesFullRun :=
  Reachable.commit _ _ _ (Reachable.commit _ _ _ Reachable.start)

theorem count_reset_self (memory : List Int) (k : Nat) :
    (memory.map (fun v => if v = (k : Int) then -1 else v)).count (k : Int) = 0 := by
  rw [List.count_eq_zero]
  intro hmem
  obtain ⟨w, _, hw⟩ := List.mem_map.mp hmem
  by_cases hwk : w = (k : Int)
  · rw [if_pos hwk] at hw; omega
  · rw [if_neg hwk] at hw; exact hwk hw

/-- After `m[k] = v`, the read `m[k]` gives `v`. -/
theorem mapAt_mapAssign (k : Nat) (v : file) (m : List (Nat × file)) :
    mapAt (mapAssign k v m) k = v := by
  have : (mapAssign k v m).find? (fun p => p.1 = k) = some (k, v) := by
    induction m with
    | nil => simp [mapAssign]
    | cons q m ih =>
      obtain ⟨k1, v1⟩ := q
      simp only [mapAssign]
      split
      · simp
      · split
        · simp
        · rename_i hne
          rw [List.find?_cons_of_neg _ (by simpa using fun h => hne h.symm)]
          exact ih
  unfold mapAt
  rw [this]

/-- After `m[k] = v` for a record `v` with the path, the search by path finds `k` when no
other record had the path. -/
theorem find_mapAssign_fresh (k : Nat) (v : file) (m : List (Nat × file))
    (filepath : String) (hv : v.path = filepath) (hm : ∀ p ∈ m, p.2.path ≠ filepath) :
    (mapAssign k v m).find? (fun p => p.2.path = filepath) = some (k, v) := by
  subst hv
  induction m with
  | nil => simp [mapAssign]
  | cons q m ih =>
    obtain ⟨k1, v1⟩ := q
    have h1 : v1.path ≠ v.path := hm (k1, v1) (List.mem_cons_self _ _)
    simp only [mapAssign]
    split
    · simp
    · split
      · simp
      · rw [List.find?_cons_of_neg _ (by simpa using h1)]
        exact ih (fun p hp => hm p (List.mem_cons_of_mem _ hp))

/-- After `m[k] = v` for a record `v` with the path, the search by path still finds `k`
when `k` was the key it found before, in a map in ascending key order. -/
theorem find_mapAssign_existing (k : Nat) (v : file) (m : List (Nat × file))
    (filepath : String) (hv : v.path = filepath)
    (hs : m.Pairwise (fun p q => p.1 < q.1)) (q : Nat × file)
    (hq : m.find? (fun p => p.2.path = filepath) = some q) (hk : q.1 = k) :
    (mapAssign k v m).find? (fun p => p.2.path = filepath) = some (k, v) := by
  subst hv
  induction m with
  | nil => simp at hq
  | cons r m ih =>
    obtain ⟨k1, v1⟩ := r
    rw [List.pairwise_cons] at hs
    by_cases hp : v1.path = v.path
    · rw [List.find?_cons_of_pos _ (by simpa using hp)] at hq
      have hk1 : k1 = k := by
        have := congrArg Prod.fst (Option.some.inj hq)
        simp only at this
        omega
      simp only [mapAssign, hk1, Nat.lt_irrefl, if_false, if_true]
      simp
    · rw [List.find?_cons_of_neg _ (by simpa using hp)] at hq
      have hmem := List.mem_of_find?_eq_some hq
      have hlt : k1 < k := hk ▸ hs.1 q hmem
      have h1 : ¬ k < k1 := by omega
      have h2 : ¬ k = k1 := by omega
      simp only [mapAssign, h1, h2, if_false]
      rw [List.find?_cons_of_neg _ (by simpa using hp)]
      exact ih hs.2 hq

theorem findFile_of_find (s : State) (filepath : String) (q : Nat × file)
    (h : s.files.find? (fun p => p.2.path = filepath) = some q) :
    findFile s filepath = q.1 := by
  unfold findFile; rw [h]

/-- What a `commitFile` call that reports a written file has done, in a state that
satisfies the invariant: the identifier, the record, the reported size and address, and
the result of a later `findFile`. -/
theorem written_spec (s : State) (hi : Inv s) (filepath : String) (fileSize : Nat) (unit : String) (fileId addr sz : Nat)
    (hw : (commitFile s filepath fileSize unit).2 = .written fileId addr sz) :
    fileSize ≠ 0 ∧
      (findFile s filepath = 0 →
        fileId = s.currentFileId ∧
          (commitFile s filepath fileSize unit).1.currentFileId = s.currentFileId + 1) ∧
      (findFile s filepath ≠ 0 →
        fileId = findFile s filepath ∧
          (commitFile s filepath fileSize unit).1.currentFileId = s.currentFileId) ∧
      (fileId,
          { path := filepath, allocatedBlocks := requiredBlocksFor s fileSize unit,
            allocatedFileSize := wrap64 (requiredBlocksFor s fileSize unit * s.blockSize) })
        ∈ (commitFile s filepath fileSize unit).1.files ∧
      mapAt (commitFile s filepath fileSize unit).1.files fileId =
        { path := filepath, allocatedBlocks := requiredBlocksFor s fileSize unit,
          allocatedFileSize := wrap64 (requiredBlocksFor s fileSize unit * s.blockSize) } ∧
      sz = wrap64 (requiredBlocksFor s fileSize unit * s.blockSize) ∧
      (s.blocksCount * s.blockSize < 2 ^ 64 →
        wrap64 (requiredBlocksFor s fileSize unit * s.blockSize) =
          requiredBlocksFor s fileSize unit * s.blockSize) ∧
      findFile (commitFile s filepath fileSize unit).1 filepath = fileId ∧
      addr = getStartingAddress (commitFile s filepath fileSize unit).1 fileId ∧
      3 ≤ fileId := by
  have h0 : fileSize ≠ 0 := by
    intro hz
    simp only [commitFile, hz, if_true] at hw
    split at hw <;> exact CommitResult.noConfusion hw
  have hcap : ¬ convertSize s.diskSize s.diskUnit "B" < convertSize fileSize unit "B" := by
    intro hlt
    simp only [commitFile, h0, if_false, hlt, if_true] at hw
    exact CommitResult.noConfusion hw
  have heq := commitFile_write_eq s hi filepath fileSize unit h0 hcap
  have hle : requiredBlocksFor s fileSize unit ≤ s.memory.count (-1) := by
    by_contra hnle
    rw [if_neg hnle] at heq
    rw [heq] at hw
    exact CommitResult.noConfusion hw
  obtain ⟨hws, hroom, hfiles, hid, hbc, _⟩ := writeState_spec s hi _ hle
  rw [if_pos hle] at heq
  have hfit : s.blocksCount * s.blockSize < 2 ^ 64 →
      wrap64 (requiredBlocksFor s fileSize unit * s.blockSize) =
        requiredBlocksFor s fileSize unit * s.blockSize := by
    intro hlt
    unfold wrap64
    apply Nat.mod_eq_of_lt
    calc requiredBlocksFor s fileSize unit * s.blockSize
        ≤ s.blocksCount * s.blockSize := Nat.mul_le_mul_right _ (by omega)
      _ < 2 ^ 64 := hlt
  by_cases hk : findFile s filepath = 0
  · rw [hk, store_fresh_eq _ hws filepath _ _ hroom] at heq
    rw [heq] at hw ⊢
    simp only [CommitResult.written.injEq] at hw
    obtain ⟨hw1, hw2, hw3⟩ := hw
    rw [hid] at hw1
    subst hw1
    refine ⟨h0, fun _ => ⟨rfl, by simp only [hid]⟩, fun hne => absurd hk hne, ?_, ?_,
      hw3.symm, hfit, ?_, by rw [← hw2, hid], hi.id_ge⟩
    · simp only [hid]; exact mapAssign_mem_self _ _ _
    · simp only [hid]; exact mapAt_mapAssign _ _ _
    · apply findFile_of_find _ filepath (s.currentFileId, _)
      simp only [hid, hfiles]
      exact find_mapAssign_fresh s.currentFileId
        { path := filepath, allocatedBlocks := requiredBlocksFor s fileSize unit,
          allocatedFileSize := wrap64 (requiredBlocksFor s fileSize unit * s.blockSize) }
        s.files filepath rfl ((findFile_eq_zero_iff s hi filepath).mp hk)
  · rw [store_existing_eq _ hws filepath _ _ _ hk hroom] at heq
    rw [heq] at hw ⊢
    simp only [CommitResult.written.injEq] at hw
    obtain ⟨hw1, hw2, hw3⟩ := hw
    subst hw1
    obtain ⟨frec, hfrec, _⟩ := findFile_mem s filepath hk
    refine ⟨h0, fun h0 => absurd h0 hk, fun _ => ⟨rfl, hid⟩, ?_, ?_, hw3.symm, hfit, ?_,
      hw2.symm, (hi.key_range _ hfrec).1⟩
    · simp only [hfiles]; exact mapAssign_mem_self _ _ _
    · simp only [hfiles]; exact mapAt_mapAssign _ _ _
    · have hfind : ∃ q, s.files.find? (fun p => p.2.path = filepath) = some q ∧
          q.1 = findFile s filepath := by
        unfold findFile at hk ⊢
        cases hf : s.files.find? (fun p => p.2.path = filepath) with
        | none => rw [hf] at hk; exact absurd rfl hk
        | some q => exact ⟨q, rfl, rfl⟩
      obtain ⟨q, hq1, hq2⟩ := hfind
      apply findFile_of_find _ filepath (findFile s filepath, _)
      simp only [hfiles]
      exact find_mapAssign_existing (findFile s filepath)
        { path := filepath, allocatedBlocks := requiredBlocksFor s fileSize unit,
          allocatedFileSize := wrap64 (requiredBlocksFor s fileSize unit * s.blockSize) }
        s.files filepath rfl hi.keys_sorted q hq1 hq2

/-- C9. Upsert and identifier assignment: in every reachable state, a `commitFile` call
that reports a written file was made with a non-zero size and, with `requiredBlocks` the
block count of the request: on a path without a record the reported identifier is the
value of `currentFileId` before the call and `currentFileId` grows by exactly one; on a
path with a record the reported identifier is that of the record and `currentFileId` is
unchanged; in both cases the file map holds, under the reported identifier, the record
with the given path, `allocatedBlocks = requiredBlocks` and
`allocatedFileSize = requiredBlocks * blockSize` (the 64-bit product, which is the exact
product when `blocksCount * blockSize` fits 64 bits), that size is the reported one, and
afterwards `findFile` on the path returns the reported identifier. -/
theorem commitFile_upsert (diskSize : Nat) (diskUnit : String) (blockSize : Nat)
    (blockUnit : String) (blocksCount : Nat) (s : State)
    (h : Reachable (initState diskSize diskUnit blockSize blockUnit blocksCount) s)
    (filepath : String) (fileSize : Nat) (unit : String) (fileId addr sz : Nat)
    (hw : (commitFile s filepath fileSize unit).2 = .written fileId addr sz) :
    fileSize ≠ 0 ∧
      (findFile s filepath = 0 →
        fileId = s.currentFileId ∧
          (commitFile s filepath fileSize unit).1.currentFileId = s.currentFileId + 1) ∧
      (findFile s filepath ≠ 0 →
        fileId = findFile s filepath ∧
          (commitFile s filepath fileSize unit).1.currentFileId = s.currentFileId) ∧
      (fileId,
          { path := filepath, allocatedBlocks := requiredBlocksFor s fileSize unit,
            allocatedFileSize := wrap64 (requiredBlocksFor s fileSize unit * s.blockSize) })
        ∈ (commitFile s filepath fileSize unit).1.files ∧
      mapAt (commitFile s filepath fileSize unit).1.files fileId =
        { path := filepath, allocatedBlocks := requiredBlocksFor s fileSize unit,
          allocatedFileSize := wrap64 (requiredBlocksFor s fileSize unit * s.blockSize) } ∧
      sz = wrap64 (requiredBlocksFor s fileSize unit * s.blockSize) ∧
      (s.blocksCount * s.blockSize < 2 ^ 64 →
        wrap64 (requiredBlocksFor s fileSize unit * s.blockSize) =
          requiredBlocksFor s fileSize unit * s.blockSize) ∧
      findFile (commitFile s filepath fileSize unit).1 filepath = fileId := by
  have hi := inv_of_reachable _ s (inv_initState _ _ _ _ _) h
  have hs := written_spec s hi filepath fileSize unit fileId addr sz hw
  exact ⟨hs.1, hs.2.1, hs.2.2.1, hs.2.2.2.1, hs.2.2.2.2.1, hs.2.2.2.2.2.1,
    hs.2.2.2.2.2.2.1, hs.2.2.2.2.2.2.2.1⟩

/-- C9, at the rewrite of `/a` after `write(/a, 1MB)`, `write(/b, 1MB)`: the identifier
stays `3`, `currentFileId` stays `5`, and `findFile` returns `3`. -/
theorem commitFile_upsert_witness :
    (commitFile (commitFile (commitFile (initState 4 "MB" 1 "MB" 4)
        "/a" 1 "MB").1 "/b" 1 "MB").1 "/a" 2 "MB").1.currentFileId = 5 ∧
      findFile (commitFile (commitFile (commitFile (initState 4 "MB" 1 "MB" 4)
        "/a" 1 "MB").1 "/b" 1 "MB").1 "/a" 2 "MB").1 "/a" = 3 :=
  have h := commitFile_upsert 4 "MB" 1 "MB" 4
    (commitFile (commitFile (initState 4 "MB" 1 "MB" 4) "/a" 1 "MB").1 "/b" 1 "MB").1
    (Reachable.commit "/b" 1 "MB" (Reachable.commit "/a" 1 "MB" Reachable.start))
    "/a" 2 "MB" 3 2097152 2 (by decide)
  ⟨(h.2.2.1 (by decide)).2.trans (by decide), h.2.2.2.2.2.2.2⟩

/-! ## File identifiers -/

/-- `commitFile` never decreases `currentFileId`. -/
theorem currentFileId_commitFile_le (s : State) (h : Inv s) (filepath : String)
    (fileSize : Nat) (unit : String) :
    s.currentFileId ≤ (commitFile s filepath fileSize unit).1.currentFileId := by
  by_cases h0 : fileSize = 0
  · simp only [commitFile, h0, if_true]
    split <;> exact Nat.le_refl _
  · by_cases hcap : convertSize s.diskSize s.diskUnit "B" < convertSize fileSize unit "B"
    · simp only [commitFile, h0, if_false, hcap, if_true]
      exact Nat.le_refl _
    · rw [commitFile_write_eq s h filepath fileSize unit h0 hcap]
      split
      · rename_i hfree
        obtain ⟨hi, hroom, _, hid, _, _⟩ :=
          writeState_spec s h (requiredBlocksFor s fileSize unit) hfree
        by_cases hk : findFile s filepath = 0
        · rw [hk, store_fresh_eq _ hi _ _ _ hroom]
          show s.currentFileId ≤ (writeState s _).currentFileId + 1
          omega
        · rw [store_existing_eq _ hi _ _ _ _ hk hroom]
          show s.currentFileId ≤ (writeState s _).currentFileId
          omega
      · rw [(preCompact_fields s h).2.2]

theorem currentFileId_of_reachable (s t : State) (hs : Inv s) (h : Reachable s t) :
    s.currentFileId ≤ t.currentFileId := by
  induction h with
  | start => exact Nat.le_refl _
  | @commit u filepath fileSize unit hu ih =>
    exact Nat.le_trans ih
      (currentFileId_commitFile_le u (inv_of_reachable s u hs hu) filepath fileSize unit)
  | read file _ ih => rw [readFile_state]; exact ih

/-- A write that creates a file (no record had the path) reports the value of
`currentFileId` before the call and leaves it one higher. -/
theorem written_fresh (s : State) (h : Inv s) (filepath : String) (fileSize : Nat)
    (unit : String) (fileId addr sz : Nat) (hfresh : findFile s filepath = 0)
    (hw : (commitFile s filepath fileSize unit).2 = .written fileId addr sz) :
    fileId = s.currentFileId ∧
      (commitFile s filepath fileSize unit).1.currentFileId = s.currentFileId + 1 := by
  have h0 : fileSize ≠ 0 := by
    intro hz
    simp only [commitFile, hz, if_true] at hw
    split at hw <;> exact CommitResult.noConfusion hw
  have hcap : ¬ convertSize s.diskSize s.diskUnit "B" < convertSize fileSize unit "B" := by
    intro hlt
    simp only [commitFile, h0, if_false, hlt, if_true] at hw
    exact CommitResult.noConfusion hw
  have heq := commitFile_write_eq s h filepath fileSize unit h0 hcap
  have hle : requiredBlocksFor s fileSize unit ≤ s.memory.count (-1) := by
    by_contra hnle
    rw [if_neg hnle] at heq
    rw [heq] at hw
    exact CommitResult.noConfusion hw
  obtain ⟨hws, hroom, _, hid, _, _⟩ := writeState_spec s h _ hle
  rw [if_pos hle, hfresh, store_fresh_eq _ hws filepath _ _ hroom] at heq
  rw [heq] at hw ⊢
  simp only [CommitResult.written.injEq] at hw
  exact ⟨by rw [← hw.1, hid], by simp only [hid]⟩

/-- C10. File identifiers are never reused: in every reachable state every key of the
file map and every occupied slot value is at least `3` and below `currentFileId`;
`currentFileId` never decreases along the states reached later; hence the identifier given
to a newly created file is the current `currentFileId`, above every key and every slot value
present, and strictly below the identifier of every file created later, whatever was
deleted in between (re-creating a deleted path gives a new identifier). -/
theorem file_ids_never_reused (diskSize : Nat) (diskUnit : String) (blockSize : Nat)
    (blockUnit : String) (blocksCount : Nat) (s : State)
    (h : Reachable (initState diskSize diskUnit blockSize blockUnit blocksCount) s) :
    (∀ p ∈ s.files, 3 ≤ p.1 ∧ p.1 < s.currentFileId) ∧
      (∀ i, i < s.blocksCount → s.memory.getD i 0 ≠ -1 →
        (3 : Int) ≤ s.memory.getD i 0 ∧ s.memory.getD i 0 < (s.currentFileId : Int)) ∧
      (∀ t, Reachable s t → s.currentFileId ≤ t.currentFileId) ∧
      (∀ filepath fileSize unit fileId addr sz, findFile s filepath = 0 →
        (commitFile s filepath fileSize unit).2 = .written fileId addr sz →
        fileId = s.currentFileId ∧
          ∀ t, Reachable (commitFile s filepath fileSize unit).1 t →
            ∀ filepath2 fileSize2 unit2 fileId2 addr2 sz2, findFile t filepath2 = 0 →
              (commitFile t filepath2 fileSize2 unit2).2 = .written fileId2 addr2 sz2 →
              fileId < fileId2) := by
  have hi := inv_of_reachable _ s (inv_initState _ _ _ _ _) h
  refine ⟨hi.key_range, ?_, fun t ht => currentFileId_of_reachable s t hi ht, ?_⟩
  · intro i hlt hne
    have hlt2 : i < s.memory.length := by rw [hi.length_eq]; exact hlt
    rw [List.getD_eq_getElem _ _ hlt2] at hne ⊢
    rcases hi.slot_range _ (List.getElem_mem hlt2) with h1 | h1
    · exact absurd h1 hne
    · exact h1
  · intro filepath fileSize unit fileId addr sz hfresh hw
    obtain ⟨h1, h2⟩ := written_fresh s hi filepath fileSize unit fileId addr sz hfresh hw
    refine ⟨h1, ?_⟩
    intro t ht filepath2 fileSize2 unit2 fileId2 addr2 sz2 hfresh2 hw2
    have hi1 := inv_commitFile s hi filepath fileSize unit
    have hit := inv_of_reachable _ t hi1 ht
    have hmono := currentFileId_of_reachable _ t hi1 ht
    obtain ⟨h3, _⟩ := written_fresh t hit filepath2 fileSize2 unit2 fileId2 addr2 sz2
      hfresh2 hw2
    omega

/-- C10, at `write(/a, 1MB)`, `write(/a, 0)`, `write(/a, 1MB)` on a fresh device: the first
file gets identifier `3`; after its deletion the path is created again and gets `4`. -/
theorem file_ids_never_reused_witness :
    (commitFile (initState 4 "MB" 1 "MB" 4) "/a" 1 "MB").2 = .written 3 0 1 ∧
      (commitFile (commitFile (commitFile (initState 4 "MB" 1 "MB" 4)
        "/a" 1 "MB").1 "/a" 0 "").1 "/a" 1 "MB").2 = .written 4 1048576 1 ∧
      (3 : Nat) < 4 :=
  have h := file_ids_never_reused 4 "MB" 1 "MB" 4 (initState 4 "MB" 1 "MB" 4) Reachable.start
  ⟨by decide, by decide,
    (h.2.2.2 "/a" 1 "MB" 3 0 1 (by decide) (by decide)).2
      (commitFile (commitFile (initState 4 "MB" 1 "MB" 4) "/a" 1 "MB").1 "/a" 0 "").1
      (Reachable.commit "/a" 0 "" Reachable.start) "/a" 1 "MB" 4 1048576 1 (by decide)
      (by decide)⟩

/-! ## Deleting an absent file and the capacity check -/

/-- C12. Deleting an absent file is a no-op: in every state, `commitFile` with size `0` on
a path for which `findFile` returns `0` reports that no such file exists and leaves the
whole state (memory array, cursor, file map, `currentFileId` included) as it was. -/
theorem delete_absent_noop (s : State) (filepath unit : String)
    (h : findFile s filepath = 0) :
    commitFile s filepath 0 unit = (s, .noSuchFile) := by
  simp only [commitFile, if_true, h]

/-- C12, at the initialized device. -/
theorem delete_absent_noop_witness :
    commitFile (initState 4 "MB" 1 "MB" 4) "/a" 0 "" =
      (initState 4 "MB" 1 "MB" 4, .noSuchFile) :=
  delete_absent_noop (initState 4 "MB" 1 "MB" 4) "/a" "" (by decide)

/-- What the final part of `commitFile` reports is a written file of the given size. -/
theorem store_result (s : State) (filepath : String) (k req sz : Nat) :
    ∃ fileId addr, (commitFile.store s filepath k req sz).2 = .written fileId addr sz := by
  unfold commitFile.store
  by_cases hk : k = 0
  · simp only [hk, ne_eq, not_true_eq_false, if_false]
    exact ⟨_, _, rfl⟩
  · simp only [ne_eq, hk, not_false_eq_true, if_true]
    exact ⟨_, _, rfl⟩

/-- A request that is not above the capacity is never answered with the capacity error,
and a written file is always reported with the committed size
`requiredBlocks * blockSize`, in every state. -/
theorem commitFile_result_cases (s : State) (filepath : String) (fileSize : Nat)
    (unit : String)
    (hcap : ¬ convertSize s.diskSize s.diskUnit "B" < convertSize fileSize unit "B") :
    (commitFile s filepath fileSize unit).2 ≠ .exceedsCapacity ∧
      ∀ fileId addr sz, (commitFile s filepath fileSize unit).2 = .written fileId addr sz →
        sz = wrap64 (requiredBlocksFor s fileSize unit * s.blockSize) := by
  have hst : ∀ t : State, (commitFile.store t filepath (findFile s filepath)
      (requiredBlocksFor s fileSize unit)
      (wrap64 (requiredBlocksFor s fileSize unit * s.blockSize))).2 ≠ .exceedsCapacity ∧
      ∀ fileId addr sz, (commitFile.store t filepath (findFile s filepath)
        (requiredBlocksFor s fileSize unit)
        (wrap64 (requiredBlocksFor s fileSize unit * s.blockSize))).2 =
          .written fileId addr sz →
        sz = wrap64 (requiredBlocksFor s fileSize unit * s.blockSize) := by
    intro t
    obtain ⟨a, b, hab⟩ := store_result t filepath (findFile s filepath)
      (requiredBlocksFor s fileSize unit)
      (wrap64 (requiredBlocksFor s fileSize unit * s.blockSize))
    rw [hab]
    refine ⟨fun h => CommitResult.noConfusion h, fun fileId addr sz h => ?_⟩
    simp only [CommitResult.written.injEq] at h
    exact h.2.2.symm
  by_cases h0 : fileSize = 0
  · simp only [commitFile, h0, if_true]
    split
    · exact ⟨fun h => CommitResult.noConfusion h,
        fun _ _ _ h => CommitResult.noConfusion h⟩
    · exact ⟨fun h => CommitResult.noConfusion h,
        fun _ _ _ h => CommitResult.noConfusion h⟩
  · simp only [commitFile, h0, if_false, hcap]
    generalize (if s.currentPos = s.blocksCount then defragment s else s) = s1
    by_cases hroom : s1.blocksCount - s1.currentPos < requiredBlocksFor s fileSize unit
    · rw [if_pos hroom]
      by_cases hfree : requiredBlocksFor s fileSize unit ≤ (getTotalAvailableBlocks s1).1
      · rw [if_pos hfree]
        split
        · exact ⟨fun h => CommitResult.noConfusion h,
            fun _ _ _ h => CommitResult.noConfusion h⟩
        · exact hst _
      · rw [if_neg hfree]
        exact ⟨fun h => CommitResult.noConfusion h,
          fun _ _ _ h => CommitResult.noConfusion h⟩
    · rw [if_neg hroom]
      exact hst _

/-- C13. Over-capacity writes are rejected without effect: in every state and for every
path (with or without a record), a request whose size converted to bytes is strictly
greater than the device capacity converted to bytes (both by `convertSize`, as 64-bit
quantities) is answered with the capacity error and the whole state is left as it was; a
request whose size in bytes is exactly the capacity, and more generally any request that
is not above it, is not rejected by this check. -/
theorem over_capacity_rejected (s : State) (filepath : String) (fileSize : Nat)
    (unit : String)
    (h : convertSize s.diskSize s.diskUnit "B" < convertSize fileSize unit "B") :
    commitFile s filepath fileSize unit = (s, .exceedsCapacity) ∧
      (∀ (filepath2 : String) (fileSize2 : Nat) (unit2 : String),
        convertSize fileSize2 unit2 "B" = convertSize s.diskSize s.diskUnit "B" →
          (commitFile s filepath2 fileSize2 unit2).2 ≠ .exceedsCapacity) ∧
      (∀ (filepath2 : String) (fileSize2 : Nat) (unit2 : String),
        convertSize fileSize2 unit2 "B" ≤ convertSize s.diskSize s.diskUnit "B" →
          (commitFile s filepath2 fileSize2 unit2).2 ≠ .exceedsCapacity) := by
  have h0 : fileSize ≠ 0 := by
    intro hz
    rw [hz, convertSize_zero] at h
    exact Nat.not_lt_zero _ h
  refine ⟨by simp only [commitFile, h0, if_false, h, if_true], ?_, ?_⟩
  · intro filepath2 fileSize2 unit2 heq
    exact (commitFile_result_cases s filepath2 fileSize2 unit2 (by omega)).1
  · intro filepath2 fileSize2 unit2 hle
    exact (commitFile_result_cases s filepath2 fileSize2 unit2 (by omega)).1

/-- C13, on a device of 4 MB: a write of 5 MB to an existing path is rejected and leaves
the state as it was; a write of 4 MB is not rejected by the check. -/
theorem over_capacity_rejected_witness :
    commitFile oneFileFullRun "/a" 5 "MB" = (oneFileFullRun, .exceedsCapacity) ∧
      (commitFile (initState 4 "MB" 1 "MB" 4) "/a" 4096 "KB").2 ≠ .exceedsCapacity :=
  have h := over_capacity_rejected oneFileFullRun "/a" 5 "MB" (by decide)
  ⟨h.1, by decide⟩

/-! ## Release of blocks and paths that start with a dot -/

theorem map_reset_of_not_mem (memory : List Int) (k : Nat) (h : (k : Int) ∉ memory) :
    memory.map (fun v => if v = (k : Int) then -1 else v) = memory := by
  conv_rhs => rw [← List.map_id memory]
  apply List.map_congr_left
  intro v hv
  have : v ≠ (k : Int) := fun hvk => h (hvk ▸ hv)
  simp [this]

/-- C17. The release contract: in every state whose store has `blocksCount` slots and for
every identifier `k`, `resetMemory` sets every slot whose value equals `k` to FREE, leaves
every other slot unchanged, changes nothing but the memory array (the cursor in
particular), is the identity on the whole state when no slot holds `k`, and is
idempotent. -/
theorem resetMemory_contract (s : State) (k : Nat)
    (hlen : s.memory.length = s.blocksCount) :
    (∀ i, i < s.blocksCount →
        (resetMemory s k).memory.getD i 0 =
          if s.memory.getD i 0 = (k : Int) then -1 else s.memory.getD i 0) ∧
      (resetMemory s k).memory.length = s.blocksCount ∧
      (resetMemory s k).currentPos = s.currentPos ∧
      resetMemory s k = { s with memory := (resetMemory s k).memory } ∧
      ((k : Int) ∉ s.memory → resetMemory s k = s) ∧
      resetMemory (resetMemory s k) k = resetMemory s k := by
  have heq := resetMemory_eq s k hlen
  refine ⟨?_, ?_, rfl, rfl, ?_, ?_⟩
  · intro i hi
    rw [heq]
    have hi2 : i < s.memory.length := by omega
    simp only
    rw [List.getD_eq_getElem _ _ (by rw [List.length_map]; exact hi2),
      List.getD_eq_getElem _ _ hi2, List.getElem_map]
  · rw [heq]; simp only [List.length_map]; exact hlen
  · intro hk
    rw [heq, map_reset_of_not_mem _ _ hk]
  · have hlen2 : (resetMemory s k).memory.length = (resetMemory s k).blocksCount := by
      rw [heq]; simp only [List.length_map]; exact hlen
    rw [resetMemory_eq _ k hlen2, heq]
    simp only
    rw [map_reset_of_not_mem _ k (by
      intro hmem
      have := count_reset_self s.memory k
      exact (List.count_eq_zero.mp this) hmem)]

/-- C17, at the full store `[3, 3, 4, 4]`: releasing `3` gives `[FREE, FREE, 4, 4]` and
keeps the cursor at `4`. -/
theorem resetMemory_contract_witness :
    (resetMemory twoFilesFullRun 3).memory = [-1, -1, 4, 4] ∧
      (resetMemory twoFilesFullRun 3).currentPos = 4 ∧
      resetMemory (resetMemory twoFilesFullRun 3) 3 = resetMemory twoFilesFullRun 3 :=
  have h := resetMemory_contract twoFilesFullRun 3 (by decide)
  ⟨by decide, h.2.2.1.trans (by decide), h.2.2.2.2.2⟩

/-- C20 as stated fails: with the current directory `/a/b/`, `getAbsolutePath("./x")` is the
literal concatenation `/a/b/./x`, which is not `/a/b/x`, the result of resolving `x`. -/
theorem dot_slash_path_counterexample :
    getAbsolutePath inDirRun "./x" = "/a/b/./x" ∧
      getAbsolutePath inDirRun "x" = "/a/b/x" ∧
      getAbsolutePath inDirRun "./x" ≠ getAbsolutePath inDirRun "x" := by
  decide

/-- C20, amended. A path that starts with `./` is not given any special treatment: for
every state and every remainder, `getAbsolutePath` returns the current directory followed
by the whole path, `./` included; with the current directory `/a/b/` the path `./x` resolves
to `/a/b/./x`, a different string (and so a different file for `findFile`) than `/a/b/x`. -/
theorem dot_slash_path_is_concatenated (s : State) (rest : List Char) :
    getAbsolutePath s (String.mk ('.' :: '/' :: rest)) =
      s.currentDir ++ "" ++ String.mk ('.' :: '/' :: rest) := by
  have h1 : ltrim (String.mk ('.' :: '/' :: rest)) = String.mk ('.' :: '/' :: rest) := by
    simp [ltrim, List.dropWhile]
  have h2 : startsWithChar (String.mk ('.' :: '/' :: rest)) '/' = false := by
    simp [startsWithChar]
  have h3 : startsWithChar (String.mk ('.' :: '/' :: rest)) '.' = true := by
    simp [startsWithChar]
  have h4 : String.mk ('.' :: '/' :: rest) ≠ "." := by
    intro h; have := congrArg String.data h; simp at this
  have h5 : String.mk ('.' :: '/' :: rest) ≠ ".." := by
    intro h; have := congrArg String.data h; simp at this
  have h6 : strSubstr (String.mk ('.' :: '/' :: rest)) 0 3 ≠ "../" := by
    intro h; have := congrArg String.data h; simp [strSubstr] at this
  simp only [getAbsolutePath, h1, h2, h3, h4, h5, h6, if_true, if_false, Bool.false_eq_true]

/-! ## Counting and contiguity under release and block writing -/

/-! Effect of a release and of a write at the cursor on counts and runs. -/

theorem getD_map_reset (memory : List Int) (k : Nat) (i : Nat) (hi : i < memory.length) :
    (memory.map (fun v => if v = (k : Int) then -1 else v)).getD i 0 =
      if memory.getD i 0 = (k : Int) then -1 else memory.getD i 0 := by
  rw [List.getD_eq_getElem _ _ (by rw [List.length_map]; exact hi),
    List.getD_eq_getElem _ _ hi, List.getElem_map]

theorem count_cons_ite (a x : Int) (l : List Int) :
    List.count a (x :: l) = List.count a l + if x = a then 1 else 0 := by
  by_cases h : x = a
  · rw [if_pos h, h, List.count_cons_self]
  · rw [if_neg h, List.count_cons_of_ne (fun e => h e.symm)]; rfl

theorem count_map_reset_other (memory : List Int) (k : Nat) (a : Int) (hak : a ≠ (k : Int))
    (ha : a ≠ -1) :
    (memory.map (fun v => if v = (k : Int) then -1 else v)).count a = memory.count a := by
  induction memory with
  | nil => rfl
  | cons x l ih =>
    rw [List.map_cons, count_cons_ite, count_cons_ite, ih]
    by_cases hx : x = (k : Int)
    · rw [if_pos hx, if_neg (fun h => ha h.symm), if_neg (fun h => hak (h.symm.trans hx))]
    · rw [if_neg hx]

theorem count_free_map_reset (memory : List Int) (k : Nat) :
    (memory.map (fun v => if v = (k : Int) then -1 else v)).count (-1) =
      memory.count (-1) + memory.count (k : Int) := by
  induction memory with
  | nil => rfl
  | cons x l ih =>
    rw [List.map_cons, count_cons_ite, count_cons_ite, count_cons_ite, ih]
    have hk : (k : Int) ≠ -1 := by omega
    by_cases hx : x = (k : Int)
    · rw [if_pos hx, if_pos rfl, if_pos hx, if_neg (fun h => hk (hx.symm.trans h))]
      omega
    · rw [if_neg hx, if_neg hx]
      omega

theorem contiguousRun_map_reset (memory : List Int) (k : Nat) (a : Int)
    (hak : a ≠ (k : Int)) (ha : a ≠ -1) (h : contiguousRun a memory) :
    contiguousRun a (memory.map (fun v => if v = (k : Int) then -1 else v)) := by
  intro i hi j hj l hl ⟨hij, hjl, h1, h2⟩
  rw [List.length_map] at hi hj hl
  rw [getD_map_reset _ _ _ hi] at h1
  rw [getD_map_reset _ _ _ hl] at h2
  rw [getD_map_reset _ _ _ hj]
  have e1 : memory.getD i 0 = a := by
    by_cases hc : memory.getD i 0 = (k : Int)
    · rw [if_pos hc] at h1; exact absurd h1.symm ha
    · rw [if_neg hc] at h1; exact h1
  have e2 : memory.getD l 0 = a := by
    by_cases hc : memory.getD l 0 = (k : Int)
    · rw [if_pos hc] at h2; exact absurd h2.symm ha
    · rw [if_neg hc] at h2; exact h2
  have e3 := h i hi j hj l hl ⟨hij, hjl, e1, e2⟩
  rw [e3, if_neg hak]

theorem mem_map_reset (memory : List Int) (k : Nat) (v : Int)
    (hv : v ∈ memory.map (fun v => if v = (k : Int) then -1 else v)) (hne : v ≠ -1) :
    v ∈ memory ∧ v ≠ (k : Int) := by
  obtain ⟨w, hw, hwv⟩ := List.mem_map.mp hv
  by_cases hc : w = (k : Int)
  · rw [if_pos hc] at hwv; exact absurd hwv.symm hne
  · rw [if_neg hc] at hwv; exact ⟨hwv ▸ hw, hwv ▸ hc⟩

/-- The store before the write, split at the slots the write overwrites. -/
theorem split_at_cursor (memory : List Int) (cp req : Nat) (h : cp + req ≤ memory.length)
    (htail : ∀ v ∈ memory.drop cp, v = (-1 : Int)) :
    memory = memory.take cp ++ (List.replicate req (-1) ++ memory.drop (cp + req)) := by
  have h1 : memory.drop cp = (memory.drop cp).take req ++ (memory.drop cp).drop req :=
    (List.take_append_drop _ _).symm
  have h2 : (memory.drop cp).take req = List.replicate req (-1) := by
    rw [List.eq_replicate_iff]
    refine ⟨by rw [List.length_take, List.length_drop]; omega, fun v hv => ?_⟩
    exact htail v (List.mem_of_mem_take hv)
  rw [List.drop_drop, h2] at h1
  conv_lhs => rw [← List.take_append_drop cp memory, h1]

theorem count_written_other (memory : List Int) (cp req : Nat) (w a : Int)
    (h : cp + req ≤ memory.length) (htail : ∀ v ∈ memory.drop cp, v = (-1 : Int))
    (haw : a ≠ w) (ha : a ≠ -1) :
    (memory.take cp ++ (List.replicate req w ++ memory.drop (cp + req))).count a =
      memory.count a := by
  conv_rhs => rw [split_at_cursor memory cp req h htail]
  simp only [List.count_append]
  rw [List.count_eq_zero.mpr (fun hm => haw (List.mem_replicate.mp hm).2),
    List.count_eq_zero.mpr (fun hm => ha (List.mem_replicate.mp hm).2)]

theorem count_written_self (memory : List Int) (cp req : Nat) (w : Int)
    (hw : w ∉ memory) :
    (memory.take cp ++ (List.replicate req w ++ memory.drop (cp + req))).count w = req := by
  simp only [List.count_append, List.count_replicate_self]
  rw [List.count_eq_zero.mpr (fun hm => hw (List.mem_of_mem_take hm)),
    List.count_eq_zero.mpr (fun hm => hw (List.mem_of_mem_drop hm))]
  omega

theorem getD_ne_of_not_mem (memory : List Int) (w : Int) (hw : w ∉ memory) (hw0 : w ≠ 0)
    (i : Nat) : memory.getD i 0 ≠ w := by
  by_cases hi : i < memory.length
  · rw [List.getD_eq_getElem _ _ hi]
    exact fun h => hw (h ▸ List.getElem_mem hi)
  · rw [List.getD_eq_default _ _ (by omega)]
    exact fun h => hw0 h.symm

theorem contiguousRun_written_self (memory : List Int) (cp req : Nat) (w : Int)
    (h : cp + req ≤ memory.length) (hw : w ∉ memory) (hw0 : w ≠ 0) :
    contiguousRun w
      (memory.take cp ++ (List.replicate req w ++ memory.drop (cp + req))) := by
  intro i _ j _ l _ ⟨hij, hjl, h1, h2⟩
  rw [getD_written memory w cp req _ h] at h1 h2 ⊢
  have hi : cp ≤ i ∧ i < cp + req := by
    by_contra hc
    rw [if_neg hc] at h1
    exact getD_ne_of_not_mem memory w hw hw0 i h1
  have hl : cp ≤ l ∧ l < cp + req := by
    by_contra hc
    rw [if_neg hc] at h2
    exact getD_ne_of_not_mem memory w hw hw0 l h2
  rw [if_pos ⟨by omega, by omega⟩]

theorem contiguousRun_written_other (memory : List Int) (cp req : Nat) (w a : Int)
    (h : cp + req ≤ memory.length) (htail : ∀ v ∈ memory.drop cp, v = (-1 : Int))
    (haw : a ≠ w) (ha : a ≠ -1) (hrun : contiguousRun a memory) :
    contiguousRun a
      (memory.take cp ++ (List.replicate req w ++ memory.drop (cp + req))) := by
  have hlen : (memory.take cp ++ (List.replicate req w ++ memory.drop (cp + req))).length =
      memory.length := by
    simp only [List.length_append, List.length_take, List.length_replicate,
      List.length_drop]
    omega
  have hfree := (tailFree_iff memory cp).mpr htail
  intro i hi j hj l hl ⟨hij, hjl, h1, h2⟩
  rw [hlen] at hi hj hl
  rw [getD_written memory w cp req _ h] at h1 h2 ⊢
  have e1 : memory.getD i 0 = a := by
    by_cases hc : cp ≤ i ∧ i < cp + req
    · rw [if_pos hc] at h1; exact absurd h1.symm haw
    · rw [if_neg hc] at h1; exact h1
  have e2 : memory.getD l 0 = a := by
    by_cases hc : cp ≤ l ∧ l < cp + req
    · rw [if_pos hc] at h2; exact absurd h2.symm haw
    · rw [if_neg hc] at h2; exact h2
  have e3 := hrun i hi j hj l hl ⟨hij, hjl, e1, e2⟩
  have hj2 : ¬ (cp ≤ j ∧ j < cp + req) := by
    intro hc
    have := hfree j hc.1 hj
    rw [e3] at this
    exact ha this
  rw [if_neg hj2, e3]

theorem mem_written (memory : List Int) (cp req : Nat) (w v : Int)
    (hv : v ∈ memory.take cp ++ (List.replicate req w ++ memory.drop (cp + req))) :
    v = w ∨ v ∈ memory := by
  rcases List.mem_append.mp hv with h | h
  · exact Or.inr (List.mem_of_mem_take h)
  · rcases List.mem_append.mp h with h | h
    · exact Or.inl (List.mem_replicate.mp h).2
    · exact Or.inr (List.mem_of_mem_drop h)

/-! ## Consistency of the file map and the block store: single steps -/

theorem mem_mapAssign_sorted (k : Nat) (v : file) (m : List (Nat × file))
    (hs : m.Pairwise (fun p q => p.1 < q.1)) (p : Nat × file)
    (h : p ∈ mapAssign k v m) : p = (k, v) ∨ (p ∈ m ∧ p.1 ≠ k) := by
  induction m with
  | nil => left; simpa [mapAssign] using h
  | cons q m ih =>
    obtain ⟨k1, v1⟩ := q
    rw [List.pairwise_cons] at hs
    simp only [mapAssign] at h
    split at h
    · rename_i hlt
      rcases List.mem_cons.mp h with h | h
      · exact Or.inl h
      · right
        refine ⟨h, ?_⟩
        rcases List.mem_cons.mp h with h | h
        · rw [h]; show k1 ≠ k; omega
        · have := hs.1 p h; show p.1 ≠ k; simp only at this; omega
    · split at h
      · rename_i heq
        rcases List.mem_cons.mp h with h | h
        · exact Or.inl h
        · right
          have := hs.1 p h
          simp only at this
          exact ⟨List.mem_cons_of_mem _ h, by omega⟩
      · rename_i hnlt hne
        rcases List.mem_cons.mp h with h | h
        · right
          rw [h]
          exact ⟨List.mem_cons_self _ _, fun e => hne e.symm⟩
        · rcases ih hs.2 h with h | h
          · exact Or.inl h
          · exact Or.inr ⟨List.mem_cons_of_mem _ h.1, h.2⟩

theorem mem_mapAssign_of_ne (k : Nat) (v : file) (m : List (Nat × file)) (p : Nat × file)
    (hp : p ∈ m) (hne : p.1 ≠ k) : p ∈ mapAssign k v m := by
  induction m with
  | nil => simp at hp
  | cons q m ih =>
    obtain ⟨k1, v1⟩ := q
    simp only [mapAssign]
    split
    · exact List.mem_cons_of_mem _ hp
    · split
      · rename_i heq
        rcases List.mem_cons.mp hp with h | h
        · rw [h] at hne; exact absurd heq.symm hne
        · exact List.mem_cons_of_mem _ h
      · rcases List.mem_cons.mp hp with h | h
        · rw [h]; exact List.mem_cons_self _ _
        · exact List.mem_cons_of_mem _ (ih h)

theorem consistent_initState (diskSize : Nat) (diskUnit : String) (blockSize : Nat)
    (blockUnit : String) (blocksCount : Nat) :
    Consistent (initState diskSize diskUnit blockSize blockUnit blocksCount) where
  blocks := by intro p hp; simp [initState] at hp
  owned := by
    intro v hv hne
    exact absurd (List.mem_replicate.mp hv).2 hne
  paths := by intro p hp; simp [initState] at hp

theorem consistent_stablePartition (s : State) (h : Consistent s) :
    Consistent (stablePartition s) where
  blocks := by
    intro p hp
    have hp2 := h.blocks p hp
    exact ⟨by rw [stablePartition_count]; exact hp2.1,
      contiguousRun_stablePartition s _ (by omega) hp2.2⟩
  owned := by
    intro v hv hne
    simp only [stablePartition, List.mem_append] at hv
    rcases hv with hv | hv
    · exact h.owned v (List.mem_filter.mp hv).1 hne
    · exact absurd (List.mem_replicate.mp hv).2 hne
  paths := h.paths

theorem consistent_preCompact (s : State) (hi : Inv s) (h : Consistent s) :
    Consistent (preCompact s) := by
  unfold preCompact
  split
  · rw [defragment_of_inv s hi]; exact consistent_stablePartition s h
  · exact h

theorem consistent_writeState (s : State) (hi : Inv s) (h : Consistent s) (req : Nat) :
    Consistent (writeState s req) := by
  unfold writeState
  split
  · exact consistent_preCompact s hi h
  · rw [defragment_of_inv _ (inv_preCompact s hi)]
    exact consistent_stablePartition _ (consistent_preCompact s hi h)

theorem consistent_delete (s : State) (hi : Inv s) (h : Consistent s) (k : Nat) :
    Consistent { resetMemory s k with files := mapErase k (resetMemory s k).files } := by
  rw [resetMemory_eq s k hi.length_eq]
  exact {
    blocks := by
      intro p hp
      simp only [mapErase, List.mem_filter, decide_eq_true_eq] at hp
      have hp2 := h.blocks p hp.1
      have hne : (p.1 : Int) ≠ (k : Int) := by
        intro e; exact hp.2 (by exact_mod_cast e)
      exact ⟨by
          show (s.memory.map _).count (p.1 : Int) = _
          rw [count_map_reset_other _ _ _ hne (by omega)]; exact hp2.1,
        contiguousRun_map_reset _ _ _ hne (by omega) hp2.2⟩
    owned := by
      intro v hv hne
      obtain ⟨hv1, hv2⟩ := mem_map_reset s.memory k v hv hne
      obtain ⟨p, hp, hpv⟩ := h.owned v hv1 hne
      refine ⟨p, ?_, hpv⟩
      simp only [mapErase, List.mem_filter, decide_eq_true_eq]
      refine ⟨hp, fun e => hv2 ?_⟩
      rw [← hpv, e]
    paths := by
      intro p hp q hq hpq
      simp only [mapErase, List.mem_filter, decide_eq_true_eq] at hp hq
      exact h.paths p hp.1 q hq.1 hpq }

/-- Writing the blocks of `fileId` at the cursor of a store that does not hold `fileId`,
together with the assignment of its record, keeps the consistency. -/
theorem consistent_write (t : State) (hi : Inv t) (fileId req newId : Nat) (f1 : file)
    (newFiles : List (Nat × file)) (hreq : req ≤ t.blocksCount - t.currentPos)
    (hid : (fileId : Int) ∉ t.memory) (h3 : 3 ≤ fileId) (hb : f1.allocatedBlocks = req)
    (hin : ∀ p ∈ newFiles, p = (fileId, f1) ∨ (p ∈ t.files ∧ p.1 ≠ fileId))
    (hself : (fileId, f1) ∈ newFiles)
    (hkeep : ∀ p ∈ t.files, p.1 ≠ fileId → p ∈ newFiles)
    (hblocks : ∀ p ∈ t.files, p.1 ≠ fileId →
      t.memory.count (p.1 : Int) = p.2.allocatedBlocks ∧ contiguousRun (p.1 : Int) t.memory)
    (howned : ∀ v ∈ t.memory, v ≠ (-1 : Int) → ∃ p ∈ t.files, (p.1 : Int) = v)
    (hpaths : ∀ p ∈ t.files, ∀ q ∈ t.files, p.1 ≠ fileId → q.1 ≠ fileId →
      p.2.path = q.2.path → p = q)
    (hfresh : ∀ p ∈ t.files, p.1 ≠ fileId → p.2.path ≠ f1.path) :
    Consistent { t with
      memory := t.memory.take t.currentPos ++
        (List.replicate req (fileId : Int) ++ t.memory.drop (t.currentPos + req)),
      files := newFiles, currentFileId := newId, currentPos := t.currentPos + req } where
  blocks := by
    have hl := hi.length_eq
    have hp := hi.pos_le
    intro p hp
    rcases hin p hp with h | h
    · rw [h]
      exact ⟨by
          show List.count (fileId : Int) _ = f1.allocatedBlocks
          rw [count_written_self _ _ _ _ hid, hb],
        contiguousRun_written_self _ _ _ _ (by omega) hid (by omega)⟩
    · have hne : (p.1 : Int) ≠ (fileId : Int) := by
        intro e; exact h.2 (by exact_mod_cast e)
      have hp2 := hblocks p h.1 h.2
      exact ⟨by
          show List.count (p.1 : Int) _ = p.2.allocatedBlocks
          rw [count_written_other _ _ _ _ _ (by omega) hi.tail_free hne (by omega)]
          exact hp2.1,
        contiguousRun_written_other _ _ _ _ _ (by omega) hi.tail_free hne (by omega) hp2.2⟩
  owned := by
    intro v hv hne
    rcases mem_written _ _ _ _ _ hv with h | h
    · exact ⟨(fileId, f1), hself, h.symm⟩
    · obtain ⟨p, hp, hpv⟩ := howned v h hne
      refine ⟨p, hkeep p hp ?_, hpv⟩
      intro e
      apply hid
      rw [← e, hpv]
      exact h
  paths := by
    intro p hp q hq hpq
    rcases hin p hp with h1 | h1 <;> rcases hin q hq with h2 | h2
    · rw [h1, h2]
    · rw [h1] at hpq
      exact absurd hpq.symm (hfresh q h2.1 h2.2)
    · rw [h2] at hpq
      exact absurd hpq (hfresh p h1.1 h1.2)
    · exact hpaths p h1.1 q h2.1 h1.2 h2.2 hpq

/-! ## Consistency of the file map and the block store: reachable states -/

theorem not_mem_of_slot_range (s : State) (hi : Inv s) (k : Nat)
    (hk : s.currentFileId ≤ k) : (k : Int) ∉ s.memory := by
  intro hmem
  rcases hi.slot_range _ hmem with h | h
  · omega
  · have := h.2; omega

theorem consistent_store_fresh (s : State) (hi : Inv s) (h : Consistent s)
    (filepath : String) (req sz : Nat) (hreq : req ≤ s.blocksCount - s.currentPos)
    (hfresh : findFile s filepath = 0) :
    Consistent (commitFile.store s filepath 0 req sz).1 := by
  rw [store_fresh_eq s hi filepath req sz hreq]
  exact consistent_write s hi s.currentFileId req (s.currentFileId + 1)
    { path := filepath, allocatedBlocks := req, allocatedFileSize := sz } _ hreq
    (not_mem_of_slot_range s hi _ (Nat.le_refl _)) hi.id_ge rfl
    (fun p hp => mem_mapAssign_sorted _ _ _ hi.keys_sorted p hp)
    (mapAssign_mem_self _ _ _)
    (fun p hp hne => mem_mapAssign_of_ne _ _ _ p hp hne)
    (fun p hp _ => h.blocks p hp)
    h.owned
    (fun p hp q hq _ _ hpq => h.paths p hp q hq hpq)
    (fun p hp _ => (findFile_eq_zero_iff s hi filepath).mp hfresh p hp)

theorem consistent_store_existing (s : State) (hi : Inv s) (h : Consistent s)
    (filepath : String) (req sz : Nat) (hreq : req ≤ s.blocksCount - s.currentPos)
    (hk : findFile s filepath ≠ 0) :
    Consistent (commitFile.store s filepath (findFile s filepath) req sz).1 := by
  rw [store_existing_eq s hi filepath _ req sz hk hreq]
  obtain ⟨f, hf, hfp⟩ := findFile_mem s filepath hk
  have hr := hi.key_range _ hf
  have hit := inv_resetMemory s (findFile s filepath) hi
  rw [resetMemory_eq s _ hi.length_eq] at hit
  exact consistent_write _ hit (findFile s filepath) req s.currentFileId
    { path := filepath, allocatedBlocks := req, allocatedFileSize := sz } _ hreq
    (fun hmem => List.count_eq_zero.mp (count_reset_self s.memory (findFile s filepath)) hmem)
    hr.1 rfl
    (fun p hp => mem_mapAssign_sorted _ _ _ hi.keys_sorted p hp)
    (mapAssign_mem_self _ _ _)
    (fun p hp hne => mem_mapAssign_of_ne _ _ _ p hp hne)
    (fun p hp hne => by
      have hne2 : (p.1 : Int) ≠ (findFile s filepath : Int) := by
        intro e; exact hne (by exact_mod_cast e)
      have hp2 := h.blocks p hp
      exact ⟨by
          show (s.memory.map _).count (p.1 : Int) = _
          rw [count_map_reset_other _ _ _ hne2 (by omega)]; exact hp2.1,
        contiguousRun_map_reset _ _ _ hne2 (by omega) hp2.2⟩)
    (fun v hv hne => h.owned v (mem_map_reset s.memory _ v hv hne).1 hne)
    (fun p hp q hq _ _ hpq => h.paths p hp q hq hpq)
    (fun p hp hne hpath => by
      have := h.paths p hp _ hf (hpath.trans hfp.symm)
      rw [this] at hne
      exact hne rfl)

/-- `commitFile` keeps the consistency of records and store. -/
theorem consistent_commitFile (s : State) (hi : Inv s) (h : Consistent s)
    (filepath : String) (fileSize : Nat) (unit : String) :
    Consistent (commitFile s filepath fileSize unit).1 := by
  by_cases h0 : fileSize = 0
  · simp only [commitFile, h0, if_true]
    split
    · exact h
    · exact consistent_delete s hi h _
  · by_cases hcap : convertSize s.diskSize s.diskUnit "B" < convertSize fileSize unit "B"
    · simp only [commitFile, h0, if_false, hcap, if_true]
      exact h
    · rw [commitFile_write_eq s hi filepath fileSize unit h0 hcap]
      split
      · rename_i hfree
        obtain ⟨hw, hroom, hfiles, _, _, _⟩ :=
          writeState_spec s hi (requiredBlocksFor s fileSize unit) hfree
        have hc := consistent_writeState s hi h (requiredBlocksFor s fileSize unit)
        have hfind := findFile_congr s (writeState s (requiredBlocksFor s fileSize unit))
          filepath hfiles
        by_cases hk : findFile s filepath = 0
        · rw [hk]
          exact consistent_store_fresh _ hw hc filepath _ _ hroom (hfind.trans hk)
        · rw [← hfind]
          exact consistent_store_existing _ hw hc filepath _ _ hroom (by rw [hfind]; exact hk)
      · exact consistent_preCompact s hi h

theorem consistent_of_reachable (s0 s : State) (hi0 : Inv s0) (hc0 : Consistent s0)
    (h : Reachable s0 s) : Consistent s := by
  induction h with
  | start => exact hc0
  | @commit t filepath fileSize unit ht ih =>
    exact consistent_commitFile t (inv_of_reachable s0 t hi0 ht) ih filepath fileSize unit
  | read file _ ih => rw [readFile_state]; exact ih

/-- C16. Consistency of file records and block store: in every reachable state, for every
record `(id, f)` of the file map the slots whose value is `id` are exactly
`f.allocatedBlocks` many and form one contiguous run; every occupied slot holds an
identifier that is a key of the file map; and no two records have the same path. -/
theorem records_match_store (diskSize : Nat) (diskUnit : String) (blockSize : Nat)
    (blockUnit : String) (blocksCount : Nat) (s : State)
    (h : Reachable (initState diskSize diskUnit blockSize blockUnit blocksCount) s) :
    (∀ p ∈ s.files,
        s.memory.count (p.1 : Int) = p.2.allocatedBlocks ∧
          contiguousRun (p.1 : Int) s.memory) ∧
      (∀ i, i < s.blocksCount → s.memory.getD i 0 ≠ -1 →
        ∃ p ∈ s.files, (p.1 : Int) = s.memory.getD i 0) ∧
      (∀ p ∈ s.files, ∀ q ∈ s.files, p ≠ q → p.2.path ≠ q.2.path) := by
  have hi := inv_of_reachable _ s (inv_initState _ _ _ _ _) h
  have hc := consistent_of_reachable _ s (inv_initState _ _ _ _ _)
    (consistent_initState _ _ _ _ _) h
  refine ⟨hc.blocks, ?_, fun p hp q hq hne hpath => hne (hc.paths p hp q hq hpath)⟩
  intro i hlt hne
  have hlt2 : i < s.memory.length := by rw [hi.length_eq]; exact hlt
  rw [List.getD_eq_getElem _ _ hlt2] at hne ⊢
  exact hc.owned _ (List.getElem_mem hlt2) hne

/-- C16, at the state after `write(/a, 1MB)`, `write(/b, 1MB)`, `write(/a, 0)`: the one
record left, of `/b` with identifier `4`, has one block and slot `1` holds `4`. -/
theorem records_match_store_witness :
    sampleRun.files = [(4, { path := "/b", allocatedBlocks := 1, allocatedFileSize := 1 })] ∧
      sampleRun.memory = [-1, 4, -1, -1] ∧
      sampleRun.memory.count (4 : Int) = 1 ∧ contiguousRun (4 : Int) sampleRun.memory :=
  have h := records_match_store 4 "MB" 1 "MB" 4 sampleRun sampleRun_reachable
  ⟨by decide, by decide,
    h.1 (4, { path := "/b", allocatedBlocks := 1, allocatedFileSize := 1 }) (by decide)⟩

/-! ## Deleting and reading back -/

/-- A path that starts with `/` resolves to itself. -/
theorem getAbsolutePath_of_absolute (s : State) (path : String)
    (h : startsWithChar path '/' = true) : getAbsolutePath s path = path := by
  have hl : ltrim path = path := by
    obtain ⟨cs⟩ := path
    cases cs with
    | nil => simp [startsWithChar] at h
    | cons c cs =>
      simp only [startsWithChar, List.head?_cons, Option.some.injEq, decide_eq_true_eq] at h
      subst h
      simp [ltrim, List.dropWhile]
  simp only [getAbsolutePath, hl, h, if_true]

/-- After the deletion of the record that `findFile` returns for a path, no record has the
path. -/
theorem findFile_mapErase (s : State) (hc : Consistent s) (filepath : String)
    (hk : findFile s filepath ≠ 0) (t : State)
    (ht : t.files = mapErase (findFile s filepath) s.files) :
    findFile t filepath = 0 := by
  obtain ⟨f, hf, hfp⟩ := findFile_mem s filepath hk
  unfold findFile
  rw [ht]
  have : (mapErase (findFile s filepath) s.files).find? (fun p => p.2.path = filepath) =
      none := by
    rw [List.find?_eq_none]
    intro p hp
    simp only [mapErase, List.mem_filter, decide_eq_true_eq] at hp
    simp only [decide_eq_true_eq]
    intro hpath
    have := hc.paths p hp.1 _ hf (hpath.trans hfp.symm)
    rw [this] at hp
    exact hp.2 rfl
  rw [this]

/-- C11. Delete semantics: in every reachable state, `commitFile` with size `0` on a path
whose record has identifier `k` (the non-zero result of `findFile`) reports the deletion of
`k`, resets every slot that holds `k` to FREE, leaves every other slot, the cursor,
`currentFileId` and every other record unchanged, removes the record of `k`, and afterwards
`findFile` on the path is `0`, so that a `readFile` of a path that resolves to it reports
not-found. -/
theorem delete_semantics (diskSize : Nat) (diskUnit : String) (blockSize : Nat)
    (blockUnit : String) (blocksCount : Nat) (s : State)
    (h : Reachable (initState diskSize diskUnit blockSize blockUnit blocksCount) s)
    (filepath unit : String) (hk : findFile s filepath ≠ 0) :
    commitFile s filepath 0 unit =
        ({ s with
            memory := s.memory.map
              (fun v => if v = (findFile s filepath : Int) then -1 else v),
            files := mapErase (findFile s filepath) s.files },
          .deleted (findFile s filepath)) ∧
      (∀ i, i < s.blocksCount →
        (commitFile s filepath 0 unit).1.memory.getD i 0 =
          if s.memory.getD i 0 = (findFile s filepath : Int) then -1
          else s.memory.getD i 0) ∧
      (commitFile s filepath 0 unit).1.currentPos = s.currentPos ∧
      (commitFile s filepath 0 unit).1.currentFileId = s.currentFileId ∧
      (∀ p, p ∈ (commitFile s filepath 0 unit).1.files ↔
        (p ∈ s.files ∧ p.1 ≠ findFile s filepath)) ∧
      findFile (commitFile s filepath 0 unit).1 filepath = 0 ∧
      (∀ raw, getAbsolutePath (commitFile s filepath 0 unit).1 raw = filepath →
        readFile (commitFile s filepath 0 unit).1 raw =
          ((commitFile s filepath 0 unit).1, .notFound filepath)) := by
  have hi := inv_of_reachable _ s (inv_initState _ _ _ _ _) h
  have hc := consistent_of_reachable _ s (inv_initState _ _ _ _ _)
    (consistent_initState _ _ _ _ _) h
  have heq : commitFile s filepath 0 unit =
      ({ s with
          memory := s.memory.map
            (fun v => if v = (findFile s filepath : Int) then -1 else v),
          files := mapErase (findFile s filepath) s.files },
        .deleted (findFile s filepath)) := by
    simp only [commitFile, if_true, hk, if_false]
    rw [resetMemory_eq s _ hi.length_eq]
  have hfind := findFile_mapErase s hc filepath hk (commitFile s filepath 0 unit).1
    (by rw [heq])
  refine ⟨heq, ?_, by rw [heq], by rw [heq], ?_, hfind, ?_⟩
  · intro i hlt
    rw [heq]
    exact getD_map_reset s.memory _ i (by rw [hi.length_eq]; exact hlt)
  · intro p
    rw [heq]
    simp only [mapErase, List.mem_filter, decide_eq_true_eq]
  · intro raw hraw
    unfold readFile
    simp only [hraw, hfind, if_true]

/-- C11, at the deletion of `/a` from the store `[3, 3, 4, 4]` of `/a` and `/b`. -/
theorem delete_semantics_witness :
    commitFile twoFilesFullRun "/a" 0 "" =
        ({ twoFilesFullRun with
            memory := [-1, -1, 4, 4],
            files := [(4, { path := "/b", allocatedBlocks := 2, allocatedFileSize := 2 })] },
          .deleted 3) ∧
      findFile (commitFile twoFilesFullRun "/a" 0 "").1 "/a" = 0 ∧
      readFile (commitFile twoFilesFullRun "/a" 0 "").1 "/a" =
        ((commitFile twoFilesFullRun "/a" 0 "").1, .notFound "/a") :=
  have h := delete_semantics 4 "MB" 1 "MB" 4 twoFilesFullRun twoFilesFullRun_reachable
    "/a" "" (by decide)
  ⟨h.1.trans (by decide), h.2.2.2.2.2.1, h.2.2.2.2.2.2 "/a" (by decide)⟩

/-- C15. Write/read round trip: in every reachable state, immediately after a `commitFile`
call that reports a written file (identifier, start address, committed size), `readFile`
of any path that resolves to the written path (the path itself when it starts with `/`)
leaves the state as it is and reports the file found with the same path, the same
identifier, the same start address and the same committed size. -/
theorem write_read_round_trip (diskSize : Nat) (diskUnit : String) (blockSize : Nat)
    (blockUnit : String) (blocksCount : Nat) (s : State)
    (h : Reachable (initState diskSize diskUnit blockSize blockUnit blocksCount) s)
    (filepath : String) (fileSize : Nat) (unit : String) (fileId addr sz : Nat)
    (hw : (commitFile s filepath fileSize unit).2 = .written fileId addr sz) :
    (∀ raw, getAbsolutePath (commitFile s filepath fileSize unit).1 raw = filepath →
        readFile (commitFile s filepath fileSize unit).1 raw =
          ((commitFile s filepath fileSize unit).1, .found filepath fileId addr sz)) ∧
      (startsWithChar filepath '/' = true →
        readFile (commitFile s filepath fileSize unit).1 filepath =
          ((commitFile s filepath fileSize unit).1, .found filepath fileId addr sz)) := by
  have hi := inv_of_reachable _ s (inv_initState _ _ _ _ _) h
  obtain ⟨_, _, _, _, hrec, hsz, _, hfind, haddr, h3⟩ :=
    written_spec s hi filepath fileSize unit fileId addr sz hw
  have key : ∀ raw, getAbsolutePath (commitFile s filepath fileSize unit).1 raw = filepath →
      readFile (commitFile s filepath fileSize unit).1 raw =
        ((commitFile s filepath fileSize unit).1, .found filepath fileId addr sz) := by
    intro raw hraw
    have hne : fileId ≠ 0 := by omega
    unfold readFile
    simp only [hraw, hfind, hne, if_false, hrec, ← haddr, ← hsz]
  exact ⟨key, fun habs => key filepath (getAbsolutePath_of_absolute _ _ habs)⟩

/-- C15, at `write(/b, 2MB)` after `write(/a, 1MB)` on a fresh device: the read of `/b`
reports identifier `4`, address `1 * 2 ^ 20` and size `2`, as the write did. -/
theorem write_read_round_trip_witness :
    (commitFile (commitFile (initState 4 "MB" 1 "MB" 4) "/a" 1 "MB").1 "/b" 2 "MB").2 =
        .written 4 1048576 2 ∧
      (readFile
        (commitFile (commitFile (initState 4 "MB" 1 "MB" 4) "/a" 1 "MB").1 "/b" 2 "MB").1
        "/b").2 = .found "/b" 4 1048576 2 :=
  have h := write_read_round_trip 4 "MB" 1 "MB" 4
    (commitFile (initState 4 "MB" 1 "MB" 4) "/a" 1 "MB").1
    (Reachable.commit "/a" 1 "MB" Reachable.start) "/b" 2 "MB" 4 1048576 2 (by decide)
  ⟨by decide, congrArg Prod.snd (h.2 (by decide))⟩

/-! ## Reuse of released blocks -/

theorem mixedFullRun_reachable : Reachable (initState 4 "MB" 1 "MB" 4) mixedFullRun :=
  Reachable.commit _ _ _ (Reachable.commit _ _ _ Reachable.start)

theorem findAux_of_not_infix (pat : List Char) :
    ∀ (cs : List Char) (idx : Nat), ¬ pat <:+: cs → findAux pat cs idx = npos
  | [], _, _ => rfl
  | c :: cs, idx, h => by
    have h1 : ¬ pat <+: (c :: cs) := fun hp => h hp.isInfix
    have h2 : ¬ pat <:+: cs := fun hi => h (hi.trans (List.suffix_cons c cs).isInfix)
    simp only [findAux, h1, if_false]
    exact findAux_of_not_infix pat cs (idx + 1) h2

theorem length_upSegments (k : Nat) : (upSegments k).length = 3 * k := by
  induction k with
  | zero => rfl
  | succ k ih => simp only [upSegments, List.length_cons, ih]; omega

theorem drop_upSegments (rem : List Char) :
    ∀ (k j : Nat), j ≤ k → (upSegments k ++ rem).drop (3 * j) = upSegments (k - j) ++ rem
  | _, 0, _ => by simp
  | 0, j + 1, h => by omega
  | k + 1, j + 1, h => by
    have ih := drop_upSegments rem k j (by omega)
    rw [show 3 * (j + 1) = 3 * j + 3 by omega, show k + 1 - (j + 1) = k - j by omega]
    simp only [upSegments, List.cons_append, List.drop_succ_cons]
    exact ih

/-- The search for `../` from the start of the `j`-th leading segment finds it there. -/
theorem strFind_at_segment (k j : Nat) (rem : List Char) (hj : j < k) :
    strFind (String.mk (upSegments k ++ rem)) "../" (3 * j) = 3 * j := by
  unfold strFind
  have hlen : ¬ (upSegments k ++ rem).length < 3 * j := by
    rw [List.length_append, length_upSegments]; omega
  simp only [hlen, if_false]
  rw [drop_upSegments rem k j (by omega)]
  obtain ⟨m, hm⟩ : ∃ m, k - j = m + 1 := ⟨k - j - 1, by omega⟩
  rw [hm]
  have hp : ("../" : String).data <+: ('.' :: '.' :: '/' :: (upSegments m ++ rem)) :=
    ⟨upSegments m ++ rem, rfl⟩
  show findAux ("../" : String).data ('.' :: '.' :: '/' :: (upSegments m ++ rem)) (3 * j) =
    3 * j
  rw [findAux, if_pos hp]

/-- The search for `../` behind the leading segments finds nothing when the remainder does
not contain it. -/
theorem strFind_after_segments (k : Nat) (rem : List Char)
    (hrem : ¬ ("../" : String).data <:+: rem) :
    strFind (String.mk (upSegments k ++ rem)) "../" (3 * k) = npos := by
  unfold strFind
  have hlen : ¬ (upSegments k ++ rem).length < 3 * k := by
    rw [List.length_append, length_upSegments]; omega
  simp only [hlen, if_false]
  rw [drop_upSegments rem k k (le_refl _), Nat.sub_self]
  exact findAux_of_not_infix _ _ _ hrem

/-- The loop of `getAbsolutePath` over a path of `k` leading `../` segments and a remainder
without `../`: started at the `j`-th segment it ends with `levels = k`. -/
theorem scan_segments (k : Nat) (rem : List Char)
    (hrem : ¬ ("../" : String).data <:+: rem) (hlen : 3 * k < npos) :
    ∀ (n j lastpos fuel : Nat), j + n = k → n + 1 ≤ fuel →
      getAbsolutePath.scan (String.mk (upSegments k ++ rem)) fuel
          (if j < k then 3 * j else npos) j lastpos =
        (k, if n = 0 then lastpos else 3 * (k - 1))
  | 0, j, lastpos, fuel, hj, hf => by
    obtain ⟨f, rfl⟩ : ∃ f, fuel = f + 1 := ⟨fuel - 1, by omega⟩
    have : ¬ j < k := by omega
    simp only [getAbsolutePath.scan, this, if_false, ne_eq, not_true_eq_false, if_true]
    rw [show j = k by omega]
  | n + 1, j, lastpos, fuel, hj, hf => by
    obtain ⟨f, rfl⟩ : ∃ f, fuel = f + 1 := ⟨fuel - 1, by omega⟩
    have hjk : j < k := by omega
    have hne : 3 * j ≠ npos := by omega
    simp only [getAbsolutePath.scan, hjk, if_true, ne_eq, hne, not_false_eq_true]
    have hnext : strFind (String.mk (upSegments k ++ rem)) "../" (3 * j + 3) =
        if j + 1 < k then 3 * (j + 1) else npos := by
      by_cases hlt : j + 1 < k
      · rw [if_pos hlt, show 3 * j + 3 = 3 * (j + 1) by omega]
        exact strFind_at_segment k (j + 1) rem hlt
      · rw [if_neg hlt, show 3 * j + 3 = 3 * k by omega]
        exact strFind_after_segments k rem hrem
    rw [hnext, scan_segments k rem hrem hlen n (j + 1) (3 * j) f (by omega) (by omega)]
    by_cases hn : n = 0
    · rw [if_pos hn, if_neg (by omega)]
      congr 1; omega
    · rw [if_neg hn, if_neg (by omega)]

/-- C19 fails in the code at `../a/../b` and at `../a../b` in the directory `/a/b/`: each
has one leading `../` and a remainder (`a/../b`, `a../b`) that does not begin with `../`,
so the result should be `moveUpDir("/a/b/", 1)` followed by the remainder, `/a/a/../b`
and `/a/a../b`.  The loop of `getAbsolutePath` counts the `../` inside the remainder as
well and returns `moveUpDir("/a/b/", 2)` followed by `b`, that is `/b`, for both.  The
branch for a plain relative path leaves an inner `../` alone: `a/../b` resolves to
`/a/b/a/../b`. -/
theorem parent_segments_counterexample :
    getAbsolutePath inDirRun "../a/../b" = "/b" ∧
      moveUpDir inDirRun.currentDir 1 ++ "a/../b" = "/a/a/../b" ∧
      getAbsolutePath inDirRun "../a/../b" = moveUpDir inDirRun.currentDir 2 ++ "b" ∧
      getAbsolutePath inDirRun "../a../b" = "/b" ∧
      moveUpDir inDirRun.currentDir 1 ++ "a../b" = "/a/a../b" ∧
      getAbsolutePath inDirRun "a/../b" = "/a/b/a/../b" := by
  decide

/-- Leading parent segments and nothing else: for every current directory and every path
that consists of `k ≥ 1` consecutive leading `../` segments followed by a remainder in
which `../` does not occur at all, `getAbsolutePath` returns `moveUpDir (currentDir, k)`
followed by the remainder.  (The length of the path is below `npos`, as for every
`std::string`.) -/
theorem parent_segments_resolution (s : State) (k : Nat) (rem : List Char) (hk : 1 ≤ k)
    (hrem : ¬ ("../" : String).data <:+: rem)
    (hlen : (upSegments k ++ rem).length < npos) :
    getAbsolutePath s (String.mk (upSegments k ++ rem)) =
      moveUpDir s.currentDir k ++ "" ++ String.mk rem := by
  obtain ⟨m, rfl⟩ : ∃ m, k = m + 1 := ⟨k - 1, by omega⟩
  have hl3 : 3 * (m + 1) < npos := by
    rw [List.length_append, length_upSegments] at hlen; omega
  have h1 : ltrim (String.mk (upSegments (m + 1) ++ rem)) =
      String.mk (upSegments (m + 1) ++ rem) := by
    simp [ltrim, upSegments, List.dropWhile]
  have h2 : startsWithChar (String.mk (upSegments (m + 1) ++ rem)) '/' = false := by
    simp [startsWithChar, upSegments]
  have h3 : startsWithChar (String.mk (upSegments (m + 1) ++ rem)) '.' = true := by
    simp [startsWithChar, upSegments]
  have h4 : String.mk (upSegments (m + 1) ++ rem) ≠ "." := by
    intro h; have := congrArg String.data h; simp [upSegments] at this
  have h5 : String.mk (upSegments (m + 1) ++ rem) ≠ ".." := by
    intro h; have := congrArg String.data h; simp [upSegments] at this
  have h6 : strSubstr (String.mk (upSegments (m + 1) ++ rem)) 0 3 = "../" := by
    simp [strSubstr, upSegments]
  have h7 := strFind_at_segment (m + 1) 0 rem (by omega)
  have h8 := scan_segments (m + 1) rem hrem hl3 (m + 1) 0 0
    ((upSegments (m + 1) ++ rem).length + 1) (by omega)
    (by rw [List.length_append, length_upSegments]; omega)
  simp only [Nat.mul_zero, Nat.zero_lt_succ, if_true] at h7 h8
  simp only [getAbsolutePath, h1, h2, h3, h4, h5, h6, if_true, if_false,
    Bool.false_eq_true, h7, h8]
  have h9 : strSubstrFrom (String.mk (upSegments (m + 1) ++ rem))
      ((if m + 1 = 0 then 0 else 3 * (m + 1 - 1)) + 3) = String.mk rem := by
    rw [if_neg (by omega), show 3 * (m + 1 - 1) + 3 = 3 * (m + 1) by omega]
    unfold strSubstrFrom
    simp only
    rw [drop_upSegments rem (m + 1) (m + 1) (le_refl _), Nat.sub_self]
    rfl
  rw [h9]

/-- At `../../x` with the current directory `/a/b/`: two levels up is the root, the result
is `/x`. -/
theorem parent_segments_resolution_witness :
    getAbsolutePath inDirRun (String.mk (upSegments 2 ++ ['x'])) = "/x" :=
  (parent_segments_resolution inDirRun 2 ['x'] (by decide) (by decide) (by decide)).trans
    (by decide)

/-! ## Extended precision: the quotients of `commitFile` -/

/-- Rounding to nearest is not below the floor. -/
theorem roundHalfEven_ge_floor (m : ℚ) : ⌊m⌋ ≤ roundHalfEven m := by
  unfold roundHalfEven
  split
  · exact le_refl _
  · split
    · omega
    · split
      · exact le_refl _
      · omega

/-- Rounding to nearest is not above the floor plus one. -/
theorem roundHalfEven_le_floor_succ (m : ℚ) : roundHalfEven m ≤ ⌊m⌋ + 1 := by
  unfold roundHalfEven
  split
  · omega
  · split
    · omega
    · split
      · omega
      · omega

/-- Rounding to nearest does not pass an integer above. -/
theorem roundHalfEven_le (m : ℚ) (N : ℤ) (h : m ≤ N) : roundHalfEven m ≤ N := by
  have hf : ⌊m⌋ ≤ N := by
    have := Int.floor_le m
    exact Int.floor_le_iff.mpr (by linarith) 
  rcases lt_or_eq_of_le hf with hlt | heq
  · have := roundHalfEven_le_floor_succ m
    omega
  · have hm : m = (⌊m⌋ : ℚ) := by
      have h1 := Int.floor_le m
      rw [heq] at h1 ⊢
      exact le_antisymm h h1
    unfold roundHalfEven
    rw [if_pos (by rw [← hm]; norm_num)]
    exact hf

/-- Rounding to nearest passes an integer that lies more than a half below. -/
theorem le_roundHalfEven (m : ℚ) (N : ℤ) (h : (N : ℚ) + 1 / 2 < m) : N + 1 ≤ roundHalfEven m := by
  have hf : N ≤ ⌊m⌋ := Int.le_floor.mpr (by linarith)
  rcases lt_or_eq_of_le hf with hlt | heq
  · have := roundHalfEven_ge_floor m
    omega
  · unfold roundHalfEven
    have h2 : (1 : ℚ) / 2 < m - ⌊m⌋ := by rw [← heq]; linarith
    rw [if_neg (by linarith), if_pos h2, heq]

/-- Rounding to nearest keeps an integer that lies below. -/
theorem roundHalfEven_ge (m : ℚ) (N : ℤ) (h : (N : ℚ) ≤ m) : N ≤ roundHalfEven m :=
  (Int.le_floor.mpr h).trans (roundHalfEven_ge_floor m)



/-- The binary exponent of a quotient of a positive 64-bit integer is at most `63`. -/
theorem log_quotient_le (f b : Nat) (hb : 0 < b) (hf : 0 < f) (hf64 : f < 2 ^ 64) :
    Int.log 2 ((f : ℚ) / (b : ℚ)) ≤ 63 := by
  have hq : (0 : ℚ) < (f : ℚ) / (b : ℚ) := by positivity
  have hlt : (f : ℚ) / (b : ℚ) < ((2 : ℕ) : ℚ) ^ (64 : ℤ) := by
    rw [div_lt_iff₀ (by exact_mod_cast hb)]
    have h1 : (f : ℚ) < 2 ^ 64 := by exact_mod_cast hf64
    have h2 : (1 : ℚ) ≤ b := by exact_mod_cast hb
    have h3 : ((2 : ℕ) : ℚ) ^ (64 : ℤ) = 2 ^ 64 := by norm_num
    rw [h3]
    nlinarith
  have := (Int.lt_zpow_iff_log_lt (by norm_num : 1 < 2) hq).mp hlt
  omega

/-- The integer ceiling of a positive quotient: one less is too few, it is enough, and it
is at least `1`. -/
theorem ceilDiv_bounds (f b : Nat) (hb : 0 < b) (hf : 0 < f) :
    (ceilDiv f b - 1) * b + 1 ≤ f ∧ f ≤ ceilDiv f b * b ∧ 1 ≤ ceilDiv f b := by
  unfold ceilDiv
  have h1 := Nat.div_add_mod (f + b - 1) b
  have h2 := Nat.mod_lt (f + b - 1) hb
  have h3 : 1 ≤ (f + b - 1) / b := by
    rw [Nat.one_le_div_iff hb]; omega
  obtain ⟨c, hc⟩ : ∃ c, (f + b - 1) / b = c + 1 := ⟨(f + b - 1) / b - 1, by omega⟩
  rw [hc] at h1 ⊢
  rw [Nat.mul_comm] at h1
  simp only [Nat.add_sub_cancel]
  have h4 : (c + 1) * b = c * b + b := by ring
  rw [h4] at h1 ⊢
  omega



/-- The rounded quotient of a positive 64-bit integer lies in the same unit interval
below the integer ceiling as the exact quotient. -/
theorem roundExt_quotient_bounds (f b : Nat) (hb : 0 < b) (hf : 0 < f) (hf64 : f < 2 ^ 64) :
    ((ceilDiv f b : ℤ) : ℚ) - 1 < roundExt ((f : ℚ) / (b : ℚ)) ∧
      roundExt ((f : ℚ) / (b : ℚ)) ≤ ((ceilDiv f b : ℤ) : ℚ) := by
  have hbq : (0 : ℚ) < b := by exact_mod_cast hb
  have hq : (0 : ℚ) < (f : ℚ) / (b : ℚ) := by positivity
  obtain ⟨hlo, hhi, hone⟩ := ceilDiv_bounds f b hb hf
  have he := log_quotient_le f b hb hf hf64
  have hpow := Int.zpow_log_le_self (by norm_num : 1 < 2) hq
  rw [Nat.cast_ofNat] at hpow
  unfold roundExt
  rw [if_neg (not_le.mpr hq)]
  generalize Int.log 2 ((f : ℚ) / (b : ℚ)) = e at he hpow ⊢
  obtain ⟨n, hn⟩ : ∃ n : ℕ, e = 63 - (n : ℤ) := ⟨(63 - e).toNat, by omega⟩
  have hs : (2 : ℚ) ^ (e - 63) = 1 / 2 ^ n := by
    rw [hn, show (63 : ℤ) - n - 63 = -(n : ℤ) by ring, zpow_neg, zpow_natCast, one_div]
  have hw : (0 : ℚ) < 2 ^ n := by positivity
  rw [hs]
  have hdiv : (f : ℚ) / b / (1 / 2 ^ n) = (f : ℚ) / b * 2 ^ n := by
    field_simp
  rw [hdiv]
  have hloq : ((ceilDiv f b : ℚ) - 1) * b + 1 ≤ f := by
    have : (((ceilDiv f b - 1) * b + 1 : ℕ) : ℚ) ≤ f := by exact_mod_cast hlo
    push_cast [Nat.cast_sub hone] at this
    exact this
  have hhiq : (f : ℚ) ≤ (ceilDiv f b : ℚ) * b := by exact_mod_cast hhi
  have hquo_hi : (f : ℚ) / b ≤ ceilDiv f b := by
    rw [div_le_iff₀ hbq]; exact hhiq
  have hquo_lo : (ceilDiv f b : ℚ) - 1 + 1 / b ≤ (f : ℚ) / b := by
    rw [le_div_iff₀ hbq]
    have : ((ceilDiv f b : ℚ) - 1 + 1 / b) * b = ((ceilDiv f b : ℚ) - 1) * b + 1 := by
      field_simp
    rw [this]; exact hloq
  -- the divisor is below twice the scale
  have hb2 : (b : ℚ) < 2 * 2 ^ n := by
    have h64 : (f : ℚ) < 2 ^ 64 := by exact_mod_cast hf64
    have hle : (2 : ℚ) ^ e * b ≤ f := by
      rw [le_div_iff₀ hbq] at hpow; exact hpow
    have he2 : (2 : ℚ) ^ e * 2 ^ n = 2 ^ 63 := by
      rw [hn, ← zpow_natCast, ← zpow_add₀ (by norm_num : (2 : ℚ) ≠ 0)]
      rw [show (63 : ℤ) - n + n = ((63 : ℕ) : ℤ) by push_cast; ring, zpow_natCast]
    have hpe : (0 : ℚ) < 2 ^ e := by positivity
    by_contra hcon
    have hcon : 2 * (2 : ℚ) ^ n ≤ b := not_lt.mp hcon
    have : (2 : ℚ) ^ e * (2 * 2 ^ n) ≤ 2 ^ e * b := by
      exact mul_le_mul_of_nonneg_left hcon hpe.le
    have h5 : (2 : ℚ) ^ e * (2 * 2 ^ n) = 2 ^ 64 := by
      rw [show (2 : ℚ) ^ e * (2 * 2 ^ n) = 2 * (2 ^ e * 2 ^ n) by ring, he2]; norm_num
    linarith
  constructor
  · have hN : (ceilDiv f b : ℤ) * 2 ^ n - 2 ^ n + 1 ≤ roundHalfEven ((f : ℚ) / b * 2 ^ n) := by
      apply le_roundHalfEven
      push_cast
      have h1 : ((ceilDiv f b : ℚ) - 1 + 1 / b) * 2 ^ n ≤ (f : ℚ) / b * 2 ^ n :=
        mul_le_mul_of_nonneg_right hquo_lo hw.le
      have h2 : (1 : ℚ) / 2 < 1 / b * 2 ^ n := by
        rw [one_div_mul_eq_div, lt_div_iff₀ hbq]
        linarith
      nlinarith
    have hNq : ((ceilDiv f b : ℚ)) * 2 ^ n - 2 ^ n + 1 ≤
        (roundHalfEven ((f : ℚ) / b * 2 ^ n) : ℚ) := by exact_mod_cast hN
    push_cast
    rw [mul_one_div, lt_div_iff₀ hw]
    linarith
  · have hN : roundHalfEven ((f : ℚ) / b * 2 ^ n) ≤ (ceilDiv f b : ℤ) * 2 ^ n := by
      apply roundHalfEven_le
      push_cast
      exact mul_le_mul_of_nonneg_right hquo_hi hw.le
    have hNq : (roundHalfEven ((f : ℚ) / b * 2 ^ n) : ℚ) ≤ (ceilDiv f b : ℚ) * 2 ^ n := by
      exact_mod_cast hN
    push_cast
    rw [mul_one_div, div_le_iff₀ hw]
    exact hNq

/-- The `long double` evaluation of `ceil (f / b)` is the exact integer ceiling. -/
theorem ceilDivExt_eq_ceilDiv (f b : Nat) (hb : 0 < b) (hf64 : f < 2 ^ 64) :
    ceilDivExt f b = ceilDiv f b := by
  rcases Nat.eq_zero_or_pos f with h0 | hf
  · subst h0
    have : ceilDiv 0 b = 0 := by
      unfold ceilDiv
      exact Nat.div_eq_of_lt (by omega)
    rw [this]
    simp [ceilDivExt, roundExt]
  · obtain ⟨h1, h2⟩ := roundExt_quotient_bounds f b hb hf hf64
    unfold ceilDivExt
    have : ⌈roundExt ((f : ℚ) / (b : ℚ))⌉ = (ceilDiv f b : ℤ) := Int.ceil_eq_iff.mpr ⟨h1, h2⟩
    rw [this]
    exact Int.toNat_natCast _



/-- The `long double` evaluation of the test `(d / f) < 1` is the integer test `d < f`. -/
theorem quotientBelowOneExt_eq (d f : Nat) (hf : 0 < f) (hd64 : d < 2 ^ 64) (hf64 : f < 2 ^ 64) :
    quotientBelowOneExt d f = decide (d < f) := by
  unfold quotientBelowOneExt
  rw [decide_eq_decide]
  have hfq : (0 : ℚ) < f := by exact_mod_cast hf
  rcases Nat.eq_zero_or_pos d with h0 | hd
  · subst h0
    simp [roundExt, hf]
  have hq : (0 : ℚ) < (d : ℚ) / (f : ℚ) := by positivity
  have he := log_quotient_le d f hf hd hd64
  unfold roundExt
  rw [if_neg (not_le.mpr hq)]
  by_cases hlt : d < f
  · have hq1 : (d : ℚ) / f < ((2 : ℕ) : ℚ) ^ (0 : ℤ) := by
      rw [zpow_zero, div_lt_one hfq]; exact_mod_cast hlt
    have he0 := (Int.lt_zpow_iff_log_lt (by norm_num : 1 < 2) hq).mp hq1
    generalize Int.log 2 ((d : ℚ) / (f : ℚ)) = e at he he0 ⊢
    obtain ⟨n, hn⟩ : ∃ n : ℕ, e = 63 - (n : ℤ) := ⟨(63 - e).toNat, by omega⟩
    have hn64 : 64 ≤ n := by omega
    have hs : (2 : ℚ) ^ (e - 63) = 1 / 2 ^ n := by
      rw [hn, show (63 : ℤ) - n - 63 = -(n : ℤ) by ring, zpow_neg, zpow_natCast, one_div]
    have hw : (0 : ℚ) < 2 ^ n := by positivity
    rw [hs]
    have hdiv : (d : ℚ) / f / (1 / 2 ^ n) = (d : ℚ) / f * 2 ^ n := by field_simp
    rw [hdiv]
    simp only [hlt, iff_true]
    have hfn : (f : ℚ) ≤ 2 ^ n := by
      have h1 : (f : ℚ) ≤ 2 ^ 64 := by exact_mod_cast hf64.le
      have h2 : (2 : ℚ) ^ 64 ≤ 2 ^ n := pow_le_pow_right₀ (by norm_num) hn64
      exact h1.trans h2
    have hN : roundHalfEven ((d : ℚ) / f * 2 ^ n) ≤ 2 ^ n - 1 := by
      apply roundHalfEven_le
      push_cast
      have hd1 : (d : ℚ) + 1 ≤ f := by exact_mod_cast hlt
      rw [div_mul_eq_mul_div, div_le_iff₀ hfq]
      nlinarith
    have hNq : (roundHalfEven ((d : ℚ) / f * 2 ^ n) : ℚ) ≤ 2 ^ n - 1 := by exact_mod_cast hN
    rw [mul_one_div, div_lt_one hw]
    linarith
  · have hq1 : ((2 : ℕ) : ℚ) ^ (0 : ℤ) ≤ (d : ℚ) / f := by
      rw [zpow_zero, one_le_div hfq]; exact_mod_cast not_lt.mp hlt
    have he0 := (Int.zpow_le_iff_le_log (by norm_num : 1 < 2) hq).mp hq1
    have hq2 : (1 : ℚ) ≤ (d : ℚ) / f := by rw [zpow_zero] at hq1; exact hq1
    generalize Int.log 2 ((d : ℚ) / (f : ℚ)) = e at he he0 ⊢
    obtain ⟨n, hn⟩ : ∃ n : ℕ, e = 63 - (n : ℤ) := ⟨(63 - e).toNat, by omega⟩
    have hs : (2 : ℚ) ^ (e - 63) = 1 / 2 ^ n := by
      rw [hn, show (63 : ℤ) - n - 63 = -(n : ℤ) by ring, zpow_neg, zpow_natCast, one_div]
    have hw : (0 : ℚ) < 2 ^ n := by positivity
    rw [hs]
    have hdiv : (d : ℚ) / f / (1 / 2 ^ n) = (d : ℚ) / f * 2 ^ n := by field_simp
    rw [hdiv]
    simp only [hlt, iff_false, not_lt]
    have hN : (2 : ℤ) ^ n ≤ roundHalfEven ((d : ℚ) / f * 2 ^ n) := by
      apply roundHalfEven_ge
      push_cast
      nlinarith
    have hNq : (2 : ℚ) ^ n ≤ (roundHalfEven ((d : ℚ) / f * 2 ^ n) : ℚ) := by exact_mod_cast hN
    rw [mul_one_div, one_le_div hw]
    exact hNq


/-- A size converted to bytes is a 64-bit value. -/
theorem convertSize_bytes_lt (size : Nat) (fromUnit : String) (h : size < 2 ^ 64) :
    convertSize size fromUnit "B" < 2 ^ 64 := by
  unfold convertSize wrap64
  simp only [if_true]
  repeat' split
  all_goals first | exact h | exact Nat.mod_lt _ (by norm_num) | norm_num

/-- The exact ceiling of the quotient, as an integer. -/
theorem ceilDiv_eq_ceil (f b : Nat) (hb : 0 < b) : (ceilDiv f b : ℤ) = ⌈(f : ℚ) / (b : ℚ)⌉ := by
  rcases Nat.eq_zero_or_pos f with h0 | hf
  · subst h0
    have : ceilDiv 0 b = 0 := by
      unfold ceilDiv
      exact Nat.div_eq_of_lt (by omega)
    rw [this]
    simp
  · obtain ⟨hlo, hhi, hone⟩ := ceilDiv_bounds f b hb hf
    have hbq : (0 : ℚ) < b := by exact_mod_cast hb
    symm
    rw [Int.ceil_eq_iff]
    constructor
    · rw [lt_div_iff₀ hbq]
      have : (((ceilDiv f b - 1) * b + 1 : ℕ) : ℚ) ≤ f := by exact_mod_cast hlo
      push_cast [Nat.cast_sub hone] at this ⊢
      linarith
    · rw [div_le_iff₀ hbq]
      exact_mod_cast hhi

/-! ## Block rounding -/

/-- A product with a block size given in a unit of at least two bytes stays a 64-bit
value when one block less is below the request. -/
theorem blocks_times_blockSize_lt (r bs b f scale : Nat) (hr : 1 ≤ r) (hscale : 2 ≤ scale)
    (hb : b = bs * scale) (hb64 : b < 2 ^ 64) (hlo : (r - 1) * b < f) (hf64 : f < 2 ^ 64) :
    r * bs < 2 ^ 64 := by
  obtain ⟨k, rfl⟩ : ∃ k, r = k + 1 := ⟨r - 1, by omega⟩
  simp only [Nat.add_sub_cancel] at hlo
  subst hb
  have h1 : k * bs * 2 ≤ k * (bs * scale) := by
    rw [Nat.mul_assoc]
    exact Nat.mul_le_mul_left _ (Nat.mul_le_mul_left _ hscale)
  have h2 : bs * 2 ≤ bs * scale := Nat.mul_le_mul_left _ hscale
  rw [Nat.succ_mul]
  omega

/-- C14: block rounding.  For every state with a non-zero block size of `b` bytes and
every request whose size converted to bytes `f` is not zero (both 64-bit values, as their
type has it), the number of blocks `commitFile` computes is the value of its `long double`
expression `ceil (f / b)`, which is the exact ceiling of the quotient; it is at least `1`,
one block less does not cover the request and this number does; no smaller number of
blocks covers the request, so `requiredBlocks * blockSize` is the least whole multiple of
the block size that does; with the block size given in KB or MB the product is computed
without wrapping; and a write that succeeds reports this product as the committed
size. -/
theorem block_rounding (s : State) (fileSize : Nat) (unit : String)
    (hfs : fileSize < 2 ^ 64) (hbs : s.blockSize < 2 ^ 64)
    (hf : convertSize fileSize unit "B" ≠ 0)
    (hb : convertSize s.blockSize s.blockUnit "B" ≠ 0) :
    requiredBlocksFor s fileSize unit =
        ceilDivExt (convertSize fileSize unit "B") (convertSize s.blockSize s.blockUnit "B") ∧
      (requiredBlocksFor s fileSize unit : ℤ) =
        ⌈(convertSize fileSize unit "B" : ℚ) / (convertSize s.blockSize s.blockUnit "B" : ℚ)⌉ ∧
      1 ≤ requiredBlocksFor s fileSize unit ∧
      (requiredBlocksFor s fileSize unit - 1) * convertSize s.blockSize s.blockUnit "B" <
        convertSize fileSize unit "B" ∧
      convertSize fileSize unit "B" ≤
        requiredBlocksFor s fileSize unit * convertSize s.blockSize s.blockUnit "B" ∧
      (∀ m : Nat, convertSize fileSize unit "B" ≤ m * convertSize s.blockSize s.blockUnit "B" →
        requiredBlocksFor s fileSize unit ≤ m ∧
          requiredBlocksFor s fileSize unit * s.blockSize ≤ m * s.blockSize) ∧
      (convertSize s.blockSize s.blockUnit "B" = s.blockSize * 1024 ∨
          convertSize s.blockSize s.blockUnit "B" = s.blockSize * (1024 * 1024) →
        wrap64 (requiredBlocksFor s fileSize unit * s.blockSize) =
          requiredBlocksFor s fileSize unit * s.blockSize) ∧
      ∀ (filepath : String) (fileId addr sz : Nat),
        (commitFile s filepath fileSize unit).2 = .written fileId addr sz →
          sz = wrap64 (requiredBlocksFor s fileSize unit * s.blockSize) := by
  have hf64 := convertSize_bytes_lt fileSize unit hfs
  have hb64 := convertSize_bytes_lt s.blockSize s.blockUnit hbs
  have hbpos : 0 < convertSize s.blockSize s.blockUnit "B" := Nat.pos_of_ne_zero hb
  have hfpos : 0 < convertSize fileSize unit "B" := Nat.pos_of_ne_zero hf
  obtain ⟨hlo, hhi, hone⟩ := ceilDiv_bounds _ _ hbpos hfpos
  have hlo2 : (requiredBlocksFor s fileSize unit - 1) * convertSize s.blockSize s.blockUnit "B" <
      convertSize fileSize unit "B" := hlo
  have hmin : ∀ m : Nat,
      convertSize fileSize unit "B" ≤ m * convertSize s.blockSize s.blockUnit "B" →
        requiredBlocksFor s fileSize unit ≤ m := by
    intro m hm
    by_contra hcon
    have h1 : m ≤ requiredBlocksFor s fileSize unit - 1 := by
      have : 1 ≤ requiredBlocksFor s fileSize unit := hone
      omega
    have h2 := Nat.mul_le_mul_right (convertSize s.blockSize s.blockUnit "B") h1
    omega
  refine ⟨(ceilDivExt_eq_ceilDiv _ _ hbpos hf64).symm, ceilDiv_eq_ceil _ _ hbpos, hone, hlo2,
    hhi, fun m hm => ⟨hmin m hm, Nat.mul_le_mul_right _ (hmin m hm)⟩, ?_, ?_⟩
  · intro hunit
    unfold wrap64
    apply Nat.mod_eq_of_lt
    rcases hunit with h | h
    · exact blocks_times_blockSize_lt _ _ _ _ 1024 hone (by norm_num) h hb64 hlo2 hf64
    · exact blocks_times_blockSize_lt _ _ _ _ (1024 * 1024) hone (by norm_num) h hb64 hlo2 hf64
  · intro filepath fileId addr sz hw
    by_cases hcap : convertSize s.diskSize s.diskUnit "B" < convertSize fileSize unit "B"
    · have h0 : fileSize ≠ 0 := by
        intro hz
        rw [hz, convertSize_zero] at hf
        exact hf rfl
      simp only [commitFile, h0, if_false, hcap, if_true] at hw
      cases hw
    · exact (commitFile_result_cases s filepath fileSize unit hcap).2 fileId addr sz hw

/-- C14, on an empty device of 4 MB with blocks of 1 MB: a request of 1500 KB takes
2 blocks, computed alike in extended precision, and is committed as 2 MB. -/
theorem block_rounding_witness :
    requiredBlocksFor (initState 4 "MB" 1 "MB" 4) 1500 "KB" = 2 ∧
      ceilDivExt (convertSize 1500 "KB" "B") (convertSize 1 "MB" "B") = 2 ∧
      wrap64 (2 * 1) = 2 ∧
      (commitFile (initState 4 "MB" 1 "MB" 4) "/a" 1500 "KB").2 = .written 3 0 2 :=
  have h := block_rounding (initState 4 "MB" 1 "MB" 4) 1500 "KB" (by decide) (by decide)
    (by decide) (by decide)
  ⟨by decide, h.1.symm.trans (by decide), h.2.2.2.2.2.2.1 (Or.inr (by decide)), by decide⟩

/-! ## Absolute paths -/

/-- Leading blanks and tabs are erased by `ltrim` up to the first other character. -/
theorem ltrim_blanks (ws rest : List Char) (c : Char) (hws : ∀ x ∈ ws, x = ' ' ∨ x = '\t')
    (hc : ¬ (c = ' ' ∨ c = '\t')) :
    ltrim (String.mk (ws ++ c :: rest)) = String.mk (c :: rest) := by
  unfold ltrim
  congr 1
  induction ws with
  | nil => simp [List.dropWhile, hc]
  | cons w ws ih =>
    have hw := hws w (List.mem_cons_self _ _)
    simp only [List.cons_append, List.dropWhile, hw, decide_True]
    exact ih (fun x hx => hws x (List.mem_cons_of_mem _ hx))

/-- C21. Absolute paths resolve to themselves: for every state (so for every current
directory) and every path made of leading blanks and tabs followed by a text that starts
with `/`, `getAbsolutePath` returns that text unchanged; in particular `/abs/path`
resolves to `/abs/path` in every state. -/
theorem absolute_path_resolves (s : State) (ws rest : List Char)
    (hws : ∀ x ∈ ws, x = ' ' ∨ x = '\t') :
    getAbsolutePath s (String.mk (ws ++ '/' :: rest)) = String.mk ('/' :: rest) ∧
      getAbsolutePath s "/abs/path" = "/abs/path" := by
  have hl := ltrim_blanks ws rest '/' hws (by decide)
  refine ⟨?_, ?_⟩
  · unfold getAbsolutePath
    simp only [hl]
    rw [if_pos (by simp [startsWithChar])]
  · exact getAbsolutePath_of_absolute s "/abs/path" (by decide)

/-- C21, in the directory `/a/b/`: a blank, a tab and `/abs/path` resolve to
`/abs/path`. -/
theorem absolute_path_resolves_witness :
    getAbsolutePath inDirRun " \t/abs/path" = "/abs/path" :=
  (absolute_path_resolves inDirRun [' ', '\t'] "abs/path".data (by decide)).1

/-! ## Unit conversion -/

/-- C24. Unit conversion equals its reference definition: for every 64-bit quantity `q`
and every two strings, `convertSize` returns what the reference definition gives (with
ranks `B = 0`, `KB = 1`, `MB = 2`, `GB = 3`, `TB = 4`: `q * 1024 ^ (rank from - rank to)`
modulo `2 ^ 64` when `rank to ≤ rank from`, and `0` when the target is the larger unit or
when one of the strings is not a unit); the conversion of a unit to itself is the
identity. -/
theorem convertSize_eq_reference (q : Nat) (hq : q < 2 ^ 64) (fromUnit toUnit : String) :
    convertSize q fromUnit toUnit = convertSizeRef q fromUnit toUnit ∧
      (∀ f t : Nat, unitRank fromUnit = some f → unitRank toUnit = some t → t ≤ f →
        convertSize q fromUnit toUnit = (q * 1024 ^ (f - t)) % 2 ^ 64) ∧
      (∀ f t : Nat, unitRank fromUnit = some f → unitRank toUnit = some t → f < t →
        convertSize q fromUnit toUnit = 0) ∧
      (unitRank fromUnit = none ∨ unitRank toUnit = none →
        convertSize q fromUnit toUnit = 0) ∧
      (fromUnit = toUnit → unitRank fromUnit ≠ none → convertSize q fromUnit toUnit = q) := by
  have href : convertSize q fromUnit toUnit = convertSizeRef q fromUnit toUnit := by
    unfold convertSize convertSizeRef unitRank wrap64
    split_ifs <;> simp_all <;> first | (symm; exact Nat.mod_eq_of_lt hq) | ring_nf
  refine ⟨href, ?_, ?_, ?_, ?_⟩
  · intro f t hf ht hle
    rw [href]; unfold convertSizeRef; rw [hf, ht]; simp only [hle, if_true]
  · intro f t hf ht hlt
    rw [href]; unfold convertSizeRef; rw [hf, ht]; simp only [not_le.mpr hlt, if_false]
  · intro h
    rw [href]; unfold convertSizeRef
    rcases h with h | h
    · rw [h]
    · rw [h]
      cases unitRank fromUnit <;> rfl
  · intro heq hne
    rw [href]; unfold convertSizeRef
    subst heq
    cases h : unitRank fromUnit with
    | none => exact absurd h hne
    | some f =>
      simp only [le_refl, if_true, Nat.sub_self, pow_zero, Nat.mul_one]
      exact Nat.mod_eq_of_lt hq

/-- C24, for 3 GB: 3145728 KB, 3 GB in GB, no conversion to TB, none from an unknown
unit, and a product that wraps. -/
theorem convertSize_eq_reference_witness :
    convertSize 3 "GB" "KB" = 3145728 ∧ convertSize 3 "GB" "GB" = 3 ∧
      convertSize 3 "GB" "TB" = 0 ∧ convertSize 3 "gb" "B" = 0 ∧
      convertSize 3 "GB" "KB" = convertSizeRef 3 "GB" "KB" ∧
      convertSize 16777216 "TB" "B" = 0 :=
  ⟨by decide, by decide, by decide, by decide,
    (convertSize_eq_reference 3 (by decide) "GB" "KB").1, by decide⟩

/-! ## The start-address query -/

/-- The search loop of `getStartingAddress` leaves `0` when none of the slots it visits
holds the identifier. -/
theorem getStartingAddress_loop_absent (memory : List Int) (fileId : Nat) :
    ∀ (n i : Nat), (∀ j, i ≤ j → j < i + n → memory.getD j 0 ≠ (fileId : Int)) →
      getStartingAddress.loop memory fileId n i = 0
  | 0, _, _ => rfl
  | n + 1, i, h => by
    rw [getStartingAddress.loop, if_neg (h i (le_refl _) (by omega))]
    exact getStartingAddress_loop_absent memory fileId n (i + 1)
      (fun j h1 h2 => h j (by omega) (by omega))

/-- C26. Start-address query: for every state whose store has `blocksCount` slots and
every identifier `k`, when `i` is the lowest index of a slot that holds `k`,
`getStartingAddress` yields `i` times the block size in bytes, as the program computes
the product (modulo `2 ^ 64`), which is that product itself when the size of the device in
bytes fits 64 bits; and it yields `0` when no slot holds `k`. -/
theorem start_address_query (s : State) (hlen : s.memory.length = s.blocksCount) (k : Nat) :
    (∀ i, i < s.blocksCount → s.memory.getD i 0 = (k : Int) →
      (∀ j, j < i → s.memory.getD j 0 ≠ (k : Int)) →
        getStartingAddress s k = wrap64 (i * convertSize s.blockSize s.blockUnit "B") ∧
          (s.blocksCount * convertSize s.blockSize s.blockUnit "B" ≤ 2 ^ 64 →
            getStartingAddress s k = i * convertSize s.blockSize s.blockUnit "B")) ∧
      ((k : Int) ∉ s.memory → getStartingAddress s k = 0) := by
  refine ⟨?_, ?_⟩
  · intro i hi hk hlow
    have hil : i < s.memory.length := hlen ▸ hi
    have hmem : s.memory = s.memory.take i ++ (k : Int) :: s.memory.drop (i + 1) := by
      rw [List.getD_eq_getElem _ _ hil] at hk
      rw [← hk, ← List.drop_eq_getElem_cons hil, List.take_append_drop]
    have hT : (s.memory.take i).length = i := by
      rw [List.length_take]; omega
    have hne : ∀ v ∈ s.memory.take i, v ≠ (k : Int) := by
      intro v hv
      obtain ⟨j, hj, rfl⟩ := List.getElem_of_mem hv
      rw [hT] at hj
      rw [List.getElem_take]
      have := hlow j hj
      rwa [List.getD_eq_getElem _ _ (by omega)] at this
    have h1 := getStartingAddress_first s k i _ _ hmem hT hne hi
    refine ⟨h1, fun hfit => ?_⟩
    rw [h1]
    unfold wrap64
    apply Nat.mod_eq_of_lt
    have h2 : (i + 1) * convertSize s.blockSize s.blockUnit "B" ≤
        s.blocksCount * convertSize s.blockSize s.blockUnit "B" :=
      Nat.mul_le_mul_right _ hi
    rw [Nat.succ_mul] at h2
    rcases Nat.eq_zero_or_pos (convertSize s.blockSize s.blockUnit "B") with h0 | hpos
    · rw [h0]; simp
    · omega
  · intro hk
    unfold getStartingAddress
    rw [getStartingAddress_loop_absent]
    · simp [wrap64]
    · intro j _ hj
      rw [Nat.zero_add, ← hlen] at hj
      rw [List.getD_eq_getElem _ _ hj]
      intro h
      exact hk (h ▸ List.getElem_mem hj)

/-- C26, on the store `[-1, 4, -1, -1]` with blocks of 1 MB: the address of file 4 is
`1 * 1048576`, and that of the absent file 3 is `0`. -/
theorem start_address_query_witness :
    getStartingAddress sampleRun 4 = 1048576 ∧ getStartingAddress sampleRun 3 = 0 :=
  have h := start_address_query sampleRun (by decide) 4
  ⟨((h.1 1 (by decide) (by decide) (by decide)).2 (by decide)).trans (by decide),
    (start_address_query sampleRun (by decide) 3).2 (by decide)⟩

/-! ## The fullness, emptiness and free-count queries -/

/-- On a store of `blocksCount` slots `getTotalAvailableBlocks` returns the number of
FREE slots and leaves the state `isMemoryFull` leaves. -/
theorem getTotalAvailableBlocks_count (s : State) (hlen : s.memory.length = s.blocksCount) :
    (getTotalAvailableBlocks s).1 = s.memory.count (-1) ∧
      (getTotalAvailableBlocks s).2 = (isMemoryFull s).2 := by
  unfold getTotalAvailableBlocks
  rw [isMemoryFull_eq s hlen]
  by_cases hf : (-1 : Int) ∈ s.memory
  · have hl := getTotalAvailableBlocks_loop_eq s.blocksCount [] s.memory 0
      (by rw [hlen])
    simp only [List.length_nil, List.nil_append, Nat.zero_add] at hl
    simp only [hf, if_true, Bool.false_eq_true, if_false]
    rw [hl, ← hlen, List.take_length]
    exact ⟨rfl, trivial⟩
  · simp only [hf, if_false, if_true]
    rw [List.count_eq_zero.mpr hf]
    exact ⟨rfl, trivial⟩

/-- C27. Fullness and emptiness queries: for every state whose store has `blocksCount`
slots, `isMemoryFull` returns true exactly when no slot is FREE and `isMemoryEmpty`
returns true exactly when no slot is occupied; when the result is true the cursor is set
to `blocksCount` (full), to `0` (empty), and nothing else changes; when it is false the
state is unchanged; neither query modifies the memory array; and
`getTotalAvailableBlocks` returns the number of FREE slots, with the state left as
`isMemoryFull` leaves it. -/
theorem memory_queries (s : State) (hlen : s.memory.length = s.blocksCount) :
    ((isMemoryFull s).1 = true ↔ (-1 : Int) ∉ s.memory) ∧
      ((isMemoryFull s).1 = true →
        (isMemoryFull s).2 = { s with currentPos := s.blocksCount }) ∧
      ((isMemoryFull s).1 = false → (isMemoryFull s).2 = s) ∧
      ((isMemoryEmpty s).1 = true ↔ ∀ v ∈ s.memory, v = (-1 : Int)) ∧
      ((isMemoryEmpty s).1 = true → (isMemoryEmpty s).2 = { s with currentPos := 0 }) ∧
      ((isMemoryEmpty s).1 = false → (isMemoryEmpty s).2 = s) ∧
      (isMemoryFull s).2.memory = s.memory ∧
      (isMemoryEmpty s).2.memory = s.memory ∧
      (getTotalAvailableBlocks s).1 = s.memory.count (-1) ∧
      (getTotalAvailableBlocks s).2 = (isMemoryFull s).2 := by
  have hfull := isMemoryFull_eq s hlen
  have hempty := isMemoryEmpty_eq s hlen
  have hcount := getTotalAvailableBlocks_count s hlen
  refine ⟨?_, ?_, ?_, ?_, ?_, ?_, ?_, ?_, hcount.1, hcount.2⟩
  · rw [hfull]; by_cases hf : (-1 : Int) ∈ s.memory <;> simp [hf]
  · rw [hfull]; by_cases hf : (-1 : Int) ∈ s.memory <;> simp [hf]
  · rw [hfull]; by_cases hf : (-1 : Int) ∈ s.memory <;> simp [hf]
  · rw [hempty]; by_cases he : ∀ v ∈ s.memory, v = (-1 : Int)
    · rw [if_pos he]; simp only [true_iff]; exact he
    · rw [if_neg he]; simp only [Bool.false_eq_true, false_iff]; exact he
  · rw [hempty]; by_cases he : ∀ v ∈ s.memory, v = (-1 : Int)
    · rw [if_pos he]; intro _; trivial
    · rw [if_neg he]; intro h; cases h
  · rw [hempty]; by_cases he : ∀ v ∈ s.memory, v = (-1 : Int)
    · rw [if_pos he]; intro h; cases h
    · rw [if_neg he]; intro _; trivial
  · rw [hfull]; by_cases hf : (-1 : Int) ∈ s.memory <;> simp [hf]
  · rw [hempty]; by_cases he : ∀ v ∈ s.memory, v = (-1 : Int)
    · rw [if_pos he]
    · rw [if_neg he]

/-- C27, on the full store `[3, 3, 4, 4]`, on the store `[-1, 4, -1, -1]` and on the
empty store of four slots moved to the cursor `2`. -/
theorem memory_queries_witness :
    (isMemoryFull twoFilesFullRun).1 = true ∧
      (isMemoryFull { twoFilesFullRun with currentPos := 0 }).2.currentPos = 4 ∧
      (isMemoryFull sampleRun) = (false, sampleRun) ∧
      (isMemoryEmpty sampleRun) = (false, sampleRun) ∧
      (isMemoryEmpty { initState 4 "MB" 1 "MB" 4 with currentPos := 2 }) =
        (true, initState 4 "MB" 1 "MB" 4) ∧
      (getTotalAvailableBlocks sampleRun).1 = 3 :=
  have h := memory_queries sampleRun (by decide)
  ⟨by decide, by decide, by decide, by decide, by decide, h.2.2.2.2.2.2.2.2.1.trans (by decide)⟩

/-! ## The retry after compaction -/

/-- The pattern `/` is found at the head exactly when the head is `/`. -/
theorem slash_prefix_iff (c : Char) (cs : List Char) :
    ("/" : String).data <+: (c :: cs) ↔ c = '/' := by
  show ['/'] <+: (c :: cs) ↔ c = '/'
  rw [List.cons_prefix_cons]
  simp [eq_comm]

/-- The search for `/` in a list of characters: nothing when there is none, and the
position of the first one otherwise. -/
theorem findAux_slash : ∀ (cs : List Char) (idx : Nat),
    ('/' ∉ cs ∧ findAux ("/" : String).data cs idx = npos) ∨
      ∃ a b, cs = a ++ '/' :: b ∧ '/' ∉ a ∧
        findAux ("/" : String).data cs idx = idx + a.length
  | [], _ => Or.inl ⟨by simp, rfl⟩
  | c :: cs, idx => by
    by_cases hc : c = '/'
    · right
      refine ⟨[], cs, by simp [hc], by simp, ?_⟩
      rw [findAux, if_pos ((slash_prefix_iff c cs).mpr hc)]
      rfl
    · rw [findAux, if_neg (fun h => hc ((slash_prefix_iff c cs).mp h))]
      rcases findAux_slash cs (idx + 1) with ⟨h1, h2⟩ | ⟨a, b, h1, h2, h3⟩
      · left
        refine ⟨?_, h2⟩
        intro hm
        rcases List.mem_cons.mp hm with h | h
        · exact hc h.symm
        · exact h1 h
      · right
        refine ⟨c :: a, b, by rw [h1]; rfl, ?_, ?_⟩
        · intro hm
          rcases List.mem_cons.mp hm with h | h
          · exact hc h.symm
          · exact h2 h
        · rw [h3, List.length_cons]; omega

/-- The counting loop of `moveUpDir` counts the `/` from the position of the search on. -/
theorem moveUpDir_count_eq (l : List Char) (hl : l.length < npos) :
    ∀ (fuel p n : Nat), p ≤ l.length → l.length - p < fuel →
      moveUpDir.count (String.mk l) fuel (strFind (String.mk l) "/" p) n =
        n + (l.drop p).count '/'
  | 0, _, _, _, hf => by omega
  | fuel + 1, p, n, hp, hf => by
    have hs : strFind (String.mk l) "/" p = findAux ("/" : String).data (l.drop p) p := by
      unfold strFind
      rw [if_neg (by simpa using hp)]
    rw [hs, moveUpDir.count]
    rcases findAux_slash (l.drop p) p with ⟨h1, h2⟩ | ⟨a, b, h1, h2, h3⟩
    · rw [h2, if_neg (by simp), List.count_eq_zero.mpr h1]
      rfl
    · have hlen : (l.drop p).length = a.length + (b.length + 1) := by
        rw [h1, List.length_append, List.length_cons]
      rw [List.length_drop] at hlen
      have hne : p + a.length ≠ npos := by omega
      rw [h3, if_pos hne]
      have hd : l.drop (p + a.length + 1) = b := by
        rw [show p + a.length + 1 = p + (a.length + 1) by omega, ← List.drop_drop, h1]
        simp
      rw [moveUpDir_count_eq l hl fuel (p + a.length + 1) (n + 1) (by omega) (by omega), hd, h1,
        List.count_append, List.count_cons_self, List.count_eq_zero.mpr h2]
      omega

/-- The scan of `find_last_of` keeps the last value when the character does not occur. -/
theorem findLastOfAux_absent (c : Char) :
    ∀ (xs : List Char) (idx last : Nat), c ∉ xs → findLastOfAux c xs idx last = last
  | [], _, _, _ => rfl
  | x :: xs, idx, last, h => by
    have hx : x ≠ c := fun e => h (e ▸ List.mem_cons_self _ _)
    rw [findLastOfAux, if_neg hx]
    exact findLastOfAux_absent c xs (idx + 1) last (fun hm => h (List.mem_cons_of_mem _ hm))

/-- The scan of `find_last_of` ends with the position of the last occurrence. -/
theorem findLastOfAux_last (c : Char) :
    ∀ (a b : List Char) (idx last : Nat), c ∉ b →
      findLastOfAux c (a ++ c :: b) idx last = idx + a.length
  | [], b, idx, last, h => by
    rw [List.nil_append, findLastOfAux, if_pos rfl, findLastOfAux_absent c b _ _ h]
    rfl
  | x :: a, b, idx, last, h => by
    rw [List.cons_append, findLastOfAux, findLastOfAux_last c a b (idx + 1) _ h,
      List.length_cons]
    omega

/-- A list in which a character occurs splits at the last occurrence. -/
theorem split_at_last (c : Char) (l : List Char) (h : c ∈ l) :
    ∃ a b, l = a ++ c :: b ∧ c ∉ b := by
  have hr : c ∈ l.reverse := List.mem_reverse.mpr h
  obtain ⟨as, bs, h1, h2⟩ := List.eq_append_cons_of_mem hr
  refine ⟨bs.reverse, as.reverse, ?_, fun hm => h2 (List.mem_reverse.mp hm)⟩
  have := congrArg List.reverse h1
  simpa using this

/-- A list with more than `k` occurrences of `/` splits at the occurrence that has
exactly `k` behind it. -/
theorem split_at_slash : ∀ (k : Nat) (l : List Char), k < l.count '/' →
    ∃ R T, l = R ++ '/' :: T ∧ T.count '/' = k
  | 0, l, h => by
    obtain ⟨a, b, h1, h2⟩ := split_at_last '/' l (List.count_pos_iff.mp h)
    exact ⟨a, b, h1, List.count_eq_zero.mpr h2⟩
  | k + 1, l, h => by
    obtain ⟨a, b, h1, h2⟩ := split_at_last '/' l (List.count_pos_iff.mp (by omega))
    have hc : l.count '/' = a.count '/' + 1 := by
      rw [h1, List.count_append, List.count_cons_self, List.count_eq_zero.mpr h2]
    obtain ⟨R, T, h3, h4⟩ := split_at_slash k a (by omega)
    refine ⟨R, T ++ '/' :: b, by rw [h1, h3]; simp, ?_⟩
    rw [List.count_append, List.count_cons_self, List.count_eq_zero.mpr h2, h4]

/-- The stripping loop of `moveUpDir`: `k + 1` cuts remove the last `k + 1` occurrences
of `/` and what follows them. -/
theorem strip_eq : ∀ (k : Nat) (R T : List Char), T.count '/' = k →
    moveUpDir.strip (k + 1) (String.mk (R ++ '/' :: T)) = String.mk R
  | 0, R, T, h => by
    have hT : '/' ∉ T := List.count_eq_zero.mp h
    rw [moveUpDir.strip, moveUpDir.strip]
    unfold strSubstr strFindLastOf
    simp only [findLastOfAux_last '/' R T 0 npos hT, List.drop_zero, Nat.zero_add]
    rw [List.take_left]
  | k + 1, R, T, h => by
    obtain ⟨a, b, h1, h2⟩ := split_at_last '/' T (List.count_pos_iff.mp (by omega))
    have hc : a.count '/' = k := by
      rw [h1, List.count_append, List.count_cons_self, List.count_eq_zero.mpr h2] at h
      omega
    rw [moveUpDir.strip]
    have hcut : strSubstr (String.mk (R ++ '/' :: T)) 0
        (strFindLastOf (String.mk (R ++ '/' :: T)) '/') = String.mk (R ++ '/' :: a) := by
      unfold strSubstr strFindLastOf
      have e : R ++ '/' :: T = (R ++ '/' :: a) ++ '/' :: b := by rw [h1]; simp
      simp only [List.drop_zero]
      rw [e, findLastOfAux_last '/' (R ++ '/' :: a) b 0 npos h2, Nat.zero_add, List.take_left]
    rw [hcut]
    exact strip_eq k R a hc

/-! ## Slash-terminated paths and prefixes through a slash -/

/-- The value `length() - 1` of a non-empty string. -/
theorem lengthMinusOne_eq (l : List Char) (h1 : l ≠ []) (h2 : l.length < npos) :
    lengthMinusOne (String.mk l) = l.length - 1 := by
  have hpos : 0 < l.length := List.length_pos.mpr h1
  show (l.length + 2 ^ 64 - 1) % 2 ^ 64 = l.length - 1
  simp only [npos] at h2
  omega

/-- The step that makes a path slash-terminated, on a non-empty string. -/
theorem terminateWithSlash_eq (l : List Char) (h1 : l ≠ []) (h2 : l.length < npos) :
    terminateWithSlash (String.mk l) = String.mk (slashTerminated l) := by
  have hpos : 0 < l.length := List.length_pos.mpr h1
  have hlm := lengthMinusOne_eq l h1 h2
  unfold terminateWithSlash slashTerminated
  by_cases hend : l.getLast? = some '/'
  · obtain ⟨a, ha⟩ := List.getLast?_eq_some_iff.mp hend
    have hf : strFindLastOf (String.mk l) '/' = a.length := by
      unfold strFindLastOf
      simp only [ha]
      rw [List.append_cons a '/' [], List.append_nil]
      have := findLastOfAux_last '/' a [] 0 npos (by simp)
      rw [Nat.zero_add] at this
      rw [← this]
    rw [hlm, hf, if_pos hend, if_neg]
    rw [ha, List.length_append, List.length_singleton]
    simp
  · rw [if_neg hend, if_pos]
    · rfl
    · rw [hlm]
      unfold strFindLastOf
      by_cases hm : '/' ∈ l
      · obtain ⟨a, b, hab, hb⟩ := split_at_last '/' l hm
        have hbne : b ≠ [] := by
          intro hb0
          apply hend
          rw [hab, hb0]
          exact List.getLast?_concat a
        have hbl : 0 < b.length := List.length_pos.mpr hbne
        simp only [hab]
        rw [findLastOfAux_last '/' a b 0 npos hb, List.length_append, List.length_cons]
        omega
      · rw [findLastOfAux_absent '/' l 0 npos hm]
        simp only [npos] at h2 ⊢
        omega

/-- The prefix through the slash behind `R` is `R` and that slash. -/
theorem prefixThroughSlash_append : ∀ (R T : List Char),
    prefixThroughSlash (R.count '/' + 1) (R ++ '/' :: T) = R ++ ['/']
  | [], T => by simp [prefixThroughSlash]
  | c :: R, T => by
    by_cases hc : c = '/'
    · subst hc
      rw [List.count_cons_self, List.cons_append, prefixThroughSlash, if_pos rfl,
        prefixThroughSlash_append R T]
      rfl
    · rw [List.count_cons_of_ne (Ne.symm hc), List.cons_append, prefixThroughSlash, if_neg hc,
        prefixThroughSlash_append R T]
      rfl

/-- The prefix through the `k`-th slash is a prefix. -/
theorem prefixThroughSlash_initial : ∀ (k : Nat) (l : List Char), prefixThroughSlash k l <+: l
  | 0, l => by rw [prefixThroughSlash]; exact List.nil_prefix
  | _ + 1, [] => by rw [prefixThroughSlash]
  | k + 1, c :: cs => by
    rw [prefixThroughSlash]
    split
    · exact (List.prefix_cons_inj c).mpr (prefixThroughSlash_initial k cs)
    · exact (List.prefix_cons_inj c).mpr (prefixThroughSlash_initial (k + 1) cs)

/-- The prefix through the `k`-th slash has `k` slashes when the path has that many. -/
theorem prefixThroughSlash_count : ∀ (k : Nat) (l : List Char), k ≤ l.count '/' →
    (prefixThroughSlash k l).count '/' = k
  | 0, l, _ => by rw [prefixThroughSlash]; rfl
  | _ + 1, [], h => by simp at h
  | k + 1, c :: cs, h => by
    rw [prefixThroughSlash]
    by_cases hc : c = '/'
    · subst hc
      rw [List.count_cons_self] at h
      rw [if_pos rfl, List.count_cons_self, prefixThroughSlash_count k cs (by omega)]
    · rw [List.count_cons_of_ne (Ne.symm hc)] at h
      rw [if_neg hc, List.count_cons_of_ne (Ne.symm hc), prefixThroughSlash_count (k + 1) cs h]

/-- The prefix through the `k`-th slash ends with a slash, for `1 ≤ k` within the
number of slashes. -/
theorem prefixThroughSlash_getLast : ∀ (k : Nat) (l : List Char), 1 ≤ k → k ≤ l.count '/' →
    (prefixThroughSlash k l).getLast? = some '/'
  | 0, _, h, _ => by omega
  | _ + 1, [], _, h => by simp at h
  | k + 1, c :: cs, _, h => by
    rw [prefixThroughSlash]
    by_cases hc : c = '/'
    · subst hc
      rw [List.count_cons_self] at h
      rw [if_pos rfl]
      rcases Nat.eq_zero_or_pos k with h0 | hpos
      · subst h0
        cases cs <;> simp [prefixThroughSlash]
      · have ih := prefixThroughSlash_getLast k cs hpos (by omega)
        rw [List.getLast?_cons, ih]
        rfl
    · rw [List.count_cons_of_ne (Ne.symm hc)] at h
      have ih := prefixThroughSlash_getLast (k + 1) cs (by omega) h
      rw [if_neg hc, List.getLast?_cons, ih]
      rfl

/-- Prefixes through slashes compose: the prefix through the `j`-th slash of the prefix
through the `k`-th is the prefix through the `j`-th, for `j ≤ k`. -/
theorem prefixThroughSlash_twice : ∀ (j k : Nat) (l : List Char), j ≤ k →
    prefixThroughSlash j (prefixThroughSlash k l) = prefixThroughSlash j l
  | 0, _, _, _ => by rw [prefixThroughSlash, prefixThroughSlash]
  | j + 1, 0, _, h => by omega
  | j + 1, k + 1, [], _ => by simp [prefixThroughSlash]
  | j + 1, k + 1, c :: cs, h => by
    by_cases hc : c = '/'
    · subst hc
      simp only [prefixThroughSlash, if_true]
      rw [prefixThroughSlash_twice j k cs (by omega)]
    · simp only [prefixThroughSlash, hc, if_false]
      rw [prefixThroughSlash_twice (j + 1) (k + 1) cs h]

/-- The prefix through the first slash of a path that starts with a slash is `/`. -/
theorem prefixThroughSlash_one (cs : List Char) : prefixThroughSlash 1 ('/' :: cs) = ['/'] := by
  rw [prefixThroughSlash, if_pos rfl, prefixThroughSlash]

/-- The prefix through the last slash of a slash-terminated path is the path. -/
theorem prefixThroughSlash_all (l : List Char) (h : l.getLast? = some '/') :
    prefixThroughSlash (l.count '/') l = l := by
  obtain ⟨a, ha⟩ := List.getLast?_eq_some_iff.mp h
  have := prefixThroughSlash_append a []
  rw [ha, List.count_append]
  simpa using this

/-! ## Closed form of `moveUpDir`: identity, saturation, stripping -/

/-- A path made slash-terminated is one character longer at most. -/
theorem slashTerminated_length (l : List Char) : (slashTerminated l).length ≤ l.length + 1 := by
  unfold slashTerminated
  split
  · omega
  · rw [List.length_append, List.length_singleton]

/-- A path made slash-terminated ends with a slash. -/
theorem slashTerminated_getLast (l : List Char) : (slashTerminated l).getLast? = some '/' := by
  unfold slashTerminated
  split
  · assumption
  · exact List.getLast?_concat l

/-- Closed form of `moveUpDir`: the path itself for the root and for no level; else, with
`n` the number of `/` in the path made slash-terminated, the root when `levels ≥ n - 1`
and the prefix through the `(n - levels)`-th `/` otherwise. -/
theorem moveUpDir_eq (path : String) (levels : Nat) (hlen : path.data.length + 1 < npos) :
    moveUpDir path levels =
      if path = "/" ∨ levels = 0 then path
      else if (slashTerminated path.data).count '/' ≤ levels + 1 then "/"
      else String.mk (prefixThroughSlash ((slashTerminated path.data).count '/' - levels)
        (slashTerminated path.data)) := by
  obtain ⟨l⟩ := path
  have hlen : l.length + 1 < npos := hlen
  unfold moveUpDir
  by_cases h : String.mk l = "/" ∨ levels = 0
  · rw [if_pos h, if_pos h]
  · rw [if_neg h, if_neg h]
    simp only
    rcases List.eq_nil_or_concat l with h0 | ⟨l0, x, hx⟩
    · subst h0
      have h1 : (slashTerminated ([] : List Char)).count '/' ≤ levels + 1 := by
        simp [slashTerminated]
      rw [if_pos h1]
      rfl
    · have hne : l ≠ [] := by rw [hx]; simp
      have hl2 : l.length < npos := by omega
      have ht := terminateWithSlash_eq l hne hl2
      unfold terminateWithSlash at ht
      rw [ht]
      have hl3 : (slashTerminated l).length < npos := by
        have := slashTerminated_length l; omega
      have hcount := moveUpDir_count_eq (slashTerminated l) hl3
        ((slashTerminated l).length + 1) 0 0 (Nat.zero_le _) (by omega)
      rw [List.drop_zero, Nat.zero_add] at hcount
      simp only [hcount]
      by_cases hn : (slashTerminated l).count '/' ≤ levels + 1
      · rw [if_pos hn, if_pos (by omega)]
      · rw [if_neg hn, if_neg (by omega)]
        obtain ⟨R, T, hRT, hT⟩ := split_at_slash levels (slashTerminated l) (by omega)
        have hc : (slashTerminated l).count '/' - levels = R.count '/' + 1 := by
          rw [hRT, List.count_append, List.count_cons_self, hT]; omega
        rw [hc]
        rw [hRT, strip_eq levels R T hT, prefixThroughSlash_append]
        rfl

/-- C22. Identity and saturation of `moveUpDir` at the root: the path is returned
unchanged when it is `/` or when `levels = 0`; otherwise, with `n` the number of `/` in
the path made slash-terminated, the result is exactly `/` whenever `levels ≥ n - 1`; so
resolving `..` and `../../` against `/a/` both give `/`.  (The path is a `std::string`:
its length stays below `npos`.) -/
theorem moveUpDir_identity_and_saturation (path : String) (levels : Nat)
    (hlen : path.data.length + 1 < npos) :
    (path = "/" ∨ levels = 0 → moveUpDir path levels = path) ∧
      (path ≠ "/" → levels ≠ 0 → (slashTerminated path.data).count '/' ≤ levels + 1 →
        moveUpDir path levels = "/") ∧
      (∀ s : State, s.currentDir = "/a/" →
        getAbsolutePath s ".." = "/" ∧ getAbsolutePath s "../../" = "/") := by
  have h := moveUpDir_eq path levels hlen
  refine ⟨?_, ?_, ?_⟩
  · intro h1
    rw [h, if_pos h1]
  · intro h1 h2 h3
    rw [h, if_neg (by rintro (h4 | h4); exact h1 h4; exact h2 h4), if_pos h3]
  · intro s hs
    constructor
    · simp only [getAbsolutePath, hs]
      decide
    · simp only [getAbsolutePath, hs]
      decide

/-- C22, at the path `/a/b` (three `/` once slash-terminated): two levels up is the
root, and so are five. -/
theorem moveUpDir_identity_and_saturation_witness :
    moveUpDir "/a/b" 2 = "/" ∧ moveUpDir "/a/b" 5 = "/" ∧ moveUpDir "/a/b" 0 = "/a/b" ∧
      moveUpDir "/" 7 = "/" :=
  ⟨(moveUpDir_identity_and_saturation "/a/b" 2 (by decide)).2.1 (by decide) (by decide)
      (by decide),
    by decide, by decide, by decide⟩

/-- C23. `moveUpDir` strips exactly `levels` directories: for every path that ends with
`/` and contains `n` characters `/`, and every `levels` with `0 < levels < n - 1`, the
result is the prefix of the path that ends at, and includes, its `(n - levels)`-th `/`:
it is a prefix of the path, it ends with `/`, it contains `n - levels` characters `/`, and
the part of the path cut off contains the other `levels`.  So `moveUpDir("/a/b/", 1)` is
`/a/`, and `..` resolves to `/a/` in the directory `/a/b/`.  (The path is a
`std::string`: its length stays below `npos`.) -/
theorem moveUpDir_strips_levels (path : String) (levels : Nat)
    (hlen : path.data.length + 1 < npos) (hend : path.data.getLast? = some '/')
    (h0 : 0 < levels) (hlt : levels + 1 < path.data.count '/') :
    moveUpDir path levels =
        String.mk (prefixThroughSlash (path.data.count '/' - levels) path.data) ∧
      (∃ T, path.data = (moveUpDir path levels).data ++ T ∧ T.count '/' = levels) ∧
      (moveUpDir path levels).data.getLast? = some '/' ∧
      (moveUpDir path levels).data.count '/' = path.data.count '/' - levels ∧
      moveUpDir "/a/b/" 1 = "/a/" ∧
      (∀ s : State, s.currentDir = "/a/b/" → getAbsolutePath s ".." = "/a/") := by
  have hst : slashTerminated path.data = path.data := by
    unfold slashTerminated; rw [if_pos hend]
  have hne : path ≠ "/" := by
    intro h
    rw [h] at hlt
    have h1 : ("/" : String).data.count '/' = 1 := by decide
    omega
  have h := moveUpDir_eq path levels hlen
  rw [if_neg (by rintro (h4 | h4); exact hne h4; omega), hst, if_neg (by omega)] at h
  have hpre := prefixThroughSlash_initial (path.data.count '/' - levels) path.data
  have hcnt := prefixThroughSlash_count (path.data.count '/' - levels) path.data (by omega)
  have hlast := prefixThroughSlash_getLast (path.data.count '/' - levels) path.data
    (by omega) (by omega)
  rw [h]
  refine ⟨rfl, ?_, hlast, hcnt, by decide, ?_⟩
  · obtain ⟨T, hT⟩ := hpre
    refine ⟨T, hT.symm, ?_⟩
    have := congrArg (List.count '/') hT
    rw [List.count_append, hcnt] at this
    omega
  · intro s hs
    simp only [getAbsolutePath, hs]
    decide

/-- C23, at the path `/a/b/c/` (four `/`): two levels up is `/a/`. -/
theorem moveUpDir_strips_levels_witness :
    moveUpDir "/a/b/c/" 2 = "/a/" ∧ prefixThroughSlash 2 "/a/b/c/".data = "/a/".data :=
  ⟨(moveUpDir_strips_levels "/a/b/c/" 2 (by decide) (by decide) (by decide)
      (by decide)).1.trans (by decide), by decide⟩

/-! ## Composition of `moveUpDir` -/

/-- The properties of the prefix through the `m`-th slash of a path that starts and ends
with `/`, for `1 ≤ m` within the number of slashes. -/
theorem prefixThroughSlash_wellformed (l : List Char) (hhead : l.head? = some '/')
    (m : Nat) (h1 : 1 ≤ m) (h2 : m ≤ l.count '/') :
    (prefixThroughSlash m l).head? = some '/' ∧
      (prefixThroughSlash m l).getLast? = some '/' ∧
      (prefixThroughSlash m l).count '/' = m ∧
      prefixThroughSlash m l <+: l := by
  refine ⟨?_, prefixThroughSlash_getLast m l h1 h2, prefixThroughSlash_count m l h2,
    prefixThroughSlash_initial m l⟩
  obtain ⟨cs, rfl⟩ := List.head?_eq_some_iff.mp hhead
  obtain ⟨k, rfl⟩ : ∃ k, m = k + 1 := ⟨m - 1, by omega⟩
  rw [prefixThroughSlash, if_pos rfl]
  rfl

/-- Closed form of `moveUpDir` on a path that starts and ends with `/` and has `n`
slashes: the prefix through the slash of number `max (n - levels) 1`. -/
theorem moveUpDir_wellformed (l : List Char) (hlen : l.length + 1 < npos)
    (hhead : l.head? = some '/') (hend : l.getLast? = some '/') (a : Nat) :
    moveUpDir (String.mk l) a =
      String.mk (prefixThroughSlash (max (l.count '/' - a) 1) l) := by
  have hst : slashTerminated l = l := by
    unfold slashTerminated; rw [if_pos hend]
  obtain ⟨cs, hcs⟩ := List.head?_eq_some_iff.mp hhead
  have hn : 1 ≤ l.count '/' := by
    rw [hcs, List.count_cons_self]; omega
  rw [moveUpDir_eq (String.mk l) a hlen]
  simp only [hst]
  by_cases h1 : String.mk l = "/"
  · rw [if_pos (Or.inl h1)]
    have hl : l = ['/'] := congrArg String.data h1
    subst hl
    have : max (List.count '/' ['/'] - a) 1 = 1 := by
      have : List.count '/' ['/'] = 1 := by decide
      omega
    rw [this]
    rfl
  · by_cases h2 : a = 0
    · rw [if_pos (Or.inr h2), h2, Nat.sub_zero, Nat.max_eq_left hn, prefixThroughSlash_all l hend]
    · rw [if_neg (by rintro (h | h); exact h1 h; exact h2 h)]
      by_cases h3 : l.count '/' ≤ a + 1
      · rw [if_pos h3, show max (l.count '/' - a) 1 = 1 by omega, hcs, prefixThroughSlash_one]
      · rw [if_neg h3, show max (l.count '/' - a) 1 = l.count '/' - a by omega]

/-- C30. `moveUpDir` composes additively: for every path that starts and ends with `/`
and all natural numbers `a` and `b`, moving up `a` levels and then `b` levels is moving up
`a + b` levels; and for every number of levels the result starts with `/`, ends with `/`
and is a prefix of the path.  (The path is a `std::string`: its length stays below
`npos`.) -/
theorem moveUpDir_additive (path : String) (a b : Nat) (hlen : path.data.length + 1 < npos)
    (hhead : path.data.head? = some '/') (hend : path.data.getLast? = some '/') :
    moveUpDir (moveUpDir path a) b = moveUpDir path (a + b) ∧
      ∀ c : Nat, (moveUpDir path c).data.head? = some '/' ∧
        (moveUpDir path c).data.getLast? = some '/' ∧
        (moveUpDir path c).data <+: path.data := by
  obtain ⟨l⟩ := path
  have hlen : l.length + 1 < npos := hlen
  have hhead : l.head? = some '/' := hhead
  have hend : l.getLast? = some '/' := hend
  obtain ⟨cs, hcs⟩ := List.head?_eq_some_iff.mp hhead
  have hn : 1 ≤ l.count '/' := by
    rw [hcs, List.count_cons_self]; omega
  have hwf : ∀ c : Nat,
      (prefixThroughSlash (max (l.count '/' - c) 1) l).head? = some '/' ∧
        (prefixThroughSlash (max (l.count '/' - c) 1) l).getLast? = some '/' ∧
        (prefixThroughSlash (max (l.count '/' - c) 1) l).count '/' =
          max (l.count '/' - c) 1 ∧
        prefixThroughSlash (max (l.count '/' - c) 1) l <+: l :=
    fun c => prefixThroughSlash_wellformed l hhead _ (by omega) (by omega)
  refine ⟨?_, ?_⟩
  · obtain ⟨w1, w2, w3, w4⟩ := hwf a
    rw [moveUpDir_wellformed l hlen hhead hend a, moveUpDir_wellformed l hlen hhead hend (a + b),
      moveUpDir_wellformed _ (by have := w4.length_le; omega) w1 w2 b, w3,
      prefixThroughSlash_twice _ _ l (by omega)]
    congr 2
    omega
  · intro c
    obtain ⟨w1, w2, _, w4⟩ := hwf c
    rw [moveUpDir_wellformed l hlen hhead hend c]
    exact ⟨w1, w2, w4⟩

/-- C30, at the path `/a/b/c/`: one level and then one more is two levels, `/a/`; one
level and then three more saturates at the root, as four levels do. -/
theorem moveUpDir_additive_witness :
    moveUpDir (moveUpDir "/a/b/c/" 1) 1 = "/a/" ∧ moveUpDir "/a/b/c/" 2 = "/a/" ∧
      moveUpDir (moveUpDir "/a/b/c/" 1) 3 = "/" ∧ moveUpDir "/a/b/c/" 4 = "/" :=
  have h := moveUpDir_additive "/a/b/c/" 1 1 (by decide) (by decide) (by decide)
  ⟨h.1.trans (by decide), by decide, by decide, by decide⟩

/-! ## Validation of the block size -/

/-- On an argument made of decimal digits with a value that fits 64 bits, followed by `KB`
or `MB`, `setBlockSize` passes the checks of the syntax and goes on to the checks of the
geometry. -/
theorem setBlockSize_eq (s : State) (digits : List Char) (unit : String)
    (hne : digits ≠ []) (hdig : ∀ c ∈ digits, '0' ≤ c ∧ c ≤ '9')
    (hval : digitsValue digits < 2 ^ 64) (hunit : unit = "KB" ∨ unit = "MB") :
    setBlockSize s (String.mk (digits ++ unit.data)) =
      if digitsValue digits = 0 then .error .zeroBlockSize
      else if convertSize s.diskSize s.diskUnit unit < digitsValue digits then
        .error .blockGreaterThanDisk
      else if convertSize s.diskSize s.diskUnit unit % digitsValue digits ≠ 0 then
        .error .notIntegralBlocks
      else .ok { s with blockUnit := unit, blockSize := digitsValue digits,
                        blocksCount := convertSize s.diskSize s.diskUnit unit /
                          digitsValue digits } := by
  have hpos : 0 < digits.length := List.length_pos.mpr hne
  have hul : unit.data.length = 2 := by
    rcases hunit with h | h <;> rw [h] <;> rfl
  have hlen : (digits ++ unit.data).length = digits.length + 2 := by
    rw [List.length_append, hul]
  have hu : strSubstr (String.mk (digits ++ unit.data)) ((digits ++ unit.data).length - 2) 2 =
      unit := by
    unfold strSubstr
    rw [hlen, Nat.add_sub_cancel]
    simp only [List.drop_left]
    rw [← hul, List.take_length]
  have hsz : strSubstr (String.mk (digits ++ unit.data)) 0 ((digits ++ unit.data).length - 2) =
      String.mk digits := by
    unfold strSubstr
    rw [hlen, Nat.add_sub_cancel]
    simp only [List.drop_zero, List.take_left]
  have hnum : isNumber (String.mk digits) = true := by
    unfold isNumber
    rw [List.all_eq_true]
    intro c hc
    simpa using hdig c hc
  have hfind : ¬ (strFind unit "KB" 0 = npos ∧ strFind unit "MB" 0 = npos) := by
    rcases hunit with h | h <;> rw [h] <;> decide
  have hst : stoull (String.mk digits) = some (digitsValue digits) := by
    unfold stoull
    rw [if_neg hne, if_pos hval]
  unfold setBlockSize
  simp only
  rw [if_neg (by rw [hlen]; omega), if_neg (by rw [hlen]; omega), hu, hsz]
  simp only [hnum, not_true_eq_false, if_false, hfind, hst]

/-- C25. Validation of the geometry: for every state and every argument made of decimal
digits with a value `blockSize` that fits 64 bits, followed by the unit `KB` or `MB`,
`setBlockSize` completes exactly when `blockSize ≠ 0`, `blockSize` is at most the capacity
(the disk size converted to the block unit) and divides it; when it completes, the state
differs from the one before in the block unit, the block size and
`blocksCount = capacity / blockSize` only, so `blocksCount ≥ 1` and
`blocksCount * blockSize = capacity`. -/
theorem setBlockSize_validation (s : State) (digits : List Char) (unit : String)
    (hne : digits ≠ []) (hdig : ∀ c ∈ digits, '0' ≤ c ∧ c ≤ '9')
    (hval : digitsValue digits < 2 ^ 64) (hunit : unit = "KB" ∨ unit = "MB") :
    ((∃ t, setBlockSize s (String.mk (digits ++ unit.data)) = .ok t) ↔
      (digitsValue digits ≠ 0 ∧
        digitsValue digits ≤ convertSize s.diskSize s.diskUnit unit ∧
        convertSize s.diskSize s.diskUnit unit % digitsValue digits = 0)) ∧
      ∀ t, setBlockSize s (String.mk (digits ++ unit.data)) = .ok t →
        t = { s with blockUnit := unit, blockSize := digitsValue digits,
                     blocksCount := convertSize s.diskSize s.diskUnit unit /
                       digitsValue digits } ∧
          t.blocksCount = convertSize s.diskSize s.diskUnit unit / t.blockSize ∧
          1 ≤ t.blocksCount ∧
          t.blocksCount * t.blockSize = convertSize s.diskSize s.diskUnit unit := by
  have heq := setBlockSize_eq s digits unit hne hdig hval hunit
  rw [heq]
  by_cases h1 : digitsValue digits = 0
  · rw [if_pos h1]
    refine ⟨⟨?_, fun h => absurd h1 h.1⟩, ?_⟩
    · rintro ⟨t, ht⟩; cases ht
    · intro t ht; cases ht
  · rw [if_neg h1]
    by_cases h2 : convertSize s.diskSize s.diskUnit unit < digitsValue digits
    · rw [if_pos h2]
      refine ⟨⟨?_, fun h => absurd h2 (by omega)⟩, ?_⟩
      · rintro ⟨t, ht⟩; cases ht
      · intro t ht; cases ht
    · rw [if_neg h2]
      by_cases h3 : convertSize s.diskSize s.diskUnit unit % digitsValue digits ≠ 0
      · rw [if_pos h3]
        refine ⟨⟨?_, fun h => absurd h.2.2 h3⟩, ?_⟩
        · rintro ⟨t, ht⟩; cases ht
        · intro t ht; cases ht
      · rw [if_neg h3]
        have h3 : convertSize s.diskSize s.diskUnit unit % digitsValue digits = 0 :=
          not_not.mp h3
        refine ⟨⟨fun _ => ⟨h1, by omega, h3⟩, fun _ => ⟨_, rfl⟩⟩, ?_⟩
        intro t ht
        have ht := Except.ok.inj ht
        subst ht
        refine ⟨rfl, rfl, ?_, ?_⟩
        · exact (Nat.one_le_div_iff (Nat.pos_of_ne_zero h1)).mpr (by omega)
        · exact Nat.div_mul_cancel (Nat.dvd_of_mod_eq_zero h3)

/-- C25, on a disk of 4 MB: blocks of 512 KB are accepted and give 8 blocks; blocks of
3 MB do not divide the disk, blocks of 5 MB exceed it and blocks of 0 KB are refused. -/
theorem setBlockSize_validation_witness :
    setBlockSize (initState 4 "MB" 0 "" 0) "512KB" =
        .ok { initState 4 "MB" 0 "" 0 with blockUnit := "KB", blockSize := 512,
                                           blocksCount := 8 } ∧
      setBlockSize (initState 4 "MB" 0 "" 0) "3MB" = .error .notIntegralBlocks ∧
      setBlockSize (initState 4 "MB" 0 "" 0) "5MB" = .error .blockGreaterThanDisk ∧
      setBlockSize (initState 4 "MB" 0 "" 0) "0KB" = .error .zeroBlockSize ∧
      ∃ t, setBlockSize (initState 4 "MB" 0 "" 0) "512KB" = .ok t :=
  have h := setBlockSize_validation (initState 4 "MB" 0 "" 0) "512".data "KB" (by decide)
    (by decide) (by decide) (by decide)
  ⟨rfl, rfl, rfl, rfl, h.1.mpr (by decide)⟩

/-! ## Path resolution and registration in a directory -/

/-- `ltrim` does not make a string longer. -/
theorem ltrim_length (path : String) : (ltrim path).data.length ≤ path.data.length :=
  (List.dropWhile_sublist _).length_le

/-- On a directory that starts and ends with `/`, `moveUpDir` gives a prefix of it that
starts and ends with `/`. -/
theorem moveUpDir_dir (dir : String) (hlen : dir.data.length + 1 < npos)
    (hhead : dir.data.head? = some '/') (hend : dir.data.getLast? = some '/') (c : Nat) :
    (moveUpDir dir c).data.head? = some '/' ∧
      (moveUpDir dir c).data.getLast? = some '/' ∧
      (moveUpDir dir c).data <+: dir.data := by
  obtain ⟨l⟩ := dir
  have hlen : l.length + 1 < npos := hlen
  have hhead : l.head? = some '/' := hhead
  have hend : l.getLast? = some '/' := hend
  obtain ⟨cs, hcs⟩ := List.head?_eq_some_iff.mp hhead
  have hn : 1 ≤ l.count '/' := by
    rw [hcs, List.count_cons_self]; omega
  obtain ⟨w1, w2, _, w4⟩ := prefixThroughSlash_wellformed l hhead
    (max (l.count '/' - c) 1) (by omega) (by omega)
  rw [moveUpDir_wellformed l hlen hhead hend c]
  exact ⟨w1, w2, w4⟩

/-- The head of a concatenation whose first part starts with `/`. -/
theorem head_append_of_head (a b : List Char) (h : a.head? = some '/') :
    (a ++ b).head? = some '/' := by
  obtain ⟨cs, rfl⟩ := List.head?_eq_some_iff.mp h
  rfl

/-- In a current directory that starts and ends with `/`, every path resolves to a string
that starts with `/` and is not longer than the directory and the path together. -/
theorem getAbsolutePath_dir (s : State) (path : String)
    (hhead : s.currentDir.data.head? = some '/')
    (hend : s.currentDir.data.getLast? = some '/')
    (hlen : s.currentDir.data.length + 1 < npos) :
    (getAbsolutePath s path).data.head? = some '/' ∧
      (getAbsolutePath s path).data.length ≤ s.currentDir.data.length + path.data.length := by
  have hl := ltrim_length path
  unfold getAbsolutePath
  simp only
  by_cases h1 : startsWithChar (ltrim path) '/' = true
  · rw [if_pos h1]
    refine ⟨?_, by omega⟩
    simpa [startsWithChar] using h1
  · rw [if_neg h1]
    have helse : (s.currentDir ++ "" ++ ltrim path).data.head? = some '/' ∧
        (s.currentDir ++ "" ++ ltrim path).data.length ≤
          s.currentDir.data.length + path.data.length := by
      simp only [String.data_append, List.length_append]
      refine ⟨head_append_of_head _ _ (head_append_of_head _ _ hhead), ?_⟩
      have : ("" : String).data.length = 0 := rfl
      simp only [List.length_nil] at this ⊢
      omega
    by_cases h2 : startsWithChar (ltrim path) '.' = true
    · rw [if_pos h2]
      by_cases h3 : ltrim path = "."
      · rw [if_pos h3]
        exact ⟨hhead, by omega⟩
      · rw [if_neg h3]
        by_cases h4 : ltrim path = ".."
        · rw [if_pos h4]
          obtain ⟨m1, _, m3⟩ := moveUpDir_dir s.currentDir hlen hhead hend 1
          exact ⟨m1, by have := m3.length_le; omega⟩
        · rw [if_neg h4]
          by_cases h5 : strSubstr (ltrim path) 0 3 = "../"
          · rw [if_pos h5]
            obtain ⟨m1, _, m3⟩ := moveUpDir_dir s.currentDir hlen hhead hend
              (getAbsolutePath.scan (ltrim path) ((ltrim path).data.length + 1)
                (strFind (ltrim path) "../" 0) 0 0).1
            simp only [String.data_append, List.length_append]
            refine ⟨head_append_of_head _ _ (head_append_of_head _ _ m1), ?_⟩
            have h6 : ("" : String).data.length = 0 := rfl
            have h7 := m3.length_le
            have h8 : (strSubstrFrom (ltrim path)
                ((getAbsolutePath.scan (ltrim path) ((ltrim path).data.length + 1)
                  (strFind (ltrim path) "../" 0) 0 0).2 + 3)).data.length ≤
                (ltrim path).data.length := by
              unfold strSubstrFrom
              simp only [List.length_drop]
              omega
            simp only [List.length_nil] at h6 ⊢
            omega
          · rw [if_neg h5]
            exact helse
    · rw [if_neg h2]
      exact helse

/-- A string that starts with `/`, made slash-terminated, starts and ends with `/`. -/
theorem terminateWithSlash_dir (t : String) (hhead : t.data.head? = some '/')
    (hlen : t.data.length < npos) :
    (terminateWithSlash t).data.head? = some '/' ∧
      (terminateWithSlash t).data.getLast? = some '/' := by
  obtain ⟨l⟩ := t
  have hhead : l.head? = some '/' := hhead
  have hne : l ≠ [] := by
    intro h; rw [h] at hhead; simp at hhead
  rw [terminateWithSlash_eq l hne hlen]
  refine ⟨?_, slashTerminated_getLast l⟩
  show (slashTerminated l).head? = some '/'
  unfold slashTerminated
  split
  · exact hhead
  · exact head_append_of_head _ _ hhead

/-- An entry of the map after an assignment is the assigned one or an entry from
before. -/
theorem mem_dirAssign (key value : String) :
    ∀ (m : List (String × String)) (p : String × String),
      p ∈ dirAssign key value m → p = (key, value) ∨ p ∈ m
  | [], p, h => by
    simp only [dirAssign, List.mem_singleton] at h
    exact Or.inl h
  | (k1, v1) :: rest, p, h => by
    simp only [dirAssign] at h
    split at h
    · rcases List.mem_cons.mp h with h | h
      · exact Or.inl h
      · exact Or.inr h
    · split at h
      · rcases List.mem_cons.mp h with h | h
        · exact Or.inl h
        · exact Or.inr (List.mem_cons_of_mem _ h)
      · rcases List.mem_cons.mp h with h | h
        · exact Or.inr (h ▸ List.mem_cons_self _ _)
        · rcases mem_dirAssign key value rest p h with h | h
          · exact Or.inl h
          · exact Or.inr (List.mem_cons_of_mem _ h)

/-- A key of the map is a key after an assignment. -/
theorem dirAssign_keeps (key value : String) :
    ∀ (m : List (String × String)) (p : String × String),
      p ∈ m → ∃ q ∈ dirAssign key value m, q.1 = p.1
  | [], p, h => by simp at h
  | (k1, v1) :: rest, p, h => by
    simp only [dirAssign]
    split
    · exact ⟨p, List.mem_cons_of_mem _ h, rfl⟩
    · split
      · rename_i hk
        rcases List.mem_cons.mp h with h | h
        · exact ⟨(key, value), List.mem_cons_self _ _, by rw [h]; exact hk⟩
        · exact ⟨p, List.mem_cons_of_mem _ h, rfl⟩
      · rcases List.mem_cons.mp h with h | h
        · exact ⟨(k1, v1), List.mem_cons_self _ _, by rw [h]⟩
        · obtain ⟨q, hq, hq1⟩ := dirAssign_keeps key value rest p h
          exact ⟨q, List.mem_cons_of_mem _ hq, hq1⟩

/-- The registration of a resolved path keeps the invariant of the registry and the
current directory. -/
theorem dirInv_register (s : State) (h : DirInv s) (temp : String)
    (hhead : temp.data.head? = some '/') (hlen : temp.data.length < npos) :
    DirInv (createDirectory.register s temp) ∧
      (createDirectory.register s temp).currentDir = s.currentDir := by
  unfold createDirectory.register
  simp only
  split
  · refine ⟨⟨?_, ?_⟩, rfl⟩
    · intro p hp
      rcases mem_dirAssign _ _ _ p hp with hp | hp
      · rw [hp]
        exact terminateWithSlash_dir temp hhead hlen
      · exact h.keys p hp
    · obtain ⟨p, hp, hp1⟩ := h.current
      obtain ⟨q, hq, hq1⟩ := dirAssign_keeps (terminateWithSlash temp)
        (terminateWithSlash temp) _ p hp
      exact ⟨q, hq, hq1.trans hp1⟩
  · exact ⟨h, rfl⟩

/-- A token of `strtok` is not longer than the text it was cut from. -/
theorem strtokTokens_go_length :
    ∀ (cs cur : List Char) (token : String), token ∈ strtokTokens.go cs cur →
      token.data.length ≤ cs.length + cur.length
  | [], cur, token, h => by
    simp only [strtokTokens.go] at h
    split at h
    · simp at h
    · rw [List.mem_singleton] at h
      rw [h]; simp
  | c :: cs, cur, token, h => by
    simp only [strtokTokens.go] at h
    split at h
    · split at h
      · have := strtokTokens_go_length cs [] token h
        simp only [List.length_cons, List.length_nil] at this ⊢
        omega
      · rcases List.mem_cons.mp h with h | h
        · rw [h]; simp
        · have := strtokTokens_go_length cs [] token h
          simp only [List.length_cons, List.length_nil] at this ⊢
          omega
    · have := strtokTokens_go_length cs (c :: cur) token h
      simp only [List.length_cons] at this ⊢
      omega

/-- A token of `strtok` is not longer than the argument. -/
theorem strtokTokens_length (args token : String) (h : token ∈ strtokTokens args) :
    token.data.length ≤ args.data.length := by
  have h1 := strtokTokens_go_length _ _ token h
  have h2 := (List.takeWhile_sublist (l := args.data) (fun c => c ≠ Char.ofNat 0)).length_le
  simp only [List.length_nil] at h1
  omega

/-! ## The invariant of the directory registry -/

/-- The current directory of a state that satisfies the invariant of the registry starts
and ends with `/`. -/
theorem dirInv_currentDir (s : State) (h : DirInv s) :
    s.currentDir.data.head? = some '/' ∧ s.currentDir.data.getLast? = some '/' := by
  obtain ⟨p, hp, hp1⟩ := h.current
  rw [← hp1]
  exact h.keys p hp

/-- The registration of the path an argument resolves to keeps the invariant. -/
theorem dirInv_register_path (s : State) (h : DirInv s) (path : String)
    (hlen : s.currentDir.data.length + path.data.length + 1 < npos) :
    DirInv (createDirectory.register s (getAbsolutePath s path)) ∧
      (createDirectory.register s (getAbsolutePath s path)).currentDir = s.currentDir := by
  obtain ⟨hhead, hend⟩ := dirInv_currentDir s h
  obtain ⟨g1, g2⟩ := getAbsolutePath_dir s path hhead hend (by omega)
  exact dirInv_register s h _ g1 (by omega)

/-- The loop of `createDirectory` over the tokens keeps the invariant and the current
directory. -/
theorem dirInv_tokens :
    ∀ (tokens : List String) (s : State), DirInv s →
      (∀ token ∈ tokens, s.currentDir.data.length + token.data.length + 1 < npos) →
      DirInv (tokens.foldl
        (fun st token => createDirectory.register st (getAbsolutePath st (ltrim token))) s) ∧
      (tokens.foldl
        (fun st token => createDirectory.register st (getAbsolutePath st (ltrim token)))
          s).currentDir = s.currentDir
  | [], s, h, _ => ⟨h, rfl⟩
  | token :: tokens, s, h, hl => by
    have h1 := hl token (List.mem_cons_self _ _)
    have h2 := ltrim_length token
    obtain ⟨r1, r2⟩ := dirInv_register_path s h (ltrim token) (by omega)
    rw [List.foldl_cons]
    obtain ⟨i1, i2⟩ := dirInv_tokens tokens _ r1
      (fun t ht => by rw [r2]; exact hl t (List.mem_cons_of_mem _ ht))
    exact ⟨i1, i2.trans r2⟩

/-- `createDirectory` keeps the invariant of the registry and the current directory. -/
theorem dirInv_createDirectory (s : State) (h : DirInv s) (args : String)
    (hlen : s.currentDir.data.length + args.data.length + 1 < npos) :
    DirInv (createDirectory s args) ∧ (createDirectory s args).currentDir = s.currentDir := by
  unfold createDirectory
  split
  · refine dirInv_tokens _ s h ?_
    intro token ht
    have := strtokTokens_length args token ht
    omega
  · exact dirInv_register_path s h args hlen

/-- `changeDirectory` keeps the invariant of the registry. -/
theorem dirInv_changeDirectory (s : State) (h : DirInv s) (args : String) :
    DirInv (changeDirectory s args).1 := by
  unfold changeDirectory
  simp only
  split
  · exact h
  · rename_i hc
    refine ⟨h.keys, ?_⟩
    unfold dirCount at hc
    have hany : s.directoryMap.any
        (fun p => p.1 = terminateWithSlash (getAbsolutePath s args)) = true := by
      by_contra hn
      rw [if_neg hn] at hc
      exact hc rfl
    obtain ⟨p, hp, hp1⟩ := List.any_eq_true.mp hany
    exact ⟨p, hp, by simpa using hp1⟩

/-- The state `init` leaves satisfies the invariant of the registry. -/
theorem dirInv_initState (diskSize : Nat) (diskUnit : String) (blockSize : Nat)
    (blockUnit : String) (blocksCount : Nat) :
    DirInv (initState diskSize diskUnit blockSize blockUnit blocksCount) where
  keys := by
    intro p hp
    simp only [initState, List.mem_singleton] at hp
    rw [hp]
    exact ⟨rfl, rfl⟩
  current := ⟨("/", "/"), by simp [initState], rfl⟩

/-- Every state reached by `mkdir` and `chdir` commands satisfies the invariant of the
registry. -/
theorem dirInv_of_reachable (s0 s : State) (h0 : DirInv s0) (h : DirReachable s0 s) :
    DirInv s := by
  induction h with
  | start => exact h0
  | mkdir args hlen _ ih => exact (dirInv_createDirectory _ ih args hlen).1
  | chdir args _ _ ih => exact dirInv_changeDirectory _ ih args

/-- C28. Invariant of the directory registry: in every state reached from the state
`init` leaves by `createDirectory` and `changeDirectory` calls, every key of
`directoryMap` starts with `/` and ends with `/`, and the current directory is a key of
`directoryMap`; `changeDirectory` to a path that is not registered leaves the state,
and so the current directory, unchanged. -/
theorem directory_registry_invariant (diskSize : Nat) (diskUnit : String) (blockSize : Nat)
    (blockUnit : String) (blocksCount : Nat) (s : State)
    (h : DirReachable (initState diskSize diskUnit blockSize blockUnit blocksCount) s) :
    (∀ p ∈ s.directoryMap, p.1.data.head? = some '/' ∧ p.1.data.getLast? = some '/') ∧
      dirCount s.directoryMap s.currentDir = 1 ∧
      (∀ args : String,
        dirCount s.directoryMap (terminateWithSlash (getAbsolutePath s args)) = 0 →
          changeDirectory s args = (s, false)) := by
  have hi := dirInv_of_reachable _ s (dirInv_initState _ _ _ _ _) h
  refine ⟨hi.keys, ?_, ?_⟩
  · obtain ⟨p, hp, hp1⟩ := hi.current
    unfold dirCount
    rw [if_pos]
    exact List.any_eq_true.mpr ⟨p, hp, by simpa using hp1⟩
  · intro args hc
    unfold changeDirectory
    simp only
    rw [if_pos hc]

/-- C28, after `mkdir(/a)`, `mkdir(/a/b)`, `chdir(/a/b)`, `chdir(/x)`: the current
directory `/a/b/` is one of the three keys, and `/x` was not entered. -/
theorem directory_registry_invariant_witness :
    (changeDirectory (changeDirectory (createDirectory (createDirectory
        (initState 4 "MB" 1 "MB" 4) "/a") "/a/b") "/a/b").1 "/x").1 = inDirRun ∧
      dirCount inDirRun.directoryMap inDirRun.currentDir = 1 ∧
      (∀ p ∈ inDirRun.directoryMap,
        p.1.data.head? = some '/' ∧ p.1.data.getLast? = some '/') :=
  have e : (changeDirectory (changeDirectory (createDirectory (createDirectory
      (initState 4 "MB" 1 "MB" 4) "/a") "/a/b") "/a/b").1 "/x").1 = inDirRun := by decide
  have h := directory_registry_invariant 4 "MB" 1 "MB" 4 _
    (DirReachable.chdir "/x" (by decide)
      (DirReachable.chdir "/a/b" (by decide)
        (DirReachable.mkdir "/a/b" (by decide)
          (DirReachable.mkdir "/a" (by decide) DirReachable.start))))
  ⟨e, e ▸ h.2.1, e ▸ h.1⟩

/-! ## Parent segments inside the remainder -/

/-- A text without `../` followed by `../` does not begin with `../` unless it is
empty: the pattern cannot start in the text and end in the `../` behind it. -/
theorem not_prefix_before_segment (c : Char) (m rest : List Char)
    (h : ¬ ("../" : String).data <:+: (c :: m)) :
    ¬ ("../" : String).data <+: (c :: m ++ '.' :: '.' :: '/' :: rest) := by
  have h : ¬ ['.', '.', '/'] <:+: (c :: m) := h
  show ¬ ['.', '.', '/'] <+: (c :: m ++ '.' :: '.' :: '/' :: rest)
  intro hp
  match m, h, hp with
  | [], _, hp =>
    simp only [List.cons_append, List.nil_append, List.cons_prefix_cons] at hp
    exact absurd hp.2.2.1 (by decide)
  | [d], _, hp =>
    simp only [List.cons_append, List.nil_append, List.cons_prefix_cons] at hp
    exact absurd hp.2.2.1 (by decide)
  | d :: e :: m1, h, hp =>
    simp only [List.cons_append, List.cons_prefix_cons] at hp
    obtain ⟨h1, h2, h3, _⟩ := hp
    apply h
    rw [← h1, ← h2, ← h3]
    exact (List.prefix_append ['.', '.', '/'] m1).isInfix

/-- The search for `../` in a text without `../` followed by `../` finds the one behind
the text. -/
theorem findAux_behind (rest : List Char) :
    ∀ (mid : List Char) (idx : Nat), ¬ ("../" : String).data <:+: mid →
      findAux ("../" : String).data (mid ++ '.' :: '.' :: '/' :: rest) idx = idx + mid.length
  | [], idx, _ => by
    have hp : ("../" : String).data <+: ('.' :: '.' :: '/' :: rest) := ⟨rest, rfl⟩
    rw [List.nil_append, findAux, if_pos hp]
    rfl
  | c :: m, idx, h => by
    have h1 := not_prefix_before_segment c m rest h
    have h2 : ¬ ("../" : String).data <:+: m :=
      fun hi => h (hi.trans (List.suffix_cons c m).isInfix)
    rw [List.cons_append] at h1 ⊢
    rw [findAux, if_neg h1, findAux_behind rest m (idx + 1) h2, List.length_cons]
    omega

/-- The search for `../` behind the leading segments finds the one inside the
remainder. -/
theorem strFind_interior (k : Nat) (mid rest : List Char)
    (hmid : ¬ ("../" : String).data <:+: mid) :
    strFind (String.mk (upSegments k ++ (mid ++ '.' :: '.' :: '/' :: rest))) "../" (3 * k) =
      3 * k + mid.length := by
  unfold strFind
  have hlen : ¬ (upSegments k ++ (mid ++ '.' :: '.' :: '/' :: rest)).length < 3 * k := by
    rw [List.length_append, length_upSegments]; omega
  simp only [hlen, if_false]
  rw [drop_upSegments _ k k (le_refl _), Nat.sub_self]
  exact findAux_behind rest mid (3 * k) hmid

/-- The search for `../` behind the one inside the remainder finds nothing. -/
theorem strFind_after_interior (k : Nat) (mid rest : List Char)
    (hrest : ¬ ("../" : String).data <:+: rest) :
    strFind (String.mk (upSegments k ++ (mid ++ '.' :: '.' :: '/' :: rest))) "../"
      (3 * k + mid.length + 3) = npos := by
  unfold strFind
  have hlen : ¬ (upSegments k ++ (mid ++ '.' :: '.' :: '/' :: rest)).length <
      3 * k + mid.length + 3 := by
    simp only [List.length_append, length_upSegments, List.length_cons]; omega
  simp only [hlen, if_false]
  have hd : (upSegments k ++ (mid ++ '.' :: '.' :: '/' :: rest)).drop
      (3 * k + mid.length + 3) = rest := by
    rw [show 3 * k + mid.length + 3 = 3 * k + (mid.length + 3) by omega, ← List.drop_drop,
      drop_upSegments _ k k (le_refl _), Nat.sub_self]
    show (mid ++ '.' :: '.' :: '/' :: rest).drop (mid.length + 3) = rest
    rw [← List.drop_drop, List.drop_left]
    rfl
  rw [hd]
  exact findAux_of_not_infix _ _ _ hrest

/-- The loop of `getAbsolutePath` over a path of `k` leading `../` segments and a
remainder with one `../` inside: started at the `j`-th segment it ends with
`levels = k + 1` and `lastpos` at the inner occurrence. -/
theorem scan_interior (k : Nat) (mid rest : List Char)
    (hmid : ¬ ("../" : String).data <:+: mid) (hrest : ¬ ("../" : String).data <:+: rest)
    (hlen : 3 * k + mid.length < npos) :
    ∀ (n j lastpos fuel : Nat), j + n = k → n + 1 ≤ fuel →
      getAbsolutePath.scan (String.mk (upSegments k ++ (mid ++ '.' :: '.' :: '/' :: rest)))
          fuel (if j < k then 3 * j else 3 * k + mid.length) j lastpos =
        (k + 1, 3 * k + mid.length)
  | 0, j, lastpos, fuel, hj, hf => by
    obtain ⟨f, rfl⟩ : ∃ f, fuel = f + 1 := ⟨fuel - 1, by omega⟩
    have hjk : ¬ j < k := by omega
    have hne : 3 * k + mid.length ≠ npos := by omega
    simp only [getAbsolutePath.scan, hjk, if_false, ne_eq, hne, not_false_eq_true, if_true]
    rw [strFind_after_interior k mid rest hrest, show j = k by omega]
    cases f <;> simp [getAbsolutePath.scan]
  | n + 1, j, lastpos, fuel, hj, hf => by
    obtain ⟨f, rfl⟩ : ∃ f, fuel = f + 1 := ⟨fuel - 1, by omega⟩
    have hjk : j < k := by omega
    have hne : 3 * j ≠ npos := by omega
    simp only [getAbsolutePath.scan, hjk, if_true, ne_eq, hne, not_false_eq_true]
    have hnext : strFind (String.mk (upSegments k ++ (mid ++ '.' :: '.' :: '/' :: rest)))
        "../" (3 * j + 3) = if j + 1 < k then 3 * (j + 1) else 3 * k + mid.length := by
      by_cases hlt : j + 1 < k
      · rw [if_pos hlt, show 3 * j + 3 = 3 * (j + 1) by omega]
        exact strFind_at_segment k (j + 1) _ hlt
      · rw [if_neg hlt, show 3 * j + 3 = 3 * k by omega]
        exact strFind_interior k mid rest hmid
    rw [hnext]
    exact scan_interior k mid rest hmid hrest hlen n (j + 1) (3 * j) f (by omega) (by omega)

/-- On a directory that starts and ends with `/`, one level more does not give a longer
result. -/
theorem moveUpDir_length_succ (dir : String) (hlen : dir.data.length + 1 < npos)
    (hhead : dir.data.head? = some '/') (hend : dir.data.getLast? = some '/') (k : Nat) :
    (moveUpDir dir (k + 1)).data.length ≤ (moveUpDir dir k).data.length := by
  obtain ⟨l⟩ := dir
  have hlen : l.length + 1 < npos := hlen
  have hhead : l.head? = some '/' := hhead
  have hend : l.getLast? = some '/' := hend
  rw [moveUpDir_wellformed l hlen hhead hend (k + 1), moveUpDir_wellformed l hlen hhead hend k]
  show (prefixThroughSlash (max (l.count '/' - (k + 1)) 1) l).length ≤
    (prefixThroughSlash (max (l.count '/' - k) 1) l).length
  rw [← prefixThroughSlash_twice (max (l.count '/' - (k + 1)) 1) (max (l.count '/' - k) 1) l
    (by omega)]
  exact (prefixThroughSlash_initial _ _).length_le

/-- C19, where the code departs from it.  For every state whose current directory starts
and ends with `/`, and every path that consists of `k ≥ 1` consecutive leading `../`
segments followed by a remainder `mid ++ "../" ++ rest` in which `mid` is not empty and
neither `mid` nor `rest` contains `../`: the remainder does not begin with `../`, yet
`getAbsolutePath` counts the `../` inside it as one more parent segment and keeps only the
text behind it, returning `moveUpDir (currentDir, k + 1)` followed by `rest`; this is
never the string `moveUpDir (currentDir, k)` followed by the remainder.  For a remainder
in which `../` does not occur at all the result is `moveUpDir (currentDir, k)` followed by
the remainder.  (The strings are `std::string`s: their lengths stay below `npos`.) -/
theorem parent_segments_interior_counted (s : State) (k : Nat) (mid rest : List Char)
    (hk : 1 ≤ k) (hmid0 : mid ≠ [])
    (hmid : ¬ ("../" : String).data <:+: mid) (hrest : ¬ ("../" : String).data <:+: rest)
    (hlen : (upSegments k ++ (mid ++ '.' :: '.' :: '/' :: rest)).length < npos)
    (hdir : s.currentDir.data.length + 1 < npos)
    (hhead : s.currentDir.data.head? = some '/')
    (hend : s.currentDir.data.getLast? = some '/') :
    ¬ ("../" : String).data <+: (mid ++ '.' :: '.' :: '/' :: rest) ∧
      getAbsolutePath s (String.mk (upSegments k ++ (mid ++ '.' :: '.' :: '/' :: rest))) =
        moveUpDir s.currentDir (k + 1) ++ "" ++ String.mk rest ∧
      getAbsolutePath s (String.mk (upSegments k ++ (mid ++ '.' :: '.' :: '/' :: rest))) ≠
        moveUpDir s.currentDir k ++ "" ++ String.mk (mid ++ '.' :: '.' :: '/' :: rest) ∧
      (∀ rem : List Char, ¬ ("../" : String).data <:+: rem →
        (upSegments k ++ rem).length < npos →
          getAbsolutePath s (String.mk (upSegments k ++ rem)) =
            moveUpDir s.currentDir k ++ "" ++ String.mk rem) := by
  have hbegin : ¬ ("../" : String).data <+: (mid ++ '.' :: '.' :: '/' :: rest) := by
    obtain ⟨c, m, rfl⟩ := List.exists_cons_of_ne_nil hmid0
    exact not_prefix_before_segment c m rest hmid
  have hres : getAbsolutePath s
      (String.mk (upSegments k ++ (mid ++ '.' :: '.' :: '/' :: rest))) =
      moveUpDir s.currentDir (k + 1) ++ "" ++ String.mk rest := by
    obtain ⟨m, rfl⟩ : ∃ m, k = m + 1 := ⟨k - 1, by omega⟩
    have hl3 : 3 * (m + 1) + mid.length < npos := by
      simp only [List.length_append, length_upSegments, List.length_cons] at hlen; omega
    have h1 : ltrim (String.mk (upSegments (m + 1) ++ (mid ++ '.' :: '.' :: '/' :: rest))) =
        String.mk (upSegments (m + 1) ++ (mid ++ '.' :: '.' :: '/' :: rest)) := by
      simp [ltrim, upSegments, List.dropWhile]
    have h2 : startsWithChar
        (String.mk (upSegments (m + 1) ++ (mid ++ '.' :: '.' :: '/' :: rest))) '/' = false := by
      simp [startsWithChar, upSegments]
    have h3 : startsWithChar
        (String.mk (upSegments (m + 1) ++ (mid ++ '.' :: '.' :: '/' :: rest))) '.' = true := by
      simp [startsWithChar, upSegments]
    have h4 : String.mk (upSegments (m + 1) ++ (mid ++ '.' :: '.' :: '/' :: rest)) ≠ "." := by
      intro h; have := congrArg String.data h; simp [upSegments] at this
    have h5 : String.mk (upSegments (m + 1) ++ (mid ++ '.' :: '.' :: '/' :: rest)) ≠ ".." := by
      intro h; have := congrArg String.data h; simp [upSegments] at this
    have h6 : strSubstr
        (String.mk (upSegments (m + 1) ++ (mid ++ '.' :: '.' :: '/' :: rest))) 0 3 = "../" := by
      simp [strSubstr, upSegments]
    have h7 := strFind_at_segment (m + 1) 0 (mid ++ '.' :: '.' :: '/' :: rest) (by omega)
    have h8 := scan_interior (m + 1) mid rest hmid hrest hl3 (m + 1) 0 0
      ((upSegments (m + 1) ++ (mid ++ '.' :: '.' :: '/' :: rest)).length + 1) (by omega)
      (by rw [List.length_append, length_upSegments]; omega)
    simp only [Nat.mul_zero, Nat.zero_lt_succ, if_true] at h7 h8
    simp only [getAbsolutePath, h1, h2, h3, h4, h5, h6, if_true, if_false,
      Bool.false_eq_true, h7, h8]
    have h9 : strSubstrFrom
        (String.mk (upSegments (m + 1) ++ (mid ++ '.' :: '.' :: '/' :: rest)))
        (3 * (m + 1) + mid.length + 3) = String.mk rest := by
      unfold strSubstrFrom
      simp only
      rw [show 3 * (m + 1) + mid.length + 3 = 3 * (m + 1) + (mid.length + 3) by omega,
        ← List.drop_drop, drop_upSegments _ (m + 1) (m + 1) (le_refl _), Nat.sub_self]
      show String.mk ((mid ++ '.' :: '.' :: '/' :: rest).drop (mid.length + 3)) = String.mk rest
      rw [← List.drop_drop, List.drop_left]
      rfl
    rw [h9]
  refine ⟨hbegin, hres, ?_, ?_⟩
  · rw [hres]
    intro heq
    have hl := congrArg (fun t : String => t.data.length) heq
    simp only [String.data_append, List.length_append, List.length_cons] at hl
    have hm := moveUpDir_length_succ s.currentDir hdir hhead hend k
    omega
  · intro rem hrem hlrem
    exact parent_segments_resolution s k rem hk hrem hlrem

/-- C19, in the directory `/a/b/`: the paths `../a../b` and `../a/../b` (one leading
`../`, then `a` or `a/`, then `../`, then `b`) resolve to `/b`, two levels up; the plain
`../x` resolves to `/a/x`. -/
theorem parent_segments_interior_counted_witness :
    getAbsolutePath inDirRun "../a../b" = "/b" ∧
      getAbsolutePath inDirRun "../a../b" ≠ "/a/a../b" ∧
      getAbsolutePath inDirRun "../a/../b" = "/b" ∧
      getAbsolutePath inDirRun "../x" = "/a/x" :=
  have h := parent_segments_interior_counted inDirRun 1 ['a'] ['b'] (by decide) (by decide)
    (by decide) (by decide) (by decide) (by decide) (by decide) (by decide)
  have h2 := parent_segments_interior_counted inDirRun 1 ['a', '/'] ['b'] (by decide)
    (by decide) (by decide) (by decide) (by decide) (by decide) (by decide) (by decide)
  ⟨h.2.1.trans (by decide), h.2.2.1, h2.2.1.trans (by decide),
    (h.2.2.2 ['x'] (by decide) (by decide)).trans (by decide)⟩

end LogFS
